import Mathlib

/-!
# symusic batch operations (`include/symusic/ops.h`): the time remapper

A shallow embedding of `symusic::ops::adjust_time_sorted`, `adjust_time` and the
helpers they use, for the integer tick instantiation of the unit type, and of `filter`,
`clip`, `clamp_dur`, `start`, `end` and the comparators of `sort_notes` and `sort_pedals`.

* `vec<T>` is `List T`; iterators into a vector are positions (`Nat`).
* `T::unit` is the 32-bit integer type of ticks: a tick is an `Int` of the range
  `[-2^31, 2^31)` (`in_i32`), and the result of `+` or `-` on ticks is reduced to that
  range modulo `2^32` (`wrap_i32`), as two's-complement hardware does.
* `f64` arithmetic is IEEE-754 binary64 with round-to-nearest, ties-to-even (`F64`).
  The expression `a + b * c` is either rounded twice or contracted into one fused
  multiply-add, as the build decides; the functions that evaluate it take the choice as the
  argument `fp_contract`, and the theorems hold for both values.
* `start` and `end` are embedded for any ordered unit type, with the constants
  `std::numeric_limits<unit>::max()` and `std::numeric_limits<unit>::min()` as arguments.
* Reading `original_times[i]` / `new_times[i]` past the end and converting an `f64` that
  is not finite, or whose integer part is not a 32-bit tick, have no defined result in
  C++; the embedding reports them as `Error.out_of_range` and `Error.not_finite`.
-/

namespace symusic

/-! ## `f64` -/

/-- Floor of the binary logarithm, by repeated halving (`fuel` bounds the number of halvings). -/
def log2_fuel : Nat → Nat → Nat
  | 0, _ => 0
  | fuel + 1, n => if n < 2 then 0 else log2_fuel fuel (n / 2) + 1

/-- Floor of the binary logarithm of a natural number (`0` for `0`). -/
def nat_log2 (n : Nat) : Nat := log2_fuel n n

/-- Round to the nearest integer, ties to the even one. -/
def rne (m : ℚ) : ℤ :=
  if m - ⌊m⌋ < 1 / 2 then ⌊m⌋
  else if 1 / 2 < m - ⌊m⌋ then ⌊m⌋ + 1
  else if ⌊m⌋ % 2 = 0 then ⌊m⌋ else ⌊m⌋ + 1

/-- The exponent `e` with `2 ^ e ≤ |q| < 2 ^ (e + 1)`, for `q ≠ 0`. -/
def binade (q : ℚ) : ℤ :=
  if (2 : ℚ) ^ ((nat_log2 q.num.natAbs : ℤ) - (nat_log2 q.den : ℤ)) ≤ |q|
  then (nat_log2 q.num.natAbs : ℤ) - (nat_log2 q.den : ℤ)
  else (nat_log2 q.num.natAbs : ℤ) - (nat_log2 q.den : ℤ) - 1

/-- Rounding of a real result to binary64: 53 significant bits, nearest, ties to even.
The exponent range is not bounded: overflow and subnormal results cannot arise from
operands that were converted from 32-bit ticks. -/
def round53 (q : ℚ) : ℚ :=
  if q = 0 then 0 else (rne (q / (2 : ℚ) ^ (binade q - 52)) : ℚ) * (2 : ℚ) ^ (binade q - 52)

/-- Values of the C++ type `f64` (`double`).  Signed zeros are not distinguished: the only
division of the remapper has a divisor converted from an integer, which is never `-0.0`. -/
inductive F64 where
  | finite (q : ℚ)
  | inf (negative : Bool)
  | nan
  deriving DecidableEq

namespace F64

/-- The conversion `static_cast<f64>(n)` of a tick. -/
def of_int (n : Int) : F64 := finite (round53 n)

/-- The operator `/` on `f64`. -/
def div : F64 → F64 → F64
  | finite a, finite b =>
    if b = 0 then (if a = 0 then nan else inf (decide (a < 0))) else finite (round53 (a / b))
  | finite _, inf _ => finite 0
  | inf s, finite b => inf (s != decide (b < 0))
  | _, _ => nan

/-- The operator `*` on `f64`. -/
def mul : F64 → F64 → F64
  | finite a, finite b => finite (round53 (a * b))
  | finite a, inf s => if a = 0 then nan else inf (s != decide (a < 0))
  | inf s, finite b => if b = 0 then nan else inf (s != decide (b < 0))
  | inf s, inf t => inf (s != t)
  | _, _ => nan

/-- The operator `+` on `f64`. -/
def add : F64 → F64 → F64
  | finite a, finite b => finite (round53 (a + b))
  | finite _, inf s => inf s
  | inf s, finite _ => inf s
  | inf s, inf t => if s = t then inf s else nan
  | _, _ => nan

/-- The fused multiply-add `a * b + c`: the exact result is rounded once.  With an operand
that is not finite no rounding takes place, and the result is that of `*` and `+`. -/
def fma : F64 → F64 → F64 → F64
  | finite a, finite b, finite c => finite (round53 (a * b + c))
  | a, b, c => add c (mul a b)

/-- The expression `c + a * b` of type `f64`.  C++ allows the compiler to contract it into
one fused multiply-add; whether it does is fixed by the build (`fp_contract`). -/
def add_mul (fp_contract : Bool) (c a b : F64) : F64 :=
  if fp_contract then fma a b c else add c (mul a b)

/-- Truncation toward zero. -/
def trunc (q : ℚ) : Int := if 0 ≤ q then ⌊q⌋ else ⌈q⌉

/-- The conversion `static_cast<unit>(x)` of an `f64` to a 32-bit tick: truncation toward
zero; no result for an infinity, a NaN, or a value whose integer part is outside
`[-2^31, 2^31)`. -/
def to_int : F64 → Option Int
  | finite q => if -2 ^ 31 ≤ trunc q ∧ trunc q < 2 ^ 31 then some (trunc q) else none
  | _ => none

end F64

/-! ## Ticks -/

/-- The value of a 32-bit tick computation whose exact result is `x`: the representative of
`x` modulo `2^32` in `[-2^31, 2^31)`.  (Signed overflow is undefined in C++; this is the
result of the two's-complement `add` and `sub` instructions.) -/
def wrap_i32 (x : Int) : Int := (x + 2 ^ 31) % 2 ^ 32 - 2 ^ 31

/-! ## Events and failures -/

/-- An event of one concrete kind `T`: `time`, the `duration` field of the duration-bearing
kinds (`Note`, `Pedal`), and the remaining fields of the record as `payload`.  The kinds
without a duration field are handled with `has_dur = false`, where `duration` is neither
read nor written. -/
structure Event (P : Type) where
  time : Int
  duration : Int
  payload : P
  deriving DecidableEq

/-- How a call can fail. -/
inductive Error where
  /-- The exception `std::invalid_argument` thrown by the length checks. -/
  | invalid_argument
  /-- A read of `original_times` / `new_times` past the end. -/
  | out_of_range
  /-- A conversion to a tick of an `f64` that is infinite, NaN, or outside the 32-bit range. -/
  | not_finite
  deriving DecidableEq

deriving instance DecidableEq for Except

namespace ops

variable {α β γ P : Type}

/-- The lambda `get_end`: `time + duration` when the kind has a duration, else `time`; the
sum is taken in the tick type. -/
def get_end (has_dur : Bool) (event : Event P) : Int :=
  if has_dur then wrap_i32 (event.time + event.duration) else event.time

/-! ## Library primitives used by the remapper -/

/-- The halving loop of `std::lower_bound(first, first + len, value, comp)`, where
`comp x` is `comp(x, value)`; `fuel` bounds the number of halvings. -/
def lower_bound_loop (comp : α → Bool) (xs : List α) : Nat → Nat → Nat → Nat
  | 0, first, _ => first
  | fuel + 1, first, len =>
    if len = 0 then first
    else
      match xs[first + len / 2]? with
      | none => first
      | some x =>
        if comp x then lower_bound_loop comp xs fuel (first + len / 2 + 1) (len - len / 2 - 1)
        else lower_bound_loop comp xs fuel first (len / 2)

/-- The call `std::lower_bound(xs.begin() + first, xs.begin() + last, value, comp)`. -/
def lower_bound (comp : α → Bool) (xs : List α) (first last : Nat) : Nat :=
  lower_bound_loop comp xs (last - first) first (last - first)

/-- The halving loop of `std::upper_bound(first, first + len, value, comp)`, where
`comp x` is `comp(value, x)`. -/
def upper_bound_loop (comp : α → Bool) (xs : List α) : Nat → Nat → Nat → Nat
  | 0, first, _ => first
  | fuel + 1, first, len =>
    if len = 0 then first
    else
      match xs[first + len / 2]? with
      | none => first
      | some x =>
        if comp x then upper_bound_loop comp xs fuel first (len / 2)
        else upper_bound_loop comp xs fuel (first + len / 2 + 1) (len - len / 2 - 1)

/-- The call `std::upper_bound(xs.begin() + first, xs.begin() + last, value, comp)`. -/
def upper_bound (comp : α → Bool) (xs : List α) (first last : Nat) : Nat :=
  upper_bound_loop comp xs (last - first) first (last - first)

/-- One step of the insertion sort: the element `x` is sifted to the left past every
element `y` of the sorted part (given from right to left) with `comp x y`. -/
def sift (comp : α → α → Bool) (x : α) : List α → List α
  | [] => [x]
  | y :: ys => if comp x y then y :: sift comp x ys else x :: y :: ys

/-- The loop of the insertion sort: `done` is the sorted part, from right to left. -/
def insertion_sort_loop (comp : α → α → Bool) : List α → List α → List α
  | done, [] => done.reverse
  | done, x :: rest => insertion_sort_loop comp (sift comp x done) rest

/-- Modelled from the spec: `pdqsort_detail::insertion_sort` is defined in `pdqsort.h`, which
is not among the sources; the spec calls it "a cheap insertion sort".  It is the textbook
insertion sort, which sifts each element to the left while it compares less. -/
def insertion_sort (comp : α → α → Bool) (xs : List α) : List α :=
  insertion_sort_loop comp [] xs

/-! ## `adjust_time_sorted` -/

/-- The lambda `get_factor`: the slope of segment `x`.  Both differences are taken in the
tick type before they are converted to `f64`. -/
def get_factor (original_times new_times : List Int) (x : Nat) : Option F64 :=
  match new_times[x]?, new_times[x - 1]?, original_times[x]?, original_times[x - 1]? with
  | some n1, some n0, some o1, some o0 =>
    some (F64.div (F64.of_int (wrap_i32 (n1 - n0))) (F64.of_int (wrap_i32 (o1 - o0))))
  | _, _, _, _ => none

/-- The loop `while (t > original_times[pivot]) { pivot++; cur_factor = get_factor(pivot); }`.
The list argument is `original_times` from position `pivot` on. -/
def advance (original_times new_times : List Int) (t : Int) :
    List Int → Nat → F64 → Except Error (Nat × F64)
  | [], _, _ => .error .out_of_range
  | o :: rest, pivot, cur_factor =>
    if t > o then
      match get_factor original_times new_times (pivot + 1) with
      | none => .error .out_of_range
      | some f => advance original_times new_times t rest (pivot + 1) f
    else .ok (pivot, cur_factor)

/-- The expression `static_cast<unit>(static_cast<f64>(new_times[pivot - 1]) +
cur_factor * static_cast<f64>(t - original_times[pivot - 1]))`; the difference is taken in
the tick type. -/
def interpolate (fp_contract : Bool) (original_times new_times : List Int) (pivot : Nat)
    (cur_factor : F64) (t : Int) : Except Error Int :=
  match new_times[pivot - 1]?, original_times[pivot - 1]? with
  | some n0, some o0 =>
    match F64.to_int (F64.add_mul fp_contract (F64.of_int n0) cur_factor
        (F64.of_int (wrap_i32 (t - o0)))) with
    | some v => .ok v
    | none => .error .not_finite
  | _, _ => .error .out_of_range

/-- The first `for` loop (duration-bearing kinds): the mapped end time is stored in `duration`. -/
def duration_pass (fp_contract : Bool) (original_times new_times : List Int) :
    List (Event P) → Nat → F64 → Except Error (List (Event P))
  | [], _, _ => .ok []
  | event :: rest, pivot, cur_factor =>
    match advance original_times new_times (get_end true event)
        (original_times.drop pivot) pivot cur_factor with
    | .error err => .error err
    | .ok (pivot1, factor1) =>
      match interpolate fp_contract original_times new_times pivot1 factor1
          (get_end true event) with
      | .error err => .error err
      | .ok mapped_end =>
        match duration_pass fp_contract original_times new_times rest pivot1 factor1 with
        | .error err => .error err
        | .ok rest1 => .ok ({ event with duration := mapped_end } :: rest1)

/-- The second `for` loop: the time is mapped, and for duration-bearing kinds the stored
mapped end time is turned into a duration (`event.duration -= event.time`, in the tick
type). -/
def time_pass (fp_contract : Bool) (has_dur : Bool) (original_times new_times : List Int) :
    List (Event P) → Nat → F64 → Except Error (List (Event P))
  | [], _, _ => .ok []
  | event :: rest, pivot, cur_factor =>
    match advance original_times new_times event.time
        (original_times.drop pivot) pivot cur_factor with
    | .error err => .error err
    | .ok (pivot1, factor1) =>
      match interpolate fp_contract original_times new_times pivot1 factor1 event.time with
      | .error err => .error err
      | .ok mapped_time =>
        match time_pass fp_contract has_dur original_times new_times rest pivot1 factor1 with
        | .error err => .error err
        | .ok rest1 =>
          .ok ((if has_dur then
                  { event with time := mapped_time,
                               duration := wrap_i32 (event.duration - mapped_time) }
                else { event with time := mapped_time }) :: rest1)

/-- The iterator `begin_event`: the first event with `time >= original_times[0]`. -/
def begin_event (events : List (Event P)) (first_time : Int) : Nat :=
  match events with
  | [] => 0
  | event :: _ =>
    if event.time ≥ first_time then 0
    else lower_bound (fun e => decide (e.time < first_time)) events 0 events.length

/-- The iterator `end_event`: the first event, from `begin_event` on, that ends after
`original_times.back()`. -/
def end_event (has_dur : Bool) (events : List (Event P)) (last_time : Int) (begin_ev : Nat) :
    Nat :=
  match events.getLast? with
  | none => 0
  | some event =>
    if get_end has_dur event ≤ last_time then events.length
    else upper_bound (fun e => decide (last_time < get_end has_dur e)) events begin_ev
      events.length

/-- The range `[begin_event, end_event)` that is copied into `new_events` (empty when
`end_event <= begin_event`). -/
def kept_range (has_dur : Bool) (events : List (Event P)) (first_time last_time : Int) :
    List (Event P) :=
  if end_event has_dur events last_time (begin_event events first_time)
      ≤ begin_event events first_time then []
  else (events.drop (begin_event events first_time)).take
    (end_event has_dur events last_time (begin_event events first_time)
      - begin_event events first_time)

/-- The comparator of the second insertion sort:
`std::tie(a.time, a.duration) < std::tie(b.time, b.duration)`. -/
def time_dur_less (a b : Event P) : Bool :=
  decide (a.time < b.time) || (!decide (b.time < a.time) && decide (a.duration < b.duration))

/-- The function `adjust_time_sorted`; `has_dur` is the constant `HashDuration<T>`. -/
def adjust_time_sorted (fp_contract : Bool) (has_dur : Bool) (events : List (Event P))
    (original_times new_times : List Int) : Except Error (List (Event P)) :=
  if original_times.length ≠ new_times.length then .error .invalid_argument
  else if original_times.length < 2 then .error .invalid_argument
  else if events.isEmpty then .ok []
  else
    match original_times.head?, original_times.getLast? with
    | some first_time, some last_time =>
      match kept_range has_dur events first_time last_time with
      | [] => .ok []
      | new_events =>
        match get_factor original_times new_times 1 with
        | none => .error .out_of_range
        | some factor1 =>
          if has_dur then
            match duration_pass fp_contract original_times new_times
                (insertion_sort (fun a b => decide (get_end true a < get_end true b)) new_events)
                1 factor1 with
            | .error err => .error err
            | .ok with_ends =>
              time_pass fp_contract true original_times new_times
                (insertion_sort time_dur_less with_ends) 1 factor1
          else time_pass fp_contract false original_times new_times new_events 1 factor1
    | _, _ => .ok []

/-! ## `adjust_time` -/

/-- Modelled from the spec: `pdqsort_branchless` is defined in `pdqsort.h`, which is not among
the sources; the spec describes it as "a generic, comparator-driven, O(n log n) in-place sort
over random-access sequences (no stability guarantee required)".  It is a parameter of the
functions that call it. -/
abbrev SortFn : Type 1 := (α : Type) → (α → α → Bool) → List α → List α

/-- A comparator is a strict weak order: asymmetric, and its complement is transitive. -/
def StrictWeak (comp : α → α → Bool) : Prop :=
  (∀ a b, comp a b = true → comp b a = false) ∧
    (∀ a b c, comp a b = false → comp b c = false → comp a c = false)

/-- What the spec assumes of the external sort: under a strict weak order the result is a
rearrangement of the input in which no element compares less than an earlier one. -/
def IsSort (sort : SortFn) : Prop :=
  ∀ (α : Type) (comp : α → α → Bool) (xs : List α), StrictWeak comp →
    (sort α comp xs).Perm xs ∧ (sort α comp xs).Pairwise (fun a b => comp b a = false)

/-- The function `sort_by_time`. -/
def sort_by_time (pdqsort_branchless : SortFn) (data : List (Event P)) (reverse : Bool) :
    List (Event P) :=
  if reverse then pdqsort_branchless (Event P) (fun a b => decide (a.time > b.time)) data
  else pdqsort_branchless (Event P) (fun a b => decide (a.time < b.time)) data

/-- The function `adjust_time` on a sequence of events. -/
def adjust_time (pdqsort_branchless : SortFn) (fp_contract : Bool) (has_dur : Bool)
    (events : List (Event P)) (original_times new_times : List Int) (sorted : Bool) :
    Except Error (List (Event P)) :=
  if sorted then adjust_time_sorted fp_contract has_dur events original_times new_times
  else
    adjust_time_sorted fp_contract has_dur (sort_by_time pdqsort_branchless events false)
      (pdqsort_branchless Int (fun a b => decide (a < b)) original_times)
      (pdqsort_branchless Int (fun a b => decide (a < b)) new_times)

/-- The insertion sort as an instance of the external sort. -/
def insertion_sort_fn : SortFn := fun _ comp xs => insertion_sort comp xs

/-! ## Tracks and scores -/

/-- Modelled from the spec: the event records (`Note`, `ControlChange`, `PitchBend`, `Pedal`,
`TimeSignature`, `KeySignature`, `Tempo`, `TextMeta`) are declared in `symusic/event.h`, which
is not among the sources.  For each kind, the fields other than `time` and `duration` are a
parameter. -/
structure Kinds : Type 1 where
  note : Type
  control : Type
  pitch_bend : Type
  pedal : Type
  time_signature : Type
  key_signature : Type
  tempo : Type
  lyric : Type
  marker : Type

/-- Modelled from the spec: the record `Track` is declared in `symusic/score.h`, which is not
among the sources; the fields are those read and written by `adjust_time`. -/
structure Track (K : Kinds) where
  name : String
  program : Nat
  is_drum : Bool
  notes : List (Event K.note)
  controls : List (Event K.control)
  pitch_bends : List (Event K.pitch_bend)
  pedals : List (Event K.pedal)

/-- Modelled from the spec: the record `Score` is declared in `symusic/score.h`, which is not
among the sources; the fields are those read and written by `adjust_time`. -/
structure Score (K : Kinds) where
  ticks_per_quarter : Int
  tracks : List (Track K)
  time_signatures : List (Event K.time_signature)
  key_signatures : List (Event K.key_signature)
  tempos : List (Event K.tempo)
  lyrics : List (Event K.lyric)
  markers : List (Event K.marker)

/-- The function `adjust_time` on a track.  Notes and pedals have a duration, controls and
pitch bends have none. -/
def adjust_time_track {K : Kinds} (pdqsort_branchless : SortFn) (fp_contract : Bool)
    (track : Track K)
    (original_times new_times : List Int) (sorted : Bool) : Except Error (Track K) :=
  match adjust_time pdqsort_branchless fp_contract true track.notes original_times new_times sorted with
  | .error err => .error err
  | .ok notes =>
    match adjust_time pdqsort_branchless fp_contract false track.controls original_times new_times
        sorted with
    | .error err => .error err
    | .ok controls =>
      match adjust_time pdqsort_branchless fp_contract false track.pitch_bends original_times new_times
          sorted with
      | .error err => .error err
      | .ok pitch_bends =>
        match adjust_time pdqsort_branchless fp_contract true track.pedals original_times new_times
            sorted with
        | .error err => .error err
        | .ok pedals =>
          .ok { name := track.name, program := track.program, is_drum := track.is_drum,
                notes := notes, controls := controls, pitch_bends := pitch_bends,
                pedals := pedals }

/-- The loop `for (track : score.tracks) new_score.tracks.push_back(adjust_time(track, ...))`. -/
def adjust_time_tracks {K : Kinds} (pdqsort_branchless : SortFn) (fp_contract : Bool)
    (original_times new_times : List Int) (sorted : Bool) :
    List (Track K) → Except Error (List (Track K))
  | [] => .ok []
  | track :: rest =>
    match adjust_time_track pdqsort_branchless fp_contract track original_times new_times sorted with
    | .error err => .error err
    | .ok track1 =>
      match adjust_time_tracks pdqsort_branchless fp_contract original_times new_times sorted rest
          with
      | .error err => .error err
      | .ok rest1 => .ok (track1 :: rest1)

/-- The function `adjust_time` on a score. -/
def adjust_time_score {K : Kinds} (pdqsort_branchless : SortFn) (fp_contract : Bool)
    (score : Score K)
    (original_times new_times : List Int) (sorted : Bool) : Except Error (Score K) :=
  match adjust_time_tracks pdqsort_branchless fp_contract original_times new_times sorted
      score.tracks with
  | .error err => .error err
  | .ok tracks =>
    match adjust_time pdqsort_branchless fp_contract false score.time_signatures original_times new_times
        sorted with
    | .error err => .error err
    | .ok time_signatures =>
      match adjust_time pdqsort_branchless fp_contract false score.key_signatures original_times new_times
          sorted with
      | .error err => .error err
      | .ok key_signatures =>
        match adjust_time pdqsort_branchless fp_contract false score.tempos original_times new_times
            sorted with
        | .error err => .error err
        | .ok tempos =>
          match adjust_time pdqsort_branchless fp_contract false score.lyrics original_times new_times
              sorted with
          | .error err => .error err
          | .ok lyrics =>
            match adjust_time pdqsort_branchless fp_contract false score.markers original_times new_times
                sorted with
            | .error err => .error err
            | .ok markers =>
              .ok { ticks_per_quarter := score.ticks_per_quarter, tracks := tracks,
                    time_signatures := time_signatures, key_signatures := key_signatures,
                    tempos := tempos, lyrics := lyrics, markers := markers }

/-! ## The statement of the mapping -/

/-- The common shape of the two `for` loops: the pivot is advanced to the key of the event,
the key is interpolated, and the event is updated with the result. -/
def pivot_pass (fp_contract : Bool) (key : Event P → Int) (update : Event P → Int → Event P)
    (original_times new_times : List Int) :
    List (Event P) → Nat → F64 → Except Error (List (Event P))
  | [], _, _ => .ok []
  | event :: rest, pivot, cur_factor =>
    match advance original_times new_times (key event)
        (original_times.drop pivot) pivot cur_factor with
    | .error err => .error err
    | .ok (pivot1, factor1) =>
      match interpolate fp_contract original_times new_times pivot1 factor1 (key event) with
      | .error err => .error err
      | .ok v =>
        match pivot_pass fp_contract key update original_times new_times rest pivot1 factor1
          with
        | .error err => .error err
        | .ok rest1 => .ok (update event v :: rest1)

/-- The index `k` is the least index `≥ 1` with `t ≤ original_times[k]`. -/
def is_segment (original_times : List Int) (t : Int) (k : Nat) : Prop :=
  1 ≤ k ∧ k < original_times.length ∧ t ≤ original_times.getD k 0 ∧
    ∀ j, j < k → 1 ≤ j → original_times.getD j 0 < t

/-- The value `new_times[k-1] + factor_k * (t - original_times[k-1])` converted to a tick,
where `factor_k = (new_times[k] - new_times[k-1]) / (original_times[k] - original_times[k-1])`.
The three differences are the exact integers; the division, the product and the sum are
those of `f64`. -/
def segment_value (fp_contract : Bool) (original_times new_times : List Int) (k : Nat)
    (t : Int) : Option Int :=
  match new_times[k]?, new_times[k - 1]?, original_times[k]?, original_times[k - 1]? with
  | some n1, some n0, some o1, some o0 =>
    F64.to_int (F64.add_mul fp_contract (F64.of_int n0)
      (F64.div (F64.of_int (n1 - n0)) (F64.of_int (o1 - o0))) (F64.of_int (t - o0)))
  | _, _, _, _ => none

/-- The point `t` is mapped to `v` through the segment that contains it. -/
def maps_to (fp_contract : Bool) (original_times new_times : List Int) (t v : Int) : Prop :=
  ∃ k, is_segment original_times t k ∧
    segment_value fp_contract original_times new_times k t = some v

/-- The tick `x` is a value of the 32-bit integer type of ticks. -/
def in_i32 (x : Int) : Prop := -2 ^ 31 ≤ x ∧ x < 2 ^ 31

/-- The value of the curve at `t` in segment `k` in exact arithmetic, before any rounding
or truncation: `new_times[k-1] + (new_times[k] - new_times[k-1]) * (t - original_times[k-1])
/ (original_times[k] - original_times[k-1])` as a rational number. -/
def segment_exact (original_times new_times : List Int) (k : Nat) (t : Int) : ℚ :=
  (new_times.getD (k - 1) 0 : ℚ)
    + ((new_times.getD k 0 - new_times.getD (k - 1) 0 : ℤ) : ℚ)
      * ((t - original_times.getD (k - 1) 0 : ℤ) : ℚ)
      / ((original_times.getD k 0 - original_times.getD (k - 1) 0 : ℤ) : ℚ)

/-- The tick `v` differs by less than a tick and a quarter from the exact value of the curve
at `t`: less than a tick for the truncation and at most a quarter for the roundings. -/
def near_exact (original_times new_times : List Int) (t v : Int) : Prop :=
  ∃ k, is_segment original_times t k ∧
    |(v : ℚ) - segment_exact original_times new_times k t| < 5 / 4

/-- The `f64` value of `new_times[k-1] + factor_k * (t - original_times[k-1])` before the
conversion to a tick, for `n0 = new_times[k-1]`, `n1 = new_times[k]`,
`o0 = original_times[k-1]`, `o1 = original_times[k]` and a segment of non-zero length: the
product and the sum are rounded once when they are fused, else each on its own. -/
def segment_real (fp_contract : Bool) (n0 n1 o0 o1 t : Int) : ℚ :=
  if fp_contract then
    round53 (round53 (round53 ((n1 - n0 : ℤ) : ℚ) / round53 ((o1 - o0 : ℤ) : ℚ))
        * round53 ((t - o0 : ℤ) : ℚ) + round53 (n0 : ℤ))
  else
    round53 (round53 (n0 : ℤ)
      + round53 (round53 (round53 ((n1 - n0 : ℤ) : ℚ) / round53 ((o1 - o0 : ℤ) : ℚ))
          * round53 ((t - o0 : ℤ) : ℚ)))

/-! ## `filter`, `clip`, `clamp_dur` -/

/-- The call `std::copy_if(first, last, std::back_inserter(out), pred)`: every element that
satisfies `pred` is appended to `out`, in the order of the input. -/
def copy_if (pred : α → Bool) : List α → List α → List α
  | [], out => out
  | x :: rest, out => copy_if pred rest (if pred x then out ++ [x] else out)

/-- The function `filter` (`reserve` and `shrink_to_fit` do not change the contents). -/
def filter (data : List α) (t_fiter : α → Bool) : List α :=
  if data.isEmpty then [] else copy_if t_fiter data []

/-- The function `clip` with three arguments (the window is `[start, end_time)`). -/
def clip (events : List (Event P)) (start end_time : Int) : List (Event P) :=
  filter events (fun event => decide (event.time ≥ start) && decide (event.time < end_time))

/-- The function `clip` with the fourth argument `clip_end`, for events with duration; the
sum `event.time + event.duration` is taken in the tick type. -/
def clip_with_end (events : List (Event P)) (start end_time : Int) (clip_end : Bool) :
    List (Event P) :=
  if clip_end then
    filter events
      (fun event => decide (event.time ≥ start) &&
        decide (wrap_i32 (event.time + event.duration) ≤ end_time))
  else clip events start end_time

/-- The function `std::clamp(v, lo, hi)`: `lo` if `v` is less than `lo`, `hi` if `hi` is less
than `v`, otherwise `v`.  The C++ standard requires `lo ≤ hi` and leaves the result undefined
otherwise; the definition follows its "Returns" clause for all arguments. -/
def clamp (v lo hi : Int) : Int := if v < lo then lo else if hi < v then hi else v

/-- The function `clamp_dur_inplace`: the contents of the vector after the loop, which is
also what the returned reference denotes. -/
def clamp_dur_inplace (events : List (Event P)) (min_dur max_dur : Int) : List (Event P) :=
  match events with
  | [] => []
  | event :: rest =>
    { event with duration := clamp event.duration min_dur max_dur }
      :: clamp_dur_inplace rest min_dur max_dur

/-- The function `clamp_dur`: the events are copied and the copy is clamped in place. -/
def clamp_dur (events : List (Event P)) (min_dur max_dur : Int) : List (Event P) :=
  clamp_dur_inplace events min_dur max_dur

/-! ## `start` and `end` -/

/-- The function `start`.  The template argument is any kind of event `T` with a field `time`
of the unit type `U` (32-bit ticks, or the real-valued quarters and seconds); `unit_max` is
`std::numeric_limits<unit>::max()`, and `std::min(ans, x)` is `x` when `x < ans`. -/
def start {T U : Type} [LinearOrder U] [Zero U] (unit_max : U) (time : T → U)
    (events : List T) : U :=
  if events.isEmpty then 0
  else events.foldl (fun ans event => if time event < ans then time event else ans) unit_max

/-- The function `end`.  `unit_min` is `std::numeric_limits<unit>::min()`, `has_dur` is
`HashDuration<T>`, and `std::max(ans, x)` is `x` when `ans < x`.  The sum `time + duration`
is the `+` of `U`; for 32-bit ticks it is used under the hypothesis that the sum is a tick. -/
def end_ {T U : Type} [LinearOrder U] [Zero U] [Add U] (unit_min : U) (has_dur : Bool)
    (time duration : T → U) (events : List T) : U :=
  if events.isEmpty then 0
  else events.foldl
    (fun ans event =>
      if ans < (if has_dur then time event + duration event else time event)
      then (if has_dur then time event + duration event else time event) else ans) unit_min

/-- The value `std::numeric_limits<i32>::max()`. -/
def i32_max : Int := 2 ^ 31 - 1

/-- The value `std::numeric_limits<i32>::min()`. -/
def i32_min : Int := -2 ^ 31

/-- The value `std::numeric_limits<f32>::min()`: for a floating-point type `min()` is the
smallest positive normal value (`2 ^ (-126)` for the 32-bit type, `2 ^ (-1022)` for the
64-bit type), not the most negative value. -/
def f32_min : ℚ := 1 / 2 ^ 126

/-- Modelled from the spec: the unit types are declared outside `ops.h`; the spec gives the
unit as an integer tick count or real-valued seconds.  An event of a kind whose unit type is
real-valued; the finite values of a floating-point type are rational numbers. -/
structure RealEvent (P : Type) where
  time : ℚ
  duration : ℚ
  payload : P

/-! ## The ordering of notes and pedals -/

/-- Modelled from the spec: the record `Note` is declared in `symusic/event.h`, which is not
among the sources; the spec gives its key as `(time, duration, pitch, velocity)`.  These are
the fields other than `time` and `duration`. -/
structure NoteFields where
  pitch : Int
  velocity : Int
  deriving DecidableEq

/-- The three-way comparison of two tuples of integers, as `std::tuple` compares: by the
first component in which they differ. -/
def tuple_compare : List Int → List Int → Ordering
  | [], [] => .eq
  | [], _ :: _ => .lt
  | _ :: _, [] => .gt
  | x :: xs, y :: ys => if x < y then .lt else if y < x then .gt else tuple_compare xs ys

/-- The macro `KEY(NOTE)` of `sort_notes`. -/
def note_key (note : Event NoteFields) : List Int :=
  [note.time, note.duration, note.payload.pitch, note.payload.velocity]

/-- The macro `KEY(PEDAL)` of `sort_pedals`. -/
def pedal_key (pedal : Event P) : List Int := [pedal.time, pedal.duration]

/-- The comparator `KEY(a) < KEY(b)` of `sort_notes`. -/
def note_less (a b : Event NoteFields) : Bool :=
  tuple_compare (note_key a) (note_key b) == .lt

/-- The comparator `KEY(a) > KEY(b)` of `sort_notes` with `reverse` set. -/
def note_greater (a b : Event NoteFields) : Bool :=
  tuple_compare (note_key a) (note_key b) == .gt

/-- The comparator `KEY(a) < KEY(b)` of `sort_pedals`. -/
def pedal_less (a b : Event P) : Bool :=
  tuple_compare (pedal_key a) (pedal_key b) == .lt

/-- The comparator `KEY(a) > KEY(b)` of `sort_pedals` with `reverse` set. -/
def pedal_greater (a b : Event P) : Bool :=
  tuple_compare (pedal_key a) (pedal_key b) == .gt

/-- The function `sort_notes`. -/
def sort_notes (pdqsort_branchless : SortFn) (notes : List (Event NoteFields))
    (reverse : Bool) : List (Event NoteFields) :=
  if reverse then pdqsort_branchless (Event NoteFields) note_greater notes
  else pdqsort_branchless (Event NoteFields) note_less notes

/-- The function `sort_pedals`. -/
def sort_pedals (pdqsort_branchless : SortFn) (pedals : List (Event P)) (reverse : Bool) :
    List (Event P) :=
  if reverse then pdqsort_branchless (Event P) pedal_greater pedals
  else pdqsort_branchless (Event P) pedal_less pedals

/-! # Theorems -/

/-! ## Rounding to binary64 -/

theorem log2_fuel_spec (fuel n : Nat) (hn : 1 ≤ n) (hf : n ≤ fuel) :
    2 ^ log2_fuel fuel n ≤ n ∧ n < 2 ^ (log2_fuel fuel n + 1) := by
  induction fuel generalizing n with
  | zero => omega
  | succ fuel ih =>
    unfold log2_fuel
    split
    · simp; omega
    · have h := ih (n / 2) (by omega) (by omega)
      rw [pow_succ, pow_succ (n := log2_fuel fuel (n / 2) + 1)]
      omega

theorem nat_log2_spec (n : Nat) (hn : 1 ≤ n) :
    2 ^ nat_log2 n ≤ n ∧ n < 2 ^ (nat_log2 n + 1) :=
  log2_fuel_spec n n hn (le_refl n)

theorem abs_eq_natAbs_div_den (q : ℚ) : |q| = (q.num.natAbs : ℚ) / (q.den : ℚ) := by
  conv_lhs => rw [← Rat.num_div_den q]
  rw [abs_div, Nat.abs_cast, Nat.cast_natAbs, Int.cast_abs]

theorem binade_spec (q : ℚ) (hq : q ≠ 0) :
    (2 : ℚ) ^ binade q ≤ |q| ∧ |q| < (2 : ℚ) ^ (binade q + 1) := by
  have ha : 1 ≤ q.num.natAbs := by
    have : q.num ≠ 0 := Rat.num_ne_zero.2 hq
    omega
  have hd : 1 ≤ q.den := q.den_pos
  obtain ⟨ha1, ha2⟩ := nat_log2_spec _ ha
  obtain ⟨hd1, hd2⟩ := nat_log2_spec _ hd
  have ha1' : (2 : ℚ) ^ (nat_log2 q.num.natAbs) ≤ (q.num.natAbs : ℚ) := by exact_mod_cast ha1
  have ha2' : (q.num.natAbs : ℚ) < (2 : ℚ) ^ (nat_log2 q.num.natAbs + 1) := by exact_mod_cast ha2
  have hd1' : (2 : ℚ) ^ (nat_log2 q.den) ≤ (q.den : ℚ) := by exact_mod_cast hd1
  have hd2' : (q.den : ℚ) < (2 : ℚ) ^ (nat_log2 q.den + 1) := by exact_mod_cast hd2
  have hdpos : (0 : ℚ) < q.den := by exact_mod_cast hd
  have habs := abs_eq_natAbs_div_den q
  have two_pos : ∀ k : ℤ, (0 : ℚ) < 2 ^ k := fun k => zpow_pos (by norm_num) k
  have hsplit : ∀ k : ℤ, (2 : ℚ) ^ (k + 1) = 2 ^ k * 2 := fun k => by
    rw [zpow_add₀ (by norm_num), zpow_one]
  have hupper : |q| < (2 : ℚ) ^ ((nat_log2 q.num.natAbs : ℤ) - (nat_log2 q.den : ℤ) + 1) := by
    rw [habs, div_lt_iff₀ hdpos]
    have e : (2 : ℚ) ^ ((nat_log2 q.num.natAbs : ℤ) - (nat_log2 q.den : ℤ) + 1)
        = 2 ^ (nat_log2 q.num.natAbs + 1) / 2 ^ (nat_log2 q.den) := by
      rw [show ((nat_log2 q.num.natAbs : ℤ) - (nat_log2 q.den : ℤ) + 1)
        = ((nat_log2 q.num.natAbs + 1 : ℕ) : ℤ) - ((nat_log2 q.den : ℕ) : ℤ) by push_cast; ring]
      rw [zpow_sub₀ (by norm_num), zpow_natCast, zpow_natCast]
    rw [e, div_mul_eq_mul_div, lt_div_iff₀ (pow_pos (by norm_num) _)]
    calc (q.num.natAbs : ℚ) * 2 ^ nat_log2 q.den
        ≤ (q.num.natAbs : ℚ) * q.den := by
          apply mul_le_mul_of_nonneg_left hd1' (by positivity)
      _ < 2 ^ (nat_log2 q.num.natAbs + 1) * q.den := by
          apply mul_lt_mul_of_pos_right ha2' hdpos
  have hlower : (2 : ℚ) ^ ((nat_log2 q.num.natAbs : ℤ) - (nat_log2 q.den : ℤ) - 1) ≤ |q| := by
    rw [habs, le_div_iff₀ hdpos]
    have e : (2 : ℚ) ^ ((nat_log2 q.num.natAbs : ℤ) - (nat_log2 q.den : ℤ) - 1)
        = 2 ^ (nat_log2 q.num.natAbs) / 2 ^ (nat_log2 q.den + 1) := by
      rw [show ((nat_log2 q.num.natAbs : ℤ) - (nat_log2 q.den : ℤ) - 1)
        = ((nat_log2 q.num.natAbs : ℕ) : ℤ) - ((nat_log2 q.den + 1 : ℕ) : ℤ) by push_cast; ring]
      rw [zpow_sub₀ (by norm_num), zpow_natCast, zpow_natCast]
    rw [e, div_mul_eq_mul_div, div_le_iff₀ (pow_pos (by norm_num) _)]
    calc (2 : ℚ) ^ nat_log2 q.num.natAbs * q.den
        ≤ (q.num.natAbs : ℚ) * q.den := by
          apply mul_le_mul_of_nonneg_right ha1' (le_of_lt hdpos)
      _ ≤ (q.num.natAbs : ℚ) * 2 ^ (nat_log2 q.den + 1) := by
          apply mul_le_mul_of_nonneg_left (le_of_lt hd2') (by positivity)
  unfold binade
  split
  · rename_i h
    exact ⟨h, hupper⟩
  · rename_i h
    refine ⟨hlower, ?_⟩
    rw [sub_add_cancel]
    exact lt_of_not_le h
theorem rne_floor_le (m : ℚ) : ⌊m⌋ ≤ rne m := by
  unfold rne
  split_ifs <;> omega

theorem rne_le_floor_succ (m : ℚ) : rne m ≤ ⌊m⌋ + 1 := by
  unfold rne
  split_ifs <;> omega

theorem rne_error (m : ℚ) : |(rne m : ℚ) - m| ≤ 1 / 2 := by
  have h1 := Int.floor_le m
  have h2 := Int.lt_floor_add_one m
  rw [abs_le]
  unfold rne
  split_ifs with ha hb hc
  · constructor <;> linarith
  · push_cast
    constructor <;> linarith
  · constructor <;> linarith
  · push_cast
    constructor <;> linarith

theorem rne_intCast (k : ℤ) : rne (k : ℚ) = k := by
  unfold rne
  rw [Int.floor_intCast]
  simp

theorem rne_mono {a b : ℚ} (h : a ≤ b) : rne a ≤ rne b := by
  rcases lt_or_eq_of_le (Int.floor_mono h) with hlt | heq
  · have h1 := rne_le_floor_succ a
    have h2 := rne_floor_le b
    omega
  · unfold rne
    rw [← heq]
    split_ifs <;> first | omega | (exfalso; linarith)

theorem two_zpow_pos (k : ℤ) : (0 : ℚ) < 2 ^ k := zpow_pos (by norm_num) k

theorem scaled_bounds (q : ℚ) (hq : q ≠ 0) :
    (2 : ℚ) ^ (52 : ℕ) ≤ |q| / 2 ^ (binade q - 52) ∧
      |q| / 2 ^ (binade q - 52) < (2 : ℚ) ^ (53 : ℕ) := by
  obtain ⟨h1, h2⟩ := binade_spec q hq
  have hu := two_zpow_pos (binade q - 52)
  have e1 : (2 : ℚ) ^ (binade q) = 2 ^ (52 : ℕ) * 2 ^ (binade q - 52) := by
    rw [← zpow_natCast, ← zpow_add₀ (by norm_num)]
    congr 1
    push_cast
    ring
  have e2 : (2 : ℚ) ^ (binade q + 1) = 2 ^ (53 : ℕ) * 2 ^ (binade q - 52) := by
    rw [← zpow_natCast, ← zpow_add₀ (by norm_num)]
    congr 1
    push_cast
    ring
  constructor
  · rw [le_div_iff₀ hu, ← e1]
    exact h1
  · rw [div_lt_iff₀ hu, ← e2]
    exact h2

theorem round53_zero : round53 0 = 0 := by simp [round53]

theorem round53_error (q : ℚ) : |round53 q - q| ≤ |q| / 2 ^ (53 : ℕ) := by
  by_cases hq : q = 0
  · subst hq
    simp [round53]
  · have hu := two_zpow_pos (binade q - 52)
    have hs := (scaled_bounds q hq).1
    have he := rne_error (q / 2 ^ (binade q - 52))
    have e : round53 q - q
        = ((rne (q / 2 ^ (binade q - 52)) : ℚ) - q / 2 ^ (binade q - 52))
          * 2 ^ (binade q - 52) := by
      rw [round53, if_neg hq, sub_mul, div_mul_cancel₀ _ (ne_of_gt hu)]
    rw [e, abs_mul, abs_of_pos hu]
    rw [le_div_iff₀ hu] at hs
    have h3 : (2 : ℚ) ^ (binade q - 52) ≤ |q| / 2 ^ (52 : ℕ) := by
      rw [le_div_iff₀ (by positivity)]
      linarith
    calc |(rne (q / 2 ^ (binade q - 52)) : ℚ) - q / 2 ^ (binade q - 52)| * 2 ^ (binade q - 52)
        ≤ 1 / 2 * 2 ^ (binade q - 52) := mul_le_mul_of_nonneg_right he (le_of_lt hu)
      _ ≤ 1 / 2 * (|q| / 2 ^ (52 : ℕ)) := by linarith
      _ = |q| / 2 ^ (53 : ℕ) := by
          rw [pow_succ (n := 52)]
          field_simp
          left
          ring

theorem round53_bounds_pos (q : ℚ) (hq : 0 < q) :
    (2 : ℚ) ^ binade q ≤ round53 q ∧ round53 q ≤ (2 : ℚ) ^ (binade q + 1) := by
  have hq0 : q ≠ 0 := ne_of_gt hq
  have hu := two_zpow_pos (binade q - 52)
  obtain ⟨h1, h2⟩ := scaled_bounds q hq0
  rw [abs_of_pos hq] at h1 h2
  have e1 : (2 : ℚ) ^ (binade q) = 2 ^ (52 : ℕ) * 2 ^ (binade q - 52) := by
    rw [← zpow_natCast, ← zpow_add₀ (by norm_num)]
    congr 1
    push_cast
    ring
  have e2 : (2 : ℚ) ^ (binade q + 1) = 2 ^ (53 : ℕ) * 2 ^ (binade q - 52) := by
    rw [← zpow_natCast, ← zpow_add₀ (by norm_num)]
    congr 1
    push_cast
    ring
  have r1 : ((2 ^ (52 : ℕ) : ℤ) : ℚ) ≤ q / 2 ^ (binade q - 52) := by
    push_cast
    exact h1
  have r2 : q / 2 ^ (binade q - 52) ≤ ((2 ^ (53 : ℕ) : ℤ) : ℚ) := by
    push_cast
    exact le_of_lt h2
  have m1 := rne_mono r1
  have m2 := rne_mono r2
  rw [rne_intCast] at m1 m2
  have m1' : (2 : ℚ) ^ (52 : ℕ) ≤ (rne (q / 2 ^ (binade q - 52)) : ℚ) := by exact_mod_cast m1
  have m2' : (rne (q / 2 ^ (binade q - 52)) : ℚ) ≤ (2 : ℚ) ^ (53 : ℕ) := by exact_mod_cast m2
  rw [round53, if_neg hq0, e1, e2]
  exact ⟨mul_le_mul_of_nonneg_right m1' (le_of_lt hu),
    mul_le_mul_of_nonneg_right m2' (le_of_lt hu)⟩

theorem round53_pos (q : ℚ) (hq : 0 < q) : 0 < round53 q :=
  lt_of_lt_of_le (two_zpow_pos _) (round53_bounds_pos q hq).1

theorem round53_nonneg (q : ℚ) (hq : 0 ≤ q) : 0 ≤ round53 q := by
  rcases eq_or_lt_of_le hq with h | h
  · rw [← h, round53_zero]
  · exact le_of_lt (round53_pos q h)

theorem round53_mono_nonneg {x y : ℚ} (hx : 0 ≤ x) (hxy : x ≤ y) : round53 x ≤ round53 y := by
  rcases eq_or_lt_of_le hx with h | hx0
  · rw [← h, round53_zero]
    exact round53_nonneg y (le_trans hx hxy)
  · have hy0 : 0 < y := lt_of_lt_of_le hx0 hxy
    obtain ⟨bx1, _⟩ := binade_spec x (ne_of_gt hx0)
    obtain ⟨_, by2⟩ := binade_spec y (ne_of_gt hy0)
    rw [abs_of_pos hx0] at bx1
    rw [abs_of_pos hy0] at by2
    have hlt : (2 : ℚ) ^ binade x < 2 ^ (binade y + 1) :=
      lt_of_le_of_lt bx1 (lt_of_le_of_lt hxy by2)
    have hle : binade x < binade y + 1 := (zpow_lt_zpow_iff_right₀ (by norm_num)).1 hlt
    rcases lt_or_eq_of_le (Int.lt_add_one_iff.1 hle) with hb | hb
    · have h1 := (round53_bounds_pos x hx0).2
      have h2 := (round53_bounds_pos y hy0).1
      have h3 : (2 : ℚ) ^ (binade x + 1) ≤ 2 ^ binade y :=
        zpow_le_zpow_right₀ (by norm_num) (by omega)
      linarith
    · have hu := two_zpow_pos (binade y - 52)
      rw [round53, round53, if_neg (ne_of_gt hx0), if_neg (ne_of_gt hy0), hb]
      apply mul_le_mul_of_nonneg_right _ (le_of_lt hu)
      have : x / 2 ^ (binade y - 52) ≤ y / 2 ^ (binade y - 52) :=
        div_le_div_of_nonneg_right hxy (le_of_lt hu)
      exact_mod_cast rne_mono this

theorem round53_ne_zero (q : ℚ) (hq : q ≠ 0) : round53 q ≠ 0 := by
  have hu := two_zpow_pos (binade q - 52)
  have hs := (scaled_bounds q hq).1
  have he := rne_error (q / 2 ^ (binade q - 52))
  rw [round53, if_neg hq]
  intro h
  rcases mul_eq_zero.1 h with h | h
  · rw [h, zero_sub, abs_neg, abs_div, abs_of_pos hu] at he
    have : (2 : ℚ) ^ (52 : ℕ) ≤ 1 / 2 := le_trans hs he
    norm_num at this
  · exact (ne_of_gt hu) h

theorem round53_intCast (n : ℤ) (hn : |n| < 2 ^ (53 : ℕ)) : round53 (n : ℚ) = n := by
  by_cases h0 : n = 0
  · subst h0
    simp [round53]
  · have hq : (n : ℚ) ≠ 0 := by exact_mod_cast h0
    have hu := two_zpow_pos (binade (n : ℚ) - 52)
    obtain ⟨b1, _⟩ := binade_spec (n : ℚ) hq
    have hn' : |(n : ℚ)| < (2 : ℚ) ^ ((53 : ℕ) : ℤ) := by
      rw [zpow_natCast]
      exact_mod_cast hn
    have hlt : (2 : ℚ) ^ binade (n : ℚ) < 2 ^ ((53 : ℕ) : ℤ) := lt_of_le_of_lt b1 hn'
    have hb : binade (n : ℚ) < ((53 : ℕ) : ℤ) := (zpow_lt_zpow_iff_right₀ (by norm_num)).1 hlt
    obtain ⟨k, hk⟩ : ∃ k : ℕ, binade (n : ℚ) - 52 = -(k : ℤ) :=
      ⟨(52 - binade (n : ℚ)).toNat, by push_cast at hb; omega⟩
    have hm : (n : ℚ) / 2 ^ (binade (n : ℚ) - 52) = ((n * 2 ^ k : ℤ) : ℚ) := by
      rw [hk, zpow_neg, zpow_natCast]
      push_cast
      field_simp
    rw [round53, if_neg hq, hm, rne_intCast, hk, zpow_neg, zpow_natCast]
    push_cast
    field_simp

/-! ## Arithmetic on 32-bit ticks -/

theorem wrap_i32_eq {x : Int} (h : in_i32 x) : wrap_i32 x = x := by
  obtain ⟨h1, h2⟩ := h
  unfold wrap_i32
  rw [Int.emod_eq_of_lt (by omega) (by omega)]
  omega

theorem wrap_i32_in (x : Int) : in_i32 (wrap_i32 x) := by
  unfold wrap_i32 in_i32
  have h1 := Int.emod_nonneg (x + 2 ^ 31) (show (2 : Int) ^ 32 ≠ 0 by norm_num)
  have h2 := Int.emod_lt_of_pos (x + 2 ^ 31) (show (0 : Int) < 2 ^ 32 by norm_num)
  constructor <;> omega

theorem get_end_true {e : Event P} (h : in_i32 (e.time + e.duration)) :
    get_end true e = e.time + e.duration := by
  simp only [get_end, if_true]
  exact wrap_i32_eq h

/-! ## The insertion sort -/

theorem sift_perm (comp : α → α → Bool) (x : α) (done : List α) :
    (sift comp x done).Perm (x :: done) := by
  induction done with
  | nil => simp [sift]
  | cons y ys ih =>
    unfold sift
    split
    · exact ((List.Perm.cons y ih).trans (List.Perm.swap x y ys))
    · exact List.Perm.refl _

theorem insertion_sort_loop_perm (comp : α → α → Bool) (xs done : List α) :
    (insertion_sort_loop comp done xs).Perm (done.reverse ++ xs) := by
  induction xs generalizing done with
  | nil => simp [insertion_sort_loop]
  | cons x rest ih =>
    unfold insertion_sort_loop
    refine (ih (sift comp x done)).trans ?_
    have h1 : (sift comp x done).reverse.Perm (done.reverse ++ [x]) := by
      refine (List.reverse_perm _).trans ((sift_perm comp x done).trans ?_)
      refine List.Perm.trans ?_ (List.perm_append_comm)
      simpa using (List.reverse_perm done).symm
    simpa using List.Perm.append_right rest h1

theorem insertion_sort_perm (comp : α → α → Bool) (xs : List α) :
    (insertion_sort comp xs).Perm xs := by
  simpa [insertion_sort] using insertion_sort_loop_perm comp xs []

theorem sift_pairwise (comp : α → α → Bool) (hc : StrictWeak comp) (x : α) (done : List α)
    (hd : done.Pairwise (fun a b => comp a b = false)) :
    (sift comp x done).Pairwise (fun a b => comp a b = false) := by
  induction done with
  | nil => simp [sift]
  | cons y ys ih =>
    rw [List.pairwise_cons] at hd
    unfold sift
    split
    · rename_i hxy
      rw [List.pairwise_cons]
      refine ⟨?_, ih hd.2⟩
      intro z hz
      rcases List.mem_cons.1 ((sift_perm comp x ys).mem_iff.1 hz) with rfl | hz
      · exact hc.1 _ _ hxy
      · exact hd.1 z hz
    · rename_i hxy
      have hxy : comp x y = false := by simpa using hxy
      rw [List.pairwise_cons]
      refine ⟨?_, List.pairwise_cons.2 hd⟩
      intro z hz
      rcases List.mem_cons.1 hz with rfl | hz
      · exact hxy
      · exact hc.2 _ _ _ hxy (hd.1 z hz)

theorem insertion_sort_loop_pairwise (comp : α → α → Bool) (hc : StrictWeak comp)
    (xs done : List α) (hd : done.Pairwise (fun a b => comp a b = false)) :
    (insertion_sort_loop comp done xs).Pairwise (fun a b => comp b a = false) := by
  induction xs generalizing done with
  | nil =>
    simp only [insertion_sort_loop]
    exact List.pairwise_reverse.2 hd
  | cons x rest ih =>
    unfold insertion_sort_loop
    exact ih _ (sift_pairwise comp hc x done hd)

theorem insertion_sort_pairwise (comp : α → α → Bool) (hc : StrictWeak comp) (xs : List α) :
    (insertion_sort comp xs).Pairwise (fun a b => comp b a = false) :=
  insertion_sort_loop_pairwise comp hc xs [] List.Pairwise.nil

theorem insertion_sort_fn_isSort : IsSort insertion_sort_fn := fun _ comp xs hc =>
  ⟨insertion_sort_perm comp xs, insertion_sort_pairwise comp hc xs⟩

theorem strictWeak_int_lt : StrictWeak (fun a b : Int => decide (a < b)) := by
  refine ⟨?_, ?_⟩
  · intro a b h
    simp only [decide_eq_true_eq, decide_eq_false_iff_not] at *
    omega
  · intro a b c h1 h2
    simp only [decide_eq_true_eq, decide_eq_false_iff_not] at *
    omega

theorem strictWeak_time_lt : StrictWeak (fun a b : Event P => decide (a.time < b.time)) := by
  refine ⟨?_, ?_⟩
  · intro a b h
    simp only [decide_eq_true_eq, decide_eq_false_iff_not] at *
    omega
  · intro a b c h1 h2
    simp only [decide_eq_true_eq, decide_eq_false_iff_not] at *
    omega

/-! ## Argument validation -/

theorem adjust_time_sorted_invalid (fc has_dur : Bool) (events : List (Event P))
    (original_times new_times : List Int)
    (h : original_times.length ≠ new_times.length ∨ original_times.length < 2) :
    adjust_time_sorted fc has_dur events original_times new_times
      = .error .invalid_argument := by
  unfold adjust_time_sorted
  by_cases h1 : original_times.length ≠ new_times.length
  · rw [if_pos h1]
  · rw [if_neg h1]
    rcases h with h | h
    · exact absurd h h1
    · rw [if_pos h]

theorem adjust_time_sorted_nil (fc has_dur : Bool) (original_times new_times : List Int)
    (h1 : original_times.length = new_times.length) (h2 : 2 ≤ original_times.length) :
    adjust_time_sorted fc has_dur ([] : List (Event P)) original_times new_times = .ok [] := by
  unfold adjust_time_sorted
  rw [if_neg (by simpa using h1), if_neg (by omega)]
  simp

/-- C3: when `original_times` and `new_times` differ in length or have fewer than two
elements, `adjust_time_sorted` and `adjust_time` (for both values of `sorted`) fail with
`invalid_argument` for every event sequence, the empty one included, and return no events;
when the lengths are equal and at least two, the empty sequence is mapped to the empty
sequence without error. -/
theorem adjust_time_invalid_argument (sort : SortFn) (hsort : IsSort sort)
    (fp_contract has_dur : Bool)
    (events : List (Event P)) (original_times new_times : List Int) :
    ((original_times.length ≠ new_times.length ∨ original_times.length < 2) →
      adjust_time_sorted fp_contract has_dur events original_times new_times
        = .error .invalid_argument ∧
      ∀ sorted, adjust_time sort fp_contract has_dur events original_times new_times sorted
        = .error .invalid_argument) ∧
    ((original_times.length = new_times.length ∧ 2 ≤ original_times.length) →
      adjust_time_sorted fp_contract has_dur ([] : List (Event P)) original_times new_times
        = .ok [] ∧
      ∀ sorted, adjust_time sort fp_contract has_dur ([] : List (Event P)) original_times
        new_times sorted = .ok []) := by
  have ho := ((hsort Int _ original_times strictWeak_int_lt).1).length_eq
  have hn := ((hsort Int _ new_times strictWeak_int_lt).1).length_eq
  refine ⟨fun h => ⟨adjust_time_sorted_invalid fp_contract has_dur events _ _ h, ?_⟩,
    fun h => ⟨adjust_time_sorted_nil fp_contract has_dur _ _ h.1 h.2, ?_⟩⟩
  · intro sorted
    cases sorted
    · simp only [adjust_time, Bool.false_eq_true, if_false]
      exact adjust_time_sorted_invalid fp_contract has_dur _ _ _ (by rw [ho, hn]; exact h)
    · simp only [adjust_time, if_true]
      exact adjust_time_sorted_invalid fp_contract has_dur events _ _ h
  · intro sorted
    cases sorted
    · simp only [adjust_time, Bool.false_eq_true, if_false]
      have he : sort_by_time sort ([] : List (Event P)) false = [] := by
        simp only [sort_by_time, Bool.false_eq_true, if_false]
        exact List.Perm.eq_nil ((hsort (Event P) _ [] strictWeak_time_lt).1)
      rw [he]
      exact adjust_time_sorted_nil fp_contract has_dur _ _ (by rw [ho, hn]; exact h.1)
        (by rw [ho]; exact h.2)
    · simp only [adjust_time, if_true]
      exact adjust_time_sorted_nil fp_contract has_dur _ _ h.1 h.2

theorem adjust_time_invalid_argument_witness :
    IsSort insertion_sort_fn ∧
    adjust_time_sorted false true [(⟨3, 4, ()⟩ : Event Unit)] [0, 10, 20] [0, 10]
      = .error .invalid_argument ∧
    adjust_time insertion_sort_fn false true [(⟨3, 4, ()⟩ : Event Unit)] [0, 10, 20] [0, 10]
      false = .error .invalid_argument ∧
    adjust_time_sorted true true ([] : List (Event Unit)) [0, 10, 20] [0, 10]
      = .error .invalid_argument ∧
    adjust_time insertion_sort_fn false false ([] : List (Event Unit)) [0, 10] [5, 20] false
      = .ok [] :=
  ⟨insertion_sort_fn_isSort,
    ((adjust_time_invalid_argument insertion_sort_fn insertion_sort_fn_isSort false true
      [(⟨3, 4, ()⟩ : Event Unit)] [0, 10, 20] [0, 10]).1 (Or.inl (by decide))).1,
    ((adjust_time_invalid_argument insertion_sort_fn insertion_sort_fn_isSort false true
      [(⟨3, 4, ()⟩ : Event Unit)] [0, 10, 20] [0, 10]).1 (Or.inl (by decide))).2 false,
    ((adjust_time_invalid_argument insertion_sort_fn insertion_sort_fn_isSort true true
      ([] : List (Event Unit)) [0, 10, 20] [0, 10]).1 (Or.inl (by decide))).1,
    ((adjust_time_invalid_argument insertion_sort_fn insertion_sort_fn_isSort false false
      ([] : List (Event Unit)) [0, 10] [5, 20]).2 ⟨by decide, by decide⟩).2 false⟩

/-! ## The interpolated value -/

theorem getElem?_eq_some_getD {l : List Int} {i : Nat} (h : i < l.length) :
    l[i]? = some (l.getD i 0) := by
  rw [List.getD_eq_getElem?_getD, List.getElem?_eq_getElem h]; rfl

theorem getD_mem {l : List Int} {i : Nat} (h : i < l.length) : l.getD i 0 ∈ l := by
  rw [List.getD_eq_getElem?_getD, List.getElem?_eq_getElem h]
  exact List.getElem_mem _

theorem in_i32_abs {x : Int} (h : in_i32 x) : |x| < 2 ^ (53 : ℕ) := by
  obtain ⟨h1, h2⟩ := h
  rw [abs_lt]
  constructor <;> omega

theorem trunc_intCast (m : Int) : F64.trunc (m : ℚ) = m := by
  unfold F64.trunc
  split <;> simp

theorem trunc_mono {a b : ℚ} (h : a ≤ b) : F64.trunc a ≤ F64.trunc b := by
  unfold F64.trunc
  split_ifs with ha hb hb
  · exact Int.floor_mono h
  · exact absurd (le_trans ha h) hb
  · have h1 : ⌈a⌉ ≤ 0 := Int.ceil_le.2 (by push_cast; exact le_of_lt (not_le.1 ha))
    have h2 : 0 ≤ ⌊b⌋ := Int.le_floor.2 (by push_cast; exact hb)
    omega
  · exact Int.ceil_mono h

/-- Truncation moves a value toward zero: a value within one half of the interval
`[lo, hi]` is truncated into `[min lo 0, max hi 0]`. -/
theorem trunc_between {x : ℚ} {lo hi : Int} (h1 : (lo : ℚ) - 1 / 2 ≤ x)
    (h2 : x ≤ (hi : ℚ) + 1 / 2) : min lo 0 ≤ F64.trunc x ∧ F64.trunc x ≤ max hi 0 := by
  unfold F64.trunc
  split_ifs with hx
  · have a1 : 0 ≤ ⌊x⌋ := Int.le_floor.2 (by push_cast; exact hx)
    have a2 : (⌊x⌋ : ℚ) ≤ x := Int.floor_le x
    have a3 : (⌊x⌋ : ℚ) < ((hi + 1 : ℤ) : ℚ) := by push_cast; linarith
    have a4 : ⌊x⌋ < hi + 1 := by exact_mod_cast a3
    constructor
    · exact le_trans (min_le_right _ _) a1
    · exact le_trans (by omega) (le_max_left _ _)
  · have a1 : ⌈x⌉ ≤ 0 := Int.ceil_le.2 (by push_cast; exact le_of_lt (not_le.1 hx))
    have a2 : x ≤ (⌈x⌉ : ℚ) := Int.le_ceil x
    have a3 : ((lo - 1 : ℤ) : ℚ) < (⌈x⌉ : ℚ) := by push_cast; linarith
    have a4 : lo - 1 < ⌈x⌉ := by exact_mod_cast a3
    constructor
    · exact le_trans (min_le_left _ _) (by omega)
    · exact le_trans a1 (le_max_right _ _)

theorem abs_trunc_sub_lt (x : ℚ) : |(F64.trunc x : ℚ) - x| < 1 := by
  unfold F64.trunc
  rw [abs_lt]
  split_ifs with hx
  · have a1 := Int.floor_le x
    have a2 := Int.lt_floor_add_one x
    constructor <;> linarith
  · have a1 := Int.le_ceil x
    have a2 := Int.ceil_lt_add_one x
    constructor <;> linarith

/-- The rounding errors of the interpolation, evaluated with two roundings of the product and
the sum or with one, stay below one quarter for operands of 32-bit size. -/
theorem interpolate_near (m a b d : ℚ) (hm : |m| ≤ 2 ^ (31 : ℕ)) (ha : |a| ≤ 2 ^ (31 : ℕ))
    (hb : 0 < b) (hd : 0 ≤ d) (hdb : d ≤ b) :
    |round53 (m + round53 (round53 (a / b) * d)) - (m + a / b * d)| ≤ 1 / 4 ∧
    |round53 (round53 (a / b) * d + m) - (m + a / b * d)| ≤ 1 / 4 := by
  generalize hq : a / b = q
  have hqd : |q * d| ≤ 2 ^ (31 : ℕ) := by
    rw [← hq, abs_mul, abs_div, abs_of_pos hb, abs_of_nonneg hd]
    calc |a| / b * d = |a| * (d / b) := by ring
      _ ≤ |a| * 1 := mul_le_mul_of_nonneg_left ((div_le_one hb).2 hdb) (abs_nonneg a)
      _ ≤ 2 ^ (31 : ℕ) := by rw [mul_one]; exact ha
  have e1 := round53_error q
  have hp : |round53 q * d - q * d| ≤ 2 ^ (31 : ℕ) / 2 ^ (53 : ℕ) := by
    rw [← sub_mul, abs_mul, abs_of_nonneg hd]
    calc |round53 q - q| * d ≤ |q| / 2 ^ (53 : ℕ) * d := mul_le_mul_of_nonneg_right e1 hd
      _ = |q * d| / 2 ^ (53 : ℕ) := by rw [abs_mul, abs_of_nonneg hd]; ring
      _ ≤ 2 ^ (31 : ℕ) / 2 ^ (53 : ℕ) := div_le_div_of_nonneg_right hqd (by positivity)
  generalize hpd : round53 q * d = p at hp
  have hpb : |p| ≤ 2 ^ (32 : ℕ) := by
    have h1 := abs_le.1 hqd
    have h2 := abs_le.1 hp
    norm_num at h1 h2
    rw [abs_le]
    norm_num
    constructor <;> linarith
  have hmb := abs_le.1 hm
  have hp2 := abs_le.1 hp
  have hpb2 := abs_le.1 hpb
  norm_num at hmb hp2 hpb2
  constructor
  · have e2 := round53_error p
    have hr : |round53 p - p| ≤ 2 ^ (32 : ℕ) / 2 ^ (53 : ℕ) :=
      le_trans e2 (div_le_div_of_nonneg_right hpb (by positivity))
    generalize round53 p = r at hr
    have hr2 := abs_le.1 hr
    norm_num at hr2
    have hs : |m + r| ≤ 2 ^ (33 : ℕ) := by
      rw [abs_le]
      norm_num
      constructor <;> linarith
    have e3 := round53_error (m + r)
    have hv : |round53 (m + r) - (m + r)| ≤ 2 ^ (33 : ℕ) / 2 ^ (53 : ℕ) :=
      le_trans e3 (div_le_div_of_nonneg_right hs (by positivity))
    have hv2 := abs_le.1 hv
    norm_num at hv2
    rw [abs_le]
    constructor <;> linarith
  · have hs : |p + m| ≤ 2 ^ (33 : ℕ) := by
      rw [abs_le]
      norm_num
      constructor <;> linarith
    have e3 := round53_error (p + m)
    have hv : |round53 (p + m) - (p + m)| ≤ 2 ^ (33 : ℕ) / 2 ^ (53 : ℕ) :=
      le_trans e3 (div_le_div_of_nonneg_right hs (by positivity))
    have hv2 := abs_le.1 hv
    norm_num at hv2
    rw [abs_le]
    constructor <;> linarith

/-- The exact operands: integers below `2 ^ 53` are converted without rounding. -/
theorem segment_real_exact (fc : Bool) {n0 n1 o0 o1 t : Int} (h0 : |n0| < 2 ^ (53 : ℕ))
    (h1 : |n1 - n0| < 2 ^ (53 : ℕ)) (h2 : |o1 - o0| < 2 ^ (53 : ℕ))
    (h3 : |t - o0| < 2 ^ (53 : ℕ)) :
    segment_real fc n0 n1 o0 o1 t
      = if fc then
          round53 (round53 (((n1 - n0 : ℤ) : ℚ) / ((o1 - o0 : ℤ) : ℚ)) * ((t - o0 : ℤ) : ℚ)
            + (n0 : ℚ))
        else
          round53 ((n0 : ℚ) + round53 (round53 (((n1 - n0 : ℤ) : ℚ) / ((o1 - o0 : ℤ) : ℚ))
            * ((t - o0 : ℤ) : ℚ))) := by
  unfold segment_real
  rw [round53_intCast n0 h0, round53_intCast _ h1, round53_intCast _ h2, round53_intCast _ h3]

/-- The interpolated value of a point of a segment differs by at most one quarter from the
exact value of the curve. -/
theorem segment_real_near_exact (fc : Bool) {n0 n1 o0 o1 t : Int} (hn0 : in_i32 n0)
    (hdn : in_i32 (n1 - n0)) (hdo : in_i32 (o1 - o0)) (ho : o0 < o1) (h0 : o0 ≤ t)
    (h1 : t ≤ o1) :
    |segment_real fc n0 n1 o0 o1 t
      - ((n0 : ℚ) + ((n1 - n0 : ℤ) : ℚ) * ((t - o0 : ℤ) : ℚ) / ((o1 - o0 : ℤ) : ℚ))|
      ≤ 1 / 4 := by
  have hd32 : in_i32 (t - o0) := by
    obtain ⟨a1, a2⟩ := hdo
    constructor <;> omega
  rw [segment_real_exact fc (in_i32_abs hn0) (in_i32_abs hdn) (in_i32_abs hdo)
    (in_i32_abs hd32)]
  have hb : (0 : ℚ) < ((o1 - o0 : ℤ) : ℚ) := by exact_mod_cast (show (0 : ℤ) < o1 - o0 by omega)
  have hd : (0 : ℚ) ≤ ((t - o0 : ℤ) : ℚ) := by exact_mod_cast (show (0 : ℤ) ≤ t - o0 by omega)
  have hdb : ((t - o0 : ℤ) : ℚ) ≤ ((o1 - o0 : ℤ) : ℚ) := by
    exact_mod_cast (show t - o0 ≤ o1 - o0 by omega)
  have hm : |(n0 : ℚ)| ≤ 2 ^ (31 : ℕ) := by
    obtain ⟨a1, a2⟩ := hn0
    rw [abs_le]
    constructor
    · exact_mod_cast (show -(2 : ℤ) ^ (31 : ℕ) ≤ n0 by omega)
    · exact_mod_cast (show n0 ≤ (2 : ℤ) ^ (31 : ℕ) by omega)
  have ha : |((n1 - n0 : ℤ) : ℚ)| ≤ 2 ^ (31 : ℕ) := by
    obtain ⟨a1, a2⟩ := hdn
    rw [abs_le]
    constructor
    · exact_mod_cast (show -(2 : ℤ) ^ (31 : ℕ) ≤ n1 - n0 by omega)
    · exact_mod_cast (show n1 - n0 ≤ (2 : ℤ) ^ (31 : ℕ) by omega)
  obtain ⟨c1, c2⟩ := interpolate_near (n0 : ℚ) ((n1 - n0 : ℤ) : ℚ) _ _ hm ha hb hd hdb
  have hE : ((n1 - n0 : ℤ) : ℚ) * ((t - o0 : ℤ) : ℚ) / ((o1 - o0 : ℤ) : ℚ)
      = ((n1 - n0 : ℤ) : ℚ) / ((o1 - o0 : ℤ) : ℚ) * ((t - o0 : ℤ) : ℚ) := by ring
  rw [hE]
  cases fc
  · simp only [Bool.false_eq_true, if_false]
    exact c1
  · simp only [if_true]
    exact c2

/-- The interpolated value of a point of a segment lies within one half of the interval
between the two values of the curve at the ends of the segment. -/
theorem segment_real_near (fc : Bool) {n0 n1 o0 o1 t : Int} (hn0 : in_i32 n0)
    (hdn : in_i32 (n1 - n0)) (hdo : in_i32 (o1 - o0)) (ho : o0 < o1) (h0 : o0 ≤ t)
    (h1 : t ≤ o1) :
    ((min n0 n1 : ℤ) : ℚ) - 1 / 2 ≤ segment_real fc n0 n1 o0 o1 t ∧
      segment_real fc n0 n1 o0 o1 t ≤ ((max n0 n1 : ℤ) : ℚ) + 1 / 2 := by
  have c := abs_le.1 (segment_real_near_exact fc hn0 hdn hdo ho h0 h1)
  have hb : (0 : ℚ) < ((o1 - o0 : ℤ) : ℚ) := by exact_mod_cast (show (0 : ℤ) < o1 - o0 by omega)
  have hd : (0 : ℚ) ≤ ((t - o0 : ℤ) : ℚ) := by exact_mod_cast (show (0 : ℤ) ≤ t - o0 by omega)
  have hdb : ((t - o0 : ℤ) : ℚ) ≤ ((o1 - o0 : ℤ) : ℚ) := by
    exact_mod_cast (show t - o0 ≤ o1 - o0 by omega)
  -- the exact value lies between the two ends
  have hl : (0 : ℚ) ≤ ((t - o0 : ℤ) : ℚ) / ((o1 - o0 : ℤ) : ℚ) := div_nonneg hd (le_of_lt hb)
  have hu : ((t - o0 : ℤ) : ℚ) / ((o1 - o0 : ℤ) : ℚ) ≤ 1 := (div_le_one hb).2 hdb
  have hE : (n0 : ℚ) + ((n1 - n0 : ℤ) : ℚ) * ((t - o0 : ℤ) : ℚ) / ((o1 - o0 : ℤ) : ℚ)
      = (n0 : ℚ) + ((n1 : ℚ) - (n0 : ℚ)) * (((t - o0 : ℤ) : ℚ) / ((o1 - o0 : ℤ) : ℚ)) := by
    push_cast
    ring
  rw [hE] at c
  generalize ((t - o0 : ℤ) : ℚ) / ((o1 - o0 : ℤ) : ℚ) = l at hl hu c
  have hEb : ((min n0 n1 : ℤ) : ℚ) ≤ (n0 : ℚ) + ((n1 : ℚ) - (n0 : ℚ)) * l ∧
      (n0 : ℚ) + ((n1 : ℚ) - (n0 : ℚ)) * l ≤ ((max n0 n1 : ℤ) : ℚ) := by
    rcases le_total n0 n1 with h | h
    · rw [min_eq_left h, max_eq_right h]
      have hq : (n0 : ℚ) ≤ (n1 : ℚ) := by exact_mod_cast h
      constructor <;> nlinarith
    · rw [min_eq_right h, max_eq_left h]
      have hq : (n1 : ℚ) ≤ (n0 : ℚ) := by exact_mod_cast h
      constructor <;> nlinarith
  constructor <;> linarith [hEb.1, hEb.2, c.1, c.2]

/-- The tick obtained from a point of a segment is a 32-bit tick between the two values of
the curve at the ends of the segment, or between one of them and zero. -/
theorem segment_trunc_bounds (fc : Bool) {n0 n1 o0 o1 t : Int} (hn0 : in_i32 n0)
    (hn1 : in_i32 n1) (hdn : in_i32 (n1 - n0)) (hdo : in_i32 (o1 - o0)) (ho : o0 < o1)
    (h0 : o0 ≤ t) (h1 : t ≤ o1) :
    min (min n0 n1) 0 ≤ F64.trunc (segment_real fc n0 n1 o0 o1 t) ∧
      F64.trunc (segment_real fc n0 n1 o0 o1 t) ≤ max (max n0 n1) 0 ∧
      in_i32 (F64.trunc (segment_real fc n0 n1 o0 o1 t)) := by
  obtain ⟨a1, a2⟩ := segment_real_near fc hn0 hdn hdo ho h0 h1
  obtain ⟨b1, b2⟩ := trunc_between a1 a2
  refine ⟨b1, b2, ?_⟩
  obtain ⟨c1, c2⟩ := hn0
  obtain ⟨c3, c4⟩ := hn1
  have d1 : -2 ^ 31 ≤ min (min n0 n1) 0 := by
    simp only [le_min_iff]
    omega
  have d2 : max (max n0 n1) 0 < 2 ^ 31 := by
    simp only [max_lt_iff]
    omega
  constructor <;> omega

/-! ## The pivot loops -/

theorem get_factor_lt {o n : List Int} {x : Nat} {f : F64} (h : get_factor o n x = some f) :
    x < o.length := by
  unfold get_factor at h
  by_contra hx
  have : o[x]? = none := List.getElem?_eq_none (by omega)
  rw [this] at h
  split at h <;> simp_all

theorem get_factor_eq {o n : List Int} (hlen : o.length = n.length) {x : Nat} (h1 : 1 ≤ x)
    (hx : x < o.length) :
    get_factor o n x = some (F64.div (F64.of_int (wrap_i32 (n.getD x 0 - n.getD (x - 1) 0)))
      (F64.of_int (wrap_i32 (o.getD x 0 - o.getD (x - 1) 0)))) := by
  unfold get_factor
  have a1 : n[x]? = some (n.getD x 0) := by
    rw [List.getD_eq_getElem?_getD, List.getElem?_eq_getElem (by omega)]; rfl
  have a2 : n[x - 1]? = some (n.getD (x - 1) 0) := by
    rw [List.getD_eq_getElem?_getD, List.getElem?_eq_getElem (by omega)]; rfl
  have a3 : o[x]? = some (o.getD x 0) := by
    rw [List.getD_eq_getElem?_getD, List.getElem?_eq_getElem (by omega)]; rfl
  have a4 : o[x - 1]? = some (o.getD (x - 1) 0) := by
    rw [List.getD_eq_getElem?_getD, List.getElem?_eq_getElem (by omega)]; rfl
  rw [a1, a2, a3, a4]

theorem advance_spec (o n : List Int) (hlen : o.length = n.length) (t : Int) :
    ∀ (m p : Nat) (cur : F64), m = o.length - p → 1 ≤ p → get_factor o n p = some cur →
      (∃ k f, advance o n t (o.drop p) p cur = .ok (k, f) ∧ p ≤ k ∧ k < o.length ∧
        get_factor o n k = some f ∧ t ≤ o.getD k 0 ∧ ∀ j, p ≤ j → j < k → o.getD j 0 < t) ∨
      (advance o n t (o.drop p) p cur = .error .out_of_range ∧
        ∀ j, p ≤ j → j < o.length → o.getD j 0 < t) := by
  intro m
  induction m with
  | zero =>
    intro p cur hm _ hf
    have := get_factor_lt hf
    omega
  | succ m ih =>
    intro p cur hm hp hf
    have hpl := get_factor_lt hf
    rw [List.drop_eq_getElem_cons hpl]
    have hget : o.getD p 0 = o[p] := by
      rw [List.getD_eq_getElem?_getD, List.getElem?_eq_getElem hpl]; rfl
    unfold advance
    by_cases ht : t > o[p]
    · rw [if_pos ht]
      by_cases hp1 : p + 1 < o.length
      · rw [get_factor_eq hlen (by omega) hp1]
        rcases ih (p + 1) _ (by omega) (by omega) (get_factor_eq hlen (by omega) hp1) with
          ⟨k, f, h1, h2, h3, h4, h5, h6⟩ | ⟨h1, h2⟩
        · left
          refine ⟨k, f, h1, by omega, h3, h4, h5, ?_⟩
          intro j hj1 hj2
          rcases Nat.eq_or_lt_of_le hj1 with rfl | hj
          · rw [hget]; exact ht
          · exact h6 j hj hj2
        · right
          refine ⟨h1, ?_⟩
          intro j hj1 hj2
          rcases Nat.eq_or_lt_of_le hj1 with rfl | hj
          · rw [hget]; exact ht
          · exact h2 j hj hj2
      · right
        have hnone : get_factor o n (p + 1) = none := by
          cases hg : get_factor o n (p + 1) with
          | none => rfl
          | some f => exact absurd (get_factor_lt hg) hp1
        rw [hnone]
        refine ⟨rfl, ?_⟩
        intro j hj1 hj2
        have : j = p := by omega
        subst this
        rw [hget]; exact ht
    · rw [if_neg ht]
      left
      exact ⟨p, cur, rfl, le_refl _, hpl, hf, by rw [hget]; omega, fun j h1 h2 => by omega⟩

theorem segment_value_eq (fc : Bool) {o n : List Int} (hlen : o.length = n.length) {k : Nat}
    (h1 : 1 ≤ k) (hk : k < o.length) (t : Int) :
    segment_value fc o n k t = F64.to_int (F64.add_mul fc (F64.of_int (n.getD (k - 1) 0))
      (F64.div (F64.of_int (n.getD k 0 - n.getD (k - 1) 0))
        (F64.of_int (o.getD k 0 - o.getD (k - 1) 0))) (F64.of_int (t - o.getD (k - 1) 0))) := by
  unfold segment_value
  rw [getElem?_eq_some_getD (l := n) (i := k) (by omega),
    getElem?_eq_some_getD (l := n) (i := k - 1) (by omega),
    getElem?_eq_some_getD (l := o) (i := k) hk,
    getElem?_eq_some_getD (l := o) (i := k - 1) (by omega)]

/-- When no tick subtraction overflows, the code computes the value of the segment. -/
theorem interpolate_eq (fc : Bool) {o n : List Int} (hlen : o.length = n.length) {k : Nat}
    (h1 : 1 ≤ k) {f : F64} (hf : get_factor o n k = some f) (t : Int)
    (hdn : in_i32 (n.getD k 0 - n.getD (k - 1) 0))
    (hdo : in_i32 (o.getD k 0 - o.getD (k - 1) 0)) (hdt : in_i32 (t - o.getD (k - 1) 0)) :
    interpolate fc o n k f t =
      match segment_value fc o n k t with
      | some v => .ok v
      | none => .error .not_finite := by
  have hk := get_factor_lt hf
  rw [get_factor_eq hlen h1 hk, wrap_i32_eq hdn, wrap_i32_eq hdo] at hf
  rw [segment_value_eq fc hlen h1 hk]
  unfold interpolate
  rw [getElem?_eq_some_getD (l := n) (i := k - 1) (by omega),
    getElem?_eq_some_getD (l := o) (i := k - 1) (by omega)]
  simp only [Option.some.injEq] at hf
  rw [← hf]
  simp only [wrap_i32_eq hdt]

/-- The value of a segment of non-zero length: the rounded real value of the interpolation
expression, truncated, when that is a 32-bit tick. -/
theorem segment_value_real_eq (fc : Bool) {o n : List Int} (hlen : o.length = n.length)
    {k : Nat} (h1 : 1 ≤ k) (hk : k < o.length) (hne : o.getD (k - 1) 0 ≠ o.getD k 0) (t : Int) :
    segment_value fc o n k t =
      if -2 ^ 31 ≤ F64.trunc (segment_real fc (n.getD (k - 1) 0) (n.getD k 0)
          (o.getD (k - 1) 0) (o.getD k 0) t) ∧
        F64.trunc (segment_real fc (n.getD (k - 1) 0) (n.getD k 0)
          (o.getD (k - 1) 0) (o.getD k 0) t) < 2 ^ 31
      then some (F64.trunc (segment_real fc (n.getD (k - 1) 0) (n.getD k 0)
          (o.getD (k - 1) 0) (o.getD k 0) t))
      else none := by
  rw [segment_value_eq fc hlen h1 hk]
  have hd : round53 ((o.getD k 0 - o.getD (k - 1) 0 : ℤ) : ℚ) ≠ 0 := by
    apply round53_ne_zero
    have : o.getD k 0 - o.getD (k - 1) 0 ≠ 0 := by omega
    exact_mod_cast this
  cases fc
  · simp only [F64.of_int, F64.div, if_neg hd, F64.add_mul, Bool.false_eq_true, if_false,
      F64.mul, F64.add, F64.to_int, segment_real]
  · simp only [F64.of_int, F64.div, if_neg hd, F64.add_mul, if_true, F64.fma, F64.to_int,
      segment_real]

/-- A segment of length zero has no interpolated value: its factor is infinite or not a
number. -/
theorem segment_value_ne (fc : Bool) {o n : List Int} (hlen : o.length = n.length) {k : Nat}
    (h1 : 1 ≤ k) (hk : k < o.length) {t v : Int} (hv : segment_value fc o n k t = some v) :
    o.getD (k - 1) 0 ≠ o.getD k 0 := by
  intro heq
  rw [segment_value_eq fc hlen h1 hk, heq, sub_self] at hv
  simp only [F64.of_int, Int.cast_zero, round53_zero, F64.div, if_true] at hv
  cases fc
  · simp only [F64.add_mul, Bool.false_eq_true, if_false] at hv
    split at hv
    · simp only [F64.mul, F64.add, F64.to_int] at hv
      cases hv
    · simp only [F64.mul] at hv
      split at hv
      · simp only [F64.add, F64.to_int] at hv
        cases hv
      · simp only [F64.add, F64.to_int] at hv
        cases hv
  · simp only [F64.add_mul, if_true] at hv
    split at hv
    · simp only [F64.fma, F64.mul, F64.add, F64.to_int] at hv
      cases hv
    · simp only [F64.fma, F64.mul] at hv
      split at hv
      · simp only [F64.add, F64.to_int] at hv
        cases hv
      · simp only [F64.add, F64.to_int] at hv
        cases hv

/-- A value of a segment is the truncated interpolation expression and a 32-bit tick. -/
theorem segment_value_real (fc : Bool) {o n : List Int} (hlen : o.length = n.length) {k : Nat}
    (h1 : 1 ≤ k) (hk : k < o.length) {t v : Int} (hv : segment_value fc o n k t = some v) :
    v = F64.trunc (segment_real fc (n.getD (k - 1) 0) (n.getD k 0)
      (o.getD (k - 1) 0) (o.getD k 0) t) ∧ in_i32 v := by
  have hne := segment_value_ne fc hlen h1 hk hv
  rw [segment_value_real_eq fc hlen h1 hk hne] at hv
  split at hv
  · rename_i hr
    simp only [Option.some.injEq] at hv
    rw [← hv]
    exact ⟨rfl, hr⟩
  · cases hv

/-- A point of a segment of non-zero length has a value, when the values of the curve are
32-bit ticks and the two differences of the segment do not overflow. -/
theorem segment_value_some (fc : Bool) {o n : List Int} (hlen : o.length = n.length) {k : Nat}
    (h1 : 1 ≤ k) (hk : k < o.length) (hbn : ∀ x ∈ n, in_i32 x)
    (hdn : in_i32 (n.getD k 0 - n.getD (k - 1) 0))
    (hdo : in_i32 (o.getD k 0 - o.getD (k - 1) 0))
    (hlt : o.getD (k - 1) 0 < o.getD k 0) {t : Int} (h0 : o.getD (k - 1) 0 ≤ t)
    (ht : t ≤ o.getD k 0) :
    segment_value fc o n k t = some (F64.trunc (segment_real fc (n.getD (k - 1) 0)
      (n.getD k 0) (o.getD (k - 1) 0) (o.getD k 0) t)) := by
  rw [segment_value_real_eq fc hlen h1 hk (ne_of_lt hlt)]
  have hb := (segment_trunc_bounds fc (hbn _ (getD_mem (show k - 1 < n.length by omega)))
    (hbn _ (getD_mem (show k < n.length by omega))) hdn hdo hlt h0 ht).2.2
  unfold in_i32 at hb
  rw [if_pos hb]

/-- A value of a point of the domain lies between two values of the curve, or between a
value of the curve and zero. -/
theorem maps_to_bounds (fc : Bool) {o n : List Int} (hlen : o.length = n.length)
    (hdo : ∀ x ∈ o, ∀ y ∈ o, in_i32 (x - y))
    (hdn : ∀ x ∈ n, ∀ y ∈ n, in_i32 (x - y)) (hbn : ∀ x ∈ n, in_i32 x) {t v : Int}
    (h0 : o.getD 0 0 ≤ t) (h : maps_to fc o n t v) :
    (∃ lo ∈ 0 :: n, lo ≤ v) ∧ (∃ hi ∈ 0 :: n, v ≤ hi) := by
  obtain ⟨k, ⟨a1, a2, a3, a4⟩, hv⟩ := h
  have hne := segment_value_ne fc hlen a1 a2 hv
  obtain ⟨rfl, _⟩ := segment_value_real fc hlen a1 a2 hv
  have hlo : o.getD (k - 1) 0 ≤ t := by
    by_cases hk : k = 1
    · subst hk
      exact h0
    · exact le_of_lt (a4 (k - 1) (by omega) (by omega))
  have hk1 : k - 1 < n.length := by omega
  have hk2 : k < n.length := by omega
  have hlt : o.getD (k - 1) 0 < o.getD k 0 := by omega
  obtain ⟨b1, b2, _⟩ := segment_trunc_bounds fc (hbn _ (getD_mem hk1)) (hbn _ (getD_mem hk2))
    (hdn _ (getD_mem hk2) _ (getD_mem hk1))
    (hdo _ (getD_mem a2) _ (getD_mem (show k - 1 < o.length by omega))) hlt hlo a3
  constructor
  · refine ⟨min (min (n.getD (k - 1) 0) (n.getD k 0)) 0, ?_, b1⟩
    rcases min_choice (min (n.getD (k - 1) 0) (n.getD k 0)) 0 with h | h
    · rw [h]
      rcases min_choice (n.getD (k - 1) 0) (n.getD k 0) with h | h
      · rw [h]; exact List.mem_cons_of_mem _ (getD_mem hk1)
      · rw [h]; exact List.mem_cons_of_mem _ (getD_mem hk2)
    · rw [h]; exact List.mem_cons_self _ _
  · refine ⟨max (max (n.getD (k - 1) 0) (n.getD k 0)) 0, ?_, b2⟩
    rcases max_choice (max (n.getD (k - 1) 0) (n.getD k 0)) 0 with h | h
    · rw [h]
      rcases max_choice (n.getD (k - 1) 0) (n.getD k 0) with h | h
      · rw [h]; exact List.mem_cons_of_mem _ (getD_mem hk1)
      · rw [h]; exact List.mem_cons_of_mem _ (getD_mem hk2)
    · rw [h]; exact List.mem_cons_self _ _

/-- A value of a point of the domain is within a tick and a quarter of the exact value of
the curve, when no subtraction of ticks of the curve overflows. -/
theorem maps_to_near_exact (fc : Bool) {o n : List Int} (hlen : o.length = n.length)
    (hdo : ∀ x ∈ o, ∀ y ∈ o, in_i32 (x - y))
    (hdn : ∀ x ∈ n, ∀ y ∈ n, in_i32 (x - y)) (hbn : ∀ x ∈ n, in_i32 x) {t v : Int}
    (h0 : o.getD 0 0 ≤ t) (h : maps_to fc o n t v) : near_exact o n t v := by
  obtain ⟨k, ⟨a1, a2, a3, a4⟩, hv⟩ := h
  refine ⟨k, ⟨a1, a2, a3, a4⟩, ?_⟩
  have hne := segment_value_ne fc hlen a1 a2 hv
  obtain ⟨rfl, _⟩ := segment_value_real fc hlen a1 a2 hv
  have hlo : o.getD (k - 1) 0 ≤ t := by
    by_cases hk : k = 1
    · subst hk
      exact h0
    · exact le_of_lt (a4 (k - 1) (by omega) (by omega))
  have hk1 : k - 1 < n.length := by omega
  have hk2 : k < n.length := by omega
  have hlt : o.getD (k - 1) 0 < o.getD k 0 := by omega
  have b1 := abs_lt.1 (abs_trunc_sub_lt (segment_real fc (n.getD (k - 1) 0) (n.getD k 0)
    (o.getD (k - 1) 0) (o.getD k 0) t))
  have b2 := abs_le.1 (segment_real_near_exact fc (hbn _ (getD_mem hk1))
    (hdn _ (getD_mem hk2) _ (getD_mem hk1))
    (hdo _ (getD_mem a2) _ (getD_mem (show k - 1 < o.length by omega))) hlt hlo a3)
  unfold segment_exact
  rw [abs_lt]
  constructor <;> linarith [b1.1, b1.2, b2.1, b2.2]

theorem pivot_pass_ok (fc : Bool) (key : Event P → Int) (update : Event P → Int → Event P)
    (o n : List Int) (hlen : o.length = n.length) (hinc : o.Pairwise (· < ·))
    (hdo : ∀ x ∈ o, ∀ y ∈ o, in_i32 (x - y)) (hdn : ∀ x ∈ n, ∀ y ∈ n, in_i32 (x - y))
    (hbn : ∀ x ∈ n, in_i32 x) :
    ∀ (events : List (Event P)) (p : Nat) (cur : F64),
      events.Pairwise (fun a b => key a ≤ key b) →
      (∀ e ∈ events, key e ≤ o.getD (o.length - 1) 0) →
      1 ≤ p → get_factor o n p = some cur →
      (∀ e ∈ events, ∀ j, j < p → 1 ≤ j → o.getD j 0 < key e) →
      (∀ e ∈ events, o.getD (p - 1) 0 ≤ key e) →
      ∃ out, pivot_pass fc key update o n events p cur = .ok out ∧
        List.Forall₂ (fun e e' => ∃ v, maps_to fc o n (key e) v ∧ e' = update e v)
          events out := by
  intro events
  induction events with
  | nil =>
    intro p cur _ _ _ _ _ _
    exact ⟨[], rfl, List.Forall₂.nil⟩
  | cons e rest ih =>
    intro p cur hs hb hp hf hinv hlow
    rw [List.pairwise_cons] at hs
    have hpl := get_factor_lt hf
    rcases advance_spec o n hlen (key e) _ p cur rfl hp hf with
      ⟨k, f, h1, h2, h3, h4, h5, h6⟩ | ⟨_, h2⟩
    · have hseg : is_segment o (key e) k := by
        refine ⟨by omega, h3, h5, ?_⟩
        intro j hj1 hj2
        by_cases hjp : j < p
        · exact hinv e (List.mem_cons_self _ _) j hjp hj2
        · exact h6 j (by omega) hj1
      have hlt : o.getD (k - 1) 0 < o.getD k 0 := by
        have := List.pairwise_iff_getElem.1 hinc (k - 1) k (by omega) h3 (by omega)
        rw [List.getD_eq_getElem?_getD, List.getD_eq_getElem?_getD,
          List.getElem?_eq_getElem h3, List.getElem?_eq_getElem (show k - 1 < o.length by omega)]
        simp only [Option.getD_some]
        exact this
      have hlok : o.getD (k - 1) 0 ≤ key e := by
        rcases Nat.eq_or_lt_of_le h2 with rfl | hlt
        · exact hlow e (List.mem_cons_self _ _)
        · exact le_of_lt (h6 (k - 1) (by omega) (by omega))
      have hdn1 : in_i32 (n.getD k 0 - n.getD (k - 1) 0) :=
        hdn _ (getD_mem (by omega)) _ (getD_mem (by omega))
      have hdo1 : in_i32 (o.getD k 0 - o.getD (k - 1) 0) :=
        hdo _ (getD_mem h3) _ (getD_mem (by omega))
      have hdt : in_i32 (key e - o.getD (k - 1) 0) := by
        obtain ⟨c1, c2⟩ := hdo1
        constructor <;> omega
      have hv := segment_value_some fc hlen (show 1 ≤ k by omega) h3 hbn hdn1 hdo1 hlt hlok h5
      obtain ⟨out, ho1, ho2⟩ := ih k f hs.2 (fun e' he' => hb e' (List.mem_cons_of_mem _ he'))
        (by omega) h4 (by
          intro e' he' j hj1 hj2
          have := hseg.2.2.2 j hj1 hj2
          have := hs.1 e' he'
          omega)
        (fun e' he' => le_trans hlok (hs.1 e' he'))
      refine ⟨update e _ :: out, ?_, List.Forall₂.cons ⟨_, ⟨k, hseg, hv⟩, rfl⟩ ho2⟩
      unfold pivot_pass
      rw [h1]
      simp only
      rw [interpolate_eq fc hlen (by omega) h4 _ hdn1 hdo1 hdt, hv]
      simp only
      rw [ho1]
    · exfalso
      have := h2 (o.length - 1) (by omega) (by omega)
      have := hb e (List.mem_cons_self _ _)
      omega

theorem duration_pass_eq (fc : Bool) (o n : List Int) (events : List (Event P)) (p : Nat)
    (cur : F64) :
    duration_pass fc o n events p cur
      = pivot_pass fc (get_end true) (fun e v => { e with duration := v }) o n events p
          cur := by
  induction events generalizing p cur with
  | nil => rfl
  | cons e rest ih =>
    unfold duration_pass pivot_pass
    cases advance o n (get_end true e) (List.drop p o) p cur with
    | error err => rfl
    | ok r =>
      obtain ⟨p1, f1⟩ := r
      simp only
      cases interpolate fc o n p1 f1 (get_end true e) with
      | error err => rfl
      | ok v =>
        simp only
        rw [ih]

theorem time_pass_eq (fc has_dur : Bool) (o n : List Int) (events : List (Event P)) (p : Nat)
    (cur : F64) :
    time_pass fc has_dur o n events p cur
      = pivot_pass fc (fun e => e.time)
          (fun e v => if has_dur then
              { e with time := v, duration := wrap_i32 (e.duration - v) }
            else { e with time := v }) o n events p cur := by
  induction events generalizing p cur with
  | nil => rfl
  | cons e rest ih =>
    unfold time_pass pivot_pass
    cases advance o n e.time (List.drop p o) p cur with
    | error err => rfl
    | ok r =>
      obtain ⟨p1, f1⟩ := r
      simp only
      cases interpolate fc o n p1 f1 e.time with
      | error err => rfl
      | ok v =>
        simp only
        rw [ih]

/-! ## Trimming to the domain of the curve -/

theorem lower_bound_loop_spec (comp : α → Bool) (A B : List α)
    (hA : ∀ a ∈ A, comp a = true) (hB : ∀ b ∈ B, comp b = false) :
    ∀ (fuel first len : Nat), len ≤ fuel → first ≤ A.length → A.length ≤ first + len →
      first + len ≤ (A ++ B).length →
      lower_bound_loop comp (A ++ B) fuel first len = A.length := by
  intro fuel
  induction fuel with
  | zero =>
    intro first len h1 h2 h3 _
    unfold lower_bound_loop
    omega
  | succ fuel ih =>
    intro first len h1 h2 h3 h4
    unfold lower_bound_loop
    by_cases hl : len = 0
    · rw [if_pos hl]
      omega
    · rw [if_neg hl]
      have hmid : first + len / 2 < (A ++ B).length := by omega
      rw [List.getElem?_eq_getElem hmid]
      simp only
      by_cases hm : first + len / 2 < A.length
      · have hx : comp (A ++ B)[first + len / 2] = true := by
          rw [List.getElem_append_left hm]
          exact hA _ (List.getElem_mem _)
        rw [if_pos hx]
        exact ih _ _ (by omega) (by omega) (by omega) (by omega)
      · have hx : comp (A ++ B)[first + len / 2] = false := by
          rw [List.getElem_append_right (by omega)]
          exact hB _ (List.getElem_mem _)
        rw [hx]
        simp only [Bool.false_eq_true, if_false]
        exact ih _ _ (by omega) (by omega) (by omega) (by omega)

theorem upper_bound_loop_eq (comp : α → Bool) (xs : List α) (fuel first len : Nat) :
    upper_bound_loop comp xs fuel first len
      = lower_bound_loop (fun x => !comp x) xs fuel first len := by
  induction fuel generalizing first len with
  | zero => rfl
  | succ fuel ih =>
    unfold upper_bound_loop lower_bound_loop
    by_cases hl : len = 0
    · rw [if_pos hl, if_pos hl]
    · rw [if_neg hl, if_neg hl]
      cases xs[first + len / 2]? with
      | none => rfl
      | some x =>
        simp only
        cases comp x <;> simp [ih]

theorem dropWhile_not_of_sorted (key : α → Int) (p : α → Bool)
    (hp : ∀ a b, key a ≤ key b → p b = true → p a = true) (xs : List α)
    (hs : xs.Pairwise (fun a b => key a ≤ key b)) :
    ∀ x ∈ xs.dropWhile p, p x = false := by
  induction xs with
  | nil => simp
  | cons y ys ih =>
    rw [List.pairwise_cons] at hs
    intro x hx
    by_cases hy : p y = true
    · rw [List.dropWhile_cons_of_pos hy] at hx
      exact ih hs.2 x hx
    · rw [List.dropWhile_cons_of_neg hy] at hx
      rcases List.mem_cons.1 hx with rfl | hx
      · simpa using hy
      · by_contra hpx
        exact hy (hp _ _ (hs.1 x hx) (by simpa using hpx))

theorem sorted_dropWhile (key : α → Int) (p : α → Bool) (xs : List α)
    (hs : xs.Pairwise (fun a b => key a ≤ key b)) :
    (xs.dropWhile p).Pairwise (fun a b => key a ≤ key b) :=
  hs.sublist (List.dropWhile_sublist p)

/-- For a kind without duration and events in ascending order of time, the copied range
holds exactly the events with `first_time ≤ time ≤ last_time`. -/
theorem kept_range_time_only (events : List (Event P)) (first_time last_time : Int)
    (hs : events.Pairwise (fun a b => a.time ≤ b.time)) (hle : first_time ≤ last_time) :
    kept_range false events first_time last_time
      = events.filter (fun e => decide (first_time ≤ e.time) && decide (e.time ≤ last_time)) := by
  let p1 : Event P → Bool := fun e => decide (e.time < first_time)
  let q2 : Event P → Bool := fun e => decide (e.time ≤ last_time)
  have hA : ∀ a ∈ events.takeWhile p1, p1 a = true := fun a ha => List.mem_takeWhile_imp ha
  have hD : ∀ x ∈ events.dropWhile p1, p1 x = false :=
    dropWhile_not_of_sorted (fun e => e.time) p1
      (fun a b hab hb => by simp only [p1, decide_eq_true_eq] at *; omega) events hs
  have hsD := sorted_dropWhile (fun e : Event P => e.time) p1 events hs
  have hB : ∀ b ∈ (events.dropWhile p1).takeWhile q2, q2 b = true :=
    fun b hb => List.mem_takeWhile_imp hb
  have hC : ∀ c ∈ (events.dropWhile p1).dropWhile q2, q2 c = false :=
    dropWhile_not_of_sorted (fun e => e.time) q2
      (fun a b hab hb => by simp only [q2, decide_eq_true_eq] at *; omega) _ hsD
  have hsplit : events = events.takeWhile p1 ++
      ((events.dropWhile p1).takeWhile q2 ++ (events.dropWhile p1).dropWhile q2) := by
    rw [List.takeWhile_append_dropWhile, List.takeWhile_append_dropWhile]
  generalize hAd : events.takeWhile p1 = A at hA hsplit
  generalize hBd : (events.dropWhile p1).takeWhile q2 = B at hB hsplit
  generalize hCd : (events.dropWhile p1).dropWhile q2 = C at hC hsplit
  have hB1 : ∀ b ∈ B, p1 b = false := fun b hb =>
    hD b (by rw [← List.takeWhile_append_dropWhile q2 (events.dropWhile p1), hBd, hCd]
             exact List.mem_append_left _ hb)
  have hC1 : ∀ c ∈ C, p1 c = false := fun c hc =>
    hD c (by rw [← List.takeWhile_append_dropWhile q2 (events.dropWhile p1), hBd, hCd]
             exact List.mem_append_right _ hc)
  have hA2 : ∀ a ∈ A, q2 a = true := fun a ha => by
    have := hA a ha
    simp only [p1, q2, decide_eq_true_eq] at *
    omega
  -- the filter
  have hfilter : events.filter
      (fun e => decide (first_time ≤ e.time) && decide (e.time ≤ last_time)) = B := by
    rw [hsplit, List.filter_append, List.filter_append]
    have f1 : A.filter (fun e => decide (first_time ≤ e.time) && decide (e.time ≤ last_time))
        = [] := by
      rw [List.filter_eq_nil_iff]
      intro a ha
      have := hA a ha
      simp only [p1, decide_eq_true_eq] at this
      simp only [Bool.and_eq_true, decide_eq_true_eq, not_and]
      omega
    have f2 : B.filter (fun e => decide (first_time ≤ e.time) && decide (e.time ≤ last_time))
        = B := by
      rw [List.filter_eq_self]
      intro b hb
      have h1 := hB b hb
      have h2 := hB1 b hb
      simp only [p1, q2, decide_eq_true_eq, decide_eq_false_iff_not] at h1 h2
      simp only [Bool.and_eq_true, decide_eq_true_eq]
      omega
    have f3 : C.filter (fun e => decide (first_time ≤ e.time) && decide (e.time ≤ last_time))
        = [] := by
      rw [List.filter_eq_nil_iff]
      intro c hc
      have := hC c hc
      simp only [q2, decide_eq_false_iff_not] at this
      simp only [Bool.and_eq_true, decide_eq_true_eq, not_and]
      omega
    rw [f1, f2, f3]
    simp
  -- the iterators
  have hbegin : begin_event events first_time = A.length := by
    unfold begin_event
    cases hev : events with
    | nil =>
      rw [hev] at hsplit
      have : A = [] := by
        cases A with
        | nil => rfl
        | cons a as => simp at hsplit
      simp [this]
    | cons e rest =>
      simp only
      by_cases h0 : e.time ≥ first_time
      · rw [if_pos h0]
        rw [hev] at hAd
        rw [← hAd, List.takeWhile_cons_of_neg (by simp only [p1, decide_eq_true_eq]; omega)]
        rfl
      · rw [if_neg h0, ← hev]
        unfold lower_bound
        rw [hsplit]
        exact lower_bound_loop_spec p1 A (B ++ C) hA
          (fun x hx => by
            rcases List.mem_append.1 hx with h | h
            · exact hB1 x h
            · exact hC1 x h)
          _ _ _ (le_refl _) (by omega) (by simp) (by simp)
  have hend : end_event false events last_time A.length = A.length + B.length := by
    unfold end_event
    cases hlast : events.getLast? with
    | none =>
      have : events = [] := List.getLast?_eq_none_iff.1 hlast
      rw [this] at hsplit
      have h1 : A = [] := by
        cases A with
        | nil => rfl
        | cons a as => simp at hsplit
      have h2 : B = [] := by
        cases B with
        | nil => rfl
        | cons a as => simp [h1] at hsplit
      simp [h1, h2]
    | some l =>
      simp only [get_end, Bool.false_eq_true, if_false]
      by_cases hl : l.time ≤ last_time
      · rw [if_pos hl]
        have hCnil : C = [] := by
          cases hCc : C with
          | nil => rfl
          | cons c cs =>
            exfalso
            have hcm : c ∈ C := by rw [hCc]; exact List.mem_cons_self _ _
            have h1 := hC c hcm
            simp only [q2, decide_eq_false_iff_not] at h1
            have hmem : l ∈ events := List.mem_of_getLast?_eq_some hlast
            -- the last event is not before `c`
            have hcl : c.time ≤ l.time := by
              have hne : events ≠ [] := by
                intro h; rw [h] at hlast; simp at hlast
              have hl' : events.getLast hne = l := by
                have := List.getLast?_eq_getLast events hne
                rw [this] at hlast
                exact Option.some.inj hlast
              have hcev : c ∈ events := by
                rw [hsplit]
                exact List.mem_append_right _ (List.mem_append_right _ hcm)
              obtain ⟨i, hi, hic⟩ := List.getElem_of_mem hcev
              rw [List.getLast_eq_getElem] at hl'
              by_cases hii : i = events.length - 1
              · subst hii
                rw [← hic, ← hl']
              · have := List.pairwise_iff_getElem.1 hs i (events.length - 1) hi (by omega)
                  (by omega)
                rw [← hic, ← hl']
                exact this
            omega
        rw [hsplit, hCnil]
        simp
      · rw [if_neg hl]
        unfold upper_bound
        rw [upper_bound_loop_eq]
        have hfun : (fun x : Event P => !decide (last_time < x.time)) = q2 := by
          funext x
          simp only [q2]
          by_cases h : x.time ≤ last_time
          · simp [h]
          · simp [h]; omega
        rw [hfun]
        have := lower_bound_loop_spec q2 (A ++ B) C
          (fun x hx => by
            rcases List.mem_append.1 hx with h | h
            · exact hA2 x h
            · exact hB x h) hC
          (events.length - A.length) A.length (events.length - A.length) (le_refl _)
          (by simp) (by
            rw [hsplit]
            simp) (by
            rw [hsplit]
            simp)
        rw [List.length_append] at this
        rw [← this]
        congr 1
        rw [hsplit]
        simp
  unfold kept_range
  rw [hbegin, hend, hfilter]
  by_cases hBn : B.length = 0
  · have : B = [] := List.length_eq_zero.1 hBn
    rw [if_pos (by omega), this]
  · rw [if_neg (by omega)]
    rw [show A.length + B.length - A.length = B.length by omega]
    conv_lhs => rw [hsplit]
    rw [List.drop_left, List.take_left]

/-! ## Events without duration -/

theorem head?_eq_getD {o : List Int} (h : 1 ≤ o.length) : o.head? = some (o.getD 0 0) := by
  cases o with
  | nil => simp at h
  | cons x xs => rfl

theorem getLast?_eq_getD {o : List Int} (h : 1 ≤ o.length) :
    o.getLast? = some (o.getD (o.length - 1) 0) := by
  rw [List.getLast?_eq_getElem?, getElem?_eq_some_getD (by omega)]

/-- The body of `adjust_time_sorted` once the arguments are validated and the events are
not empty. -/
theorem adjust_time_sorted_valid (fc has_dur : Bool) (events : List (Event P))
    (o n : List Int) (hlen : o.length = n.length) (h2 : 2 ≤ o.length) (hne : events ≠ []) :
    adjust_time_sorted fc has_dur events o n =
      match kept_range has_dur events (o.getD 0 0) (o.getD (o.length - 1) 0) with
      | [] => .ok []
      | new_events =>
        match get_factor o n 1 with
        | none => .error .out_of_range
        | some factor1 =>
          if has_dur then
            match duration_pass fc o n
                (insertion_sort (fun a b => decide (get_end true a < get_end true b)) new_events)
                1 factor1 with
            | .error err => .error err
            | .ok with_ends =>
              time_pass fc true o n (insertion_sort time_dur_less with_ends) 1 factor1
          else time_pass fc false o n new_events 1 factor1 := by
  unfold adjust_time_sorted
  rw [if_neg (by simpa using hlen), if_neg (by omega)]
  have he : events.isEmpty = false := by
    cases events with
    | nil => exact absurd rfl hne
    | cons e es => rfl
  rw [he, head?_eq_getD (by omega), getLast?_eq_getD (by omega)]
  simp only [Bool.false_eq_true, if_false]

theorem adjust_time_sorted_empty_range (fc has_dur : Bool) (events : List (Event P))
    (o n : List Int) (hlen : o.length = n.length) (h2 : 2 ≤ o.length)
    (hK : kept_range has_dur events (o.getD 0 0) (o.getD (o.length - 1) 0) = []) :
    adjust_time_sorted fc has_dur events o n = .ok [] := by
  by_cases hne : events = []
  · subst hne
    exact adjust_time_sorted_nil fc has_dur _ _ hlen h2
  · rw [adjust_time_sorted_valid fc has_dur events o n hlen h2 hne, hK]

theorem adjust_time_sorted_no_dur (fc : Bool) (events : List (Event P)) (o n : List Int)
    (hlen : o.length = n.length) (h2 : 2 ≤ o.length) (hne : events ≠ []) {f1 : F64}
    (hf : get_factor o n 1 = some f1) :
    adjust_time_sorted fc false events o n
      = time_pass fc false o n
          (kept_range false events (o.getD 0 0) (o.getD (o.length - 1) 0)) 1 f1 := by
  rw [adjust_time_sorted_valid fc false events o n hlen h2 hne, hf]
  cases kept_range false events (o.getD 0 0) (o.getD (o.length - 1) 0) with
  | nil => rfl
  | cons k ks => rfl

theorem adjust_time_sorted_dur_error (fc : Bool) (events : List (Event P)) (o n : List Int)
    (hlen : o.length = n.length) (h2 : 2 ≤ o.length) (hne : events ≠ []) {f1 : F64}
    (hf : get_factor o n 1 = some f1) {err : Error}
    (hK : kept_range true events (o.getD 0 0) (o.getD (o.length - 1) 0) ≠ [])
    (hd : duration_pass fc o n
      (insertion_sort (fun a b => decide (get_end true a < get_end true b))
        (kept_range true events (o.getD 0 0) (o.getD (o.length - 1) 0))) 1 f1 = .error err) :
    adjust_time_sorted fc true events o n = .error err := by
  rw [adjust_time_sorted_valid fc true events o n hlen h2 hne, hf]
  revert hd hK
  cases kept_range true events (o.getD 0 0) (o.getD (o.length - 1) 0) with
  | nil => intro hK; exact absurd rfl hK
  | cons k ks =>
    intro _ hd
    simp only [if_true]
    rw [hd]

theorem adjust_time_sorted_dur (fc : Bool) (events : List (Event P)) (o n : List Int)
    (hlen : o.length = n.length) (h2 : 2 ≤ o.length) (hne : events ≠ []) {f1 : F64}
    (hf : get_factor o n 1 = some f1) {with_ends : List (Event P)}
    (hK : kept_range true events (o.getD 0 0) (o.getD (o.length - 1) 0) ≠ [])
    (hd : duration_pass fc o n
      (insertion_sort (fun a b => decide (get_end true a < get_end true b))
        (kept_range true events (o.getD 0 0) (o.getD (o.length - 1) 0))) 1 f1
        = .ok with_ends) :
    adjust_time_sorted fc true events o n
      = time_pass fc true o n (insertion_sort time_dur_less with_ends) 1 f1 := by
  rw [adjust_time_sorted_valid fc true events o n hlen h2 hne, hf]
  revert hd hK
  cases kept_range true events (o.getD 0 0) (o.getD (o.length - 1) 0) with
  | nil => intro hK; exact absurd rfl hK
  | cons k ks =>
    intro _ hd
    simp only [if_true]
    rw [hd]

theorem forall₂_imp_mem {r t : α → β → Prop} {a : List α} {b : List β}
    (h : List.Forall₂ r a b) (hi : ∀ x ∈ a, ∀ y, r x y → t x y) : List.Forall₂ t a b := by
  induction h with
  | nil => exact List.Forall₂.nil
  | cons hxy _ ih =>
    exact List.Forall₂.cons (hi _ (List.mem_cons_self _ _) _ hxy)
      (ih (fun x hx y hr => hi x (List.mem_cons_of_mem _ hx) y hr))

/-- What `adjust_time_sorted` returns for events without duration, when no tick subtraction
overflows. -/
theorem time_only_result (fc : Bool) (events : List (Event P))
    (original_times new_times : List Int)
    (hsorted : events.Pairwise (fun a b => a.time ≤ b.time))
    (hlen : original_times.length = new_times.length) (h2 : 2 ≤ original_times.length)
    (hinc : original_times.Pairwise (· < ·))
    (hdo : ∀ x ∈ original_times, ∀ y ∈ original_times, in_i32 (x - y))
    (hdn : ∀ x ∈ new_times, ∀ y ∈ new_times, in_i32 (x - y))
    (hbn : ∀ x ∈ new_times, in_i32 x) :
    ∃ out, adjust_time_sorted fc false events original_times new_times = .ok out ∧
      List.Forall₂
        (fun e e' => maps_to fc original_times new_times e.time e'.time ∧
          e'.duration = e.duration ∧ e'.payload = e.payload)
        (events.filter (fun e => decide (original_times.getD 0 0 ≤ e.time) &&
          decide (e.time ≤ original_times.getD (original_times.length - 1) 0))) out := by
  by_cases hne : events = []
  · subst hne
    exact ⟨[], adjust_time_sorted_nil fc false _ _ hlen h2, by simp⟩
  · have hle : original_times.getD 0 0 ≤ original_times.getD (original_times.length - 1) 0 := by
      have := List.pairwise_iff_getElem.1 hinc 0 (original_times.length - 1) (by omega)
        (by omega) (by omega)
      rw [List.getD_eq_getElem?_getD, List.getD_eq_getElem?_getD,
        List.getElem?_eq_getElem (show 0 < original_times.length by omega),
        List.getElem?_eq_getElem (show original_times.length - 1 < original_times.length by omega)]
      simp only [Option.getD_some]
      omega
    rw [adjust_time_sorted_no_dur fc events _ _ hlen h2 hne
        (get_factor_eq hlen (le_refl 1) (by omega)),
      kept_range_time_only events _ _ hsorted hle]
    generalize hK : events.filter (fun e => decide (original_times.getD 0 0 ≤ e.time) &&
      decide (e.time ≤ original_times.getD (original_times.length - 1) 0)) = K
    have hKs : K.Pairwise (fun a b => a.time ≤ b.time) := by
      rw [← hK]
      exact hsorted.sublist (List.filter_sublist _)
    have hKm : ∀ e ∈ K, original_times.getD 0 0 ≤ e.time ∧
        e.time ≤ original_times.getD (original_times.length - 1) 0 := by
      intro e he
      rw [← hK] at he
      have := (List.mem_filter.1 he).2
      simp only [Bool.and_eq_true, decide_eq_true_eq] at this
      exact this
    obtain ⟨out, ho1, ho2⟩ := pivot_pass_ok fc (fun e : Event P => e.time)
      (fun e v => if false = true then
          { e with time := v, duration := wrap_i32 (e.duration - v) }
        else { e with time := v }) original_times new_times hlen hinc hdo hdn hbn K 1 _ hKs
      (fun e he => (hKm e he).2)
      (le_refl 1) (get_factor_eq hlen (le_refl 1) (by omega)) (fun e _ j hj1 hj2 => by omega)
      (fun e he => (hKm e he).1)
    refine ⟨out, ?_, ?_⟩
    · rw [time_pass_eq]
      exact ho1
    · refine ho2.imp ?_
      rintro a b ⟨v, hv, rfl⟩
      exact ⟨hv, rfl, rfl⟩

/-- C1 (amended): for time-only events in ascending order of time and a curve with arrays of
equal length at least two, strictly increasing `original_times`, any two of which differ by
less than `2^31`, and `new_times` that are 32-bit ticks any two of which differ by less than
`2^31` (so that no subtraction of ticks overflows), `adjust_time_sorted` returns, in input
order, exactly the events with `original_times[0] ≤ time ≤ original_times[last]`, each with
its time replaced by `new_times[k-1] + factor_k * (time - original_times[k-1])` converted to
a tick, `k` being the least index `≥ 1` with `time ≤ original_times[k]`; the other fields
are unchanged.  The expression is evaluated in `f64` (`maps_to`), and the tick differs by
less than a tick and a quarter from its exact value (`near_exact`). -/
theorem adjust_time_sorted_time_only (fp_contract : Bool) (events : List (Event P))
    (original_times new_times : List Int)
    (hsorted : events.Pairwise (fun a b => a.time ≤ b.time))
    (hlen : original_times.length = new_times.length) (h2 : 2 ≤ original_times.length)
    (hinc : original_times.Pairwise (· < ·))
    (hdo : ∀ x ∈ original_times, ∀ y ∈ original_times, in_i32 (x - y))
    (hdn : ∀ x ∈ new_times, ∀ y ∈ new_times, in_i32 (x - y))
    (hbn : ∀ x ∈ new_times, in_i32 x) :
    ∃ out, adjust_time_sorted fp_contract false events original_times new_times = .ok out ∧
      List.Forall₂
        (fun e e' => maps_to fp_contract original_times new_times e.time e'.time ∧
          near_exact original_times new_times e.time e'.time ∧
          e'.duration = e.duration ∧ e'.payload = e.payload)
        (events.filter (fun e => decide (original_times.getD 0 0 ≤ e.time) &&
          decide (e.time ≤ original_times.getD (original_times.length - 1) 0))) out := by
  obtain ⟨out, h1, hf⟩ := time_only_result fp_contract events original_times new_times hsorted
    hlen h2 hinc hdo hdn hbn
  refine ⟨out, h1, forall₂_imp_mem hf ?_⟩
  rintro e he e' ⟨hm, hd, hp⟩
  have hlo : original_times.getD 0 0 ≤ e.time := by
    have := (List.mem_filter.1 he).2
    simp only [Bool.and_eq_true, decide_eq_true_eq] at this
    exact this.1
  exact ⟨hm, maps_to_near_exact fp_contract hlen hdo hdn hbn hlo hm, hd, hp⟩

theorem adjust_time_sorted_time_only_witness :
    ([⟨25, 0, ()⟩, ⟨75, 0, ()⟩] : List (Event Unit)).Pairwise (fun a b => a.time ≤ b.time) ∧
    ([0, 50, 100] : List Int).length = ([0, 100, 300] : List Int).length ∧
    2 ≤ ([0, 50, 100] : List Int).length ∧
    ([0, 50, 100] : List Int).Pairwise (· < ·) ∧
    (∀ x ∈ ([0, 50, 100] : List Int), ∀ y ∈ ([0, 50, 100] : List Int), in_i32 (x - y)) ∧
    (∀ x ∈ ([0, 100, 300] : List Int), ∀ y ∈ ([0, 100, 300] : List Int), in_i32 (x - y)) ∧
    (∀ x ∈ ([0, 100, 300] : List Int), in_i32 x) ∧
    adjust_time_sorted false false ([⟨25, 0, ()⟩, ⟨75, 0, ()⟩] : List (Event Unit))
      [0, 50, 100] [0, 100, 300] = .ok [⟨50, 0, ()⟩, ⟨200, 0, ()⟩] ∧
    adjust_time_sorted true false ([⟨25, 0, ()⟩, ⟨75, 0, ()⟩] : List (Event Unit))
      [0, 50, 100] [0, 100, 300] = .ok [⟨50, 0, ()⟩, ⟨200, 0, ()⟩] ∧
    ∃ out, adjust_time_sorted false false ([⟨25, 0, ()⟩, ⟨75, 0, ()⟩] : List (Event Unit))
        [0, 50, 100] [0, 100, 300] = .ok out ∧
      List.Forall₂
        (fun e e' => maps_to false [0, 50, 100] [0, 100, 300] e.time e'.time ∧
          near_exact [0, 50, 100] [0, 100, 300] e.time e'.time ∧
          e'.duration = e.duration ∧ e'.payload = e.payload)
        (([⟨25, 0, ()⟩, ⟨75, 0, ()⟩] : List (Event Unit)).filter
          (fun e => decide (([0, 50, 100] : List Int).getD 0 0 ≤ e.time) &&
            decide (e.time ≤ ([0, 50, 100] : List Int).getD
              (([0, 50, 100] : List Int).length - 1) 0))) out :=
  ⟨by decide, by decide, by decide, by decide, by simp [in_i32], by simp [in_i32],
    by simp [in_i32], by decide!, by decide!,
    adjust_time_sorted_time_only _ _ _ _ (by decide) (by decide) (by decide) (by decide)
      (by simp [in_i32]) (by simp [in_i32]) (by simp [in_i32])⟩

/-- C1 (counterexample): the curve `[-2000000000, 2000000000] → [0, 100]` has strictly
increasing `original_times` and non-decreasing `new_times`, and the event at time `0` lies
in its domain; `new_times[0] + factor_1 * (0 - original_times[0])` is `50`, but the event is
returned at time `-678`, for both ways of evaluating the sum and the product: the difference
`original_times[1] - original_times[0] = 4000000000` is taken in the 32-bit tick type, where
it is `-294967296`. -/
theorem adjust_time_sorted_time_overflow :
    ([⟨0, 0, ()⟩] : List (Event Unit)).Pairwise (fun a b => a.time ≤ b.time) ∧
    ([-2000000000, 2000000000] : List Int).Pairwise (· < ·) ∧
    ([0, 100] : List Int).Pairwise (· ≤ ·) ∧
    (∀ x ∈ ([-2000000000, 2000000000] : List Int), in_i32 x) ∧
    wrap_i32 (2000000000 - -2000000000) = -294967296 ∧
    is_segment [-2000000000, 2000000000] 0 1 ∧
    segment_value false [-2000000000, 2000000000] [0, 100] 1 0 = some 50 ∧
    segment_value true [-2000000000, 2000000000] [0, 100] 1 0 = some 50 ∧
    adjust_time_sorted false false ([⟨0, 0, ()⟩] : List (Event Unit))
      [-2000000000, 2000000000] [0, 100] = .ok [⟨-678, 0, ()⟩] ∧
    adjust_time_sorted true false ([⟨0, 0, ()⟩] : List (Event Unit))
      [-2000000000, 2000000000] [0, 100] = .ok [⟨-678, 0, ()⟩] ∧
    segment_exact [-2000000000, 2000000000] [0, 100] 1 0 = 50 ∧
    ¬ maps_to false [-2000000000, 2000000000] [0, 100] 0 (-678) ∧
    ¬ maps_to true [-2000000000, 2000000000] [0, 100] 0 (-678) ∧
    ¬ near_exact [-2000000000, 2000000000] [0, 100] 0 (-678) := by
  have h1 : segment_value false [-2000000000, 2000000000] [0, 100] 1 0 = some 50 := by decide!
  have h2 : segment_value true [-2000000000, 2000000000] [0, 100] 1 0 = some 50 := by decide!
  have hk : ∀ t k, is_segment [-2000000000, 2000000000] t k → k = 1 := by
    intro t k hk
    have a1 := hk.1
    have a2 := hk.2.1
    simp only [List.length_cons, List.length_nil] at a2
    omega
  have h3 : segment_exact [-2000000000, 2000000000] [0, 100] 1 0 = 50 := by
    simp only [segment_exact, List.getD_cons_succ, List.getD_cons_zero, Nat.sub_self]
    norm_num
  refine ⟨by decide, by decide, by decide, by simp [in_i32], by decide,
    ⟨by decide, by decide, by decide, fun j a b => by omega⟩, h1, h2, by decide!, by decide!,
    h3, ?_, ?_, ?_⟩
  · rintro ⟨k, hs, hv⟩
    rw [hk _ _ hs, h1] at hv
    cases hv
  · rintro ⟨k, hs, hv⟩
    rw [hk _ _ hs, h2] at hv
    cases hv
  · rintro ⟨k, hs, hv⟩
    rw [hk _ _ hs, h3] at hv
    norm_num at hv

/-! ## Events with duration -/

theorem forall₂_comp {r : α → β → Prop} {s : β → γ → Prop} {a : List α} {b : List β}
    {c : List γ} (h1 : List.Forall₂ r a b) (h2 : List.Forall₂ s b c) :
    List.Forall₂ (fun x z => ∃ y, r x y ∧ s y z) a c := by
  induction h1 generalizing c with
  | nil =>
    cases h2
    exact List.Forall₂.nil
  | cons hxy _ ih =>
    cases h2 with
    | cons hyz htl => exact List.Forall₂.cons ⟨_, hxy, hyz⟩ (ih htl)

theorem forall₂_mem_right {r : α → β → Prop} {a : List α} {b : List β}
    (h : List.Forall₂ r a b) : ∀ y ∈ b, ∃ x ∈ a, r x y := by
  induction h with
  | nil => simp
  | cons hxy _ ih =>
    intro y hy
    rcases List.mem_cons.1 hy with rfl | hy
    · exact ⟨_, List.mem_cons_self _ _, hxy⟩
    · obtain ⟨x, hx, hr⟩ := ih y hy
      exact ⟨x, List.mem_cons_of_mem _ hx, hr⟩

theorem strictWeak_end_lt :
    StrictWeak (fun a b : Event P => decide (get_end true a < get_end true b)) := by
  refine ⟨?_, ?_⟩
  · intro a b h
    simp only [decide_eq_true_eq, decide_eq_false_iff_not] at *
    omega
  · intro a b c h1 h2
    simp only [decide_eq_true_eq, decide_eq_false_iff_not] at *
    omega

theorem time_dur_less_iff (a b : Event P) :
    time_dur_less a b = true ↔
      a.time < b.time ∨ (a.time = b.time ∧ a.duration < b.duration) := by
  simp only [time_dur_less, Bool.or_eq_true, Bool.and_eq_true, decide_eq_true_eq,
    Bool.not_eq_true', decide_eq_false_iff_not]
  omega

theorem strictWeak_time_dur_less : StrictWeak (time_dur_less (P := P)) := by
  refine ⟨?_, ?_⟩
  · intro a b h
    rw [time_dur_less_iff] at h
    rw [← Bool.not_eq_true, time_dur_less_iff]
    omega
  · intro a b c h1 h2
    rw [← Bool.not_eq_true, time_dur_less_iff] at h1 h2
    rw [← Bool.not_eq_true, time_dur_less_iff]
    omega

theorem sorted_by_time_of_time_dur_less {xs : List (Event P)}
    (h : xs.Pairwise (fun a b => time_dur_less b a = false)) :
    xs.Pairwise (fun a b => a.time ≤ b.time) := by
  refine h.imp ?_
  intro a b hab
  rw [← Bool.not_eq_true, time_dur_less_iff] at hab
  omega

/-- When the first event does not start before `first_time` and the last event does not end
after `last_time`, the whole vector is copied. -/
theorem kept_range_all (has_dur : Bool) (events : List (Event P)) (first_time last_time : Int)
    (hne : events ≠ [])
    (hfirst : ∀ e, events.head? = some e → first_time ≤ e.time)
    (hlast : ∀ e, events.getLast? = some e → get_end has_dur e ≤ last_time) :
    kept_range has_dur events first_time last_time = events := by
  have hb : begin_event events first_time = 0 := by
    unfold begin_event
    cases events with
    | nil => rfl
    | cons e es =>
      simp only
      rw [if_pos (hfirst e rfl)]
  have he : end_event has_dur events last_time 0 = events.length := by
    unfold end_event
    cases h : events.getLast? with
    | none => exact absurd (List.getLast?_eq_none_iff.1 h) hne
    | some l =>
      simp only
      rw [if_pos (hlast l h)]
  unfold kept_range
  rw [hb, he]
  have : ¬ events.length ≤ 0 := by
    cases events with
    | nil => exact absurd rfl hne
    | cons e es => simp
  rw [if_neg this]
  simp

/-- What `adjust_time_sorted` returns for events with duration that lie inside the domain
of the curve, when no subtraction of ticks of the curve overflows: the duration is the
difference of the mapped end and the mapped start, taken in the tick type. -/
theorem with_duration_result (fc : Bool) (events : List (Event P))
    (original_times new_times : List Int)
    (hlen : original_times.length = new_times.length) (h2 : 2 ≤ original_times.length)
    (hinc : original_times.Pairwise (· < ·))
    (hbo : ∀ x ∈ original_times, in_i32 x)
    (hdo : ∀ x ∈ original_times, ∀ y ∈ original_times, in_i32 (x - y))
    (hdn : ∀ x ∈ new_times, ∀ y ∈ new_times, in_i32 (x - y))
    (hbn : ∀ x ∈ new_times, in_i32 x)
    (hdom : ∀ e ∈ events, 0 ≤ e.duration ∧ original_times.getD 0 0 ≤ e.time ∧
      e.time + e.duration ≤ original_times.getD (original_times.length - 1) 0) :
    ∃ out mapped, adjust_time_sorted fc true events original_times new_times = .ok out ∧
      List.Forall₂
        (fun e e' => ∃ s en, maps_to fc original_times new_times e.time s ∧
          maps_to fc original_times new_times (e.time + e.duration) en ∧
          e' = { e with time := s, duration := wrap_i32 (en - s) }) events mapped ∧
      out.Perm mapped := by
  by_cases hne : events = []
  · subst hne
    exact ⟨[], [], adjust_time_sorted_nil fc true _ _ hlen h2, List.Forall₂.nil,
      List.Perm.refl _⟩
  · have hend : ∀ e ∈ events, get_end true e = e.time + e.duration := by
      intro e he
      obtain ⟨d1, d2, d3⟩ := hdom e he
      obtain ⟨b1, _⟩ := hbo _ (getD_mem (show 0 < original_times.length by omega))
      obtain ⟨_, b2⟩ := hbo _ (getD_mem
        (show original_times.length - 1 < original_times.length by omega))
      exact get_end_true ⟨by omega, by omega⟩
    have hK := kept_range_all true events (original_times.getD 0 0)
      (original_times.getD (original_times.length - 1) 0) hne
        (fun e he => (hdom e (List.mem_of_mem_head? he)).2.1)
        (fun e he => by
          rw [hend e (List.mem_of_getLast?_eq_some he)]
          exact (hdom e (List.mem_of_getLast?_eq_some he)).2.2)
    have hf1 := get_factor_eq hlen (le_refl 1) (show 1 < original_times.length by omega)
    -- the first sort and the duration pass
    have hs1p := insertion_sort_perm
      (fun a b : Event P => decide (get_end true a < get_end true b)) events
    have hs1s := insertion_sort_pairwise
      (fun a b : Event P => decide (get_end true a < get_end true b)) strictWeak_end_lt events
    generalize hs1 : insertion_sort
      (fun a b : Event P => decide (get_end true a < get_end true b)) events = s1 at hs1p hs1s
    have hs1s' : s1.Pairwise (fun a b => get_end true a ≤ get_end true b) := by
      refine hs1s.imp ?_
      intro a b hab
      simp only [decide_eq_false_iff_not] at hab
      omega
    have hs1b : ∀ e ∈ s1, original_times.getD 0 0 ≤ get_end true e ∧ get_end true e ≤
        original_times.getD (original_times.length - 1) 0 := by
      intro e he
      have := hdom e (hs1p.mem_iff.1 he)
      rw [hend e (hs1p.mem_iff.1 he)]
      omega
    obtain ⟨w, hw1, hw2⟩ := pivot_pass_ok fc (get_end true)
      (fun (e : Event P) v => { e with duration := v }) original_times new_times hlen hinc
      hdo hdn hbn s1 1 _ hs1s' (fun e he => (hs1b e he).2) (le_refl 1) hf1
      (fun e _ j hj1 hj2 => by omega) (fun e he => (hs1b e he).1)
    -- the second sort and the time pass
    have hs2p := insertion_sort_perm (time_dur_less (P := P)) w
    have hs2s := sorted_by_time_of_time_dur_less
      (insertion_sort_pairwise (time_dur_less (P := P)) strictWeak_time_dur_less w)
    generalize hs2 : insertion_sort (time_dur_less (P := P)) w = s2 at hs2p hs2s
    have hs2b : ∀ e ∈ s2, original_times.getD 0 0 ≤ e.time ∧
        e.time ≤ original_times.getD (original_times.length - 1) 0 := by
      intro e he
      obtain ⟨e0, he0, v, _, rfl⟩ := forall₂_mem_right hw2 e (hs2p.mem_iff.1 he)
      have := hdom e0 (hs1p.mem_iff.1 he0)
      simp only
      omega
    obtain ⟨out, ho1, ho2⟩ := pivot_pass_ok fc (fun e : Event P => e.time)
      (fun e v => if true = true then
          { e with time := v, duration := wrap_i32 (e.duration - v) }
        else { e with time := v }) original_times new_times hlen hinc hdo hdn hbn
      s2 1 _ hs2s (fun e he => (hs2b e he).2) (le_refl 1) hf1 (fun e _ j hj1 hj2 => by omega)
      (fun e he => (hs2b e he).1)
    -- permutations
    obtain ⟨out1, hb1, hb2⟩ := List.perm_comp_forall₂ hs2p.symm ho2
    have hcomp := forall₂_comp hw2 hb1
    obtain ⟨mapped, hm1, hm2⟩ := List.perm_comp_forall₂ hs1p.symm hcomp
    refine ⟨out, mapped, ?_, ?_, hb2.symm.trans hm2.symm⟩
    · rw [adjust_time_sorted_dur fc events _ _ hlen h2 hne hf1 (by rw [hK]; exact hne)
        (by rw [hK, duration_pass_eq, hs1]; exact hw1), hs2, time_pass_eq]
      exact ho1
    · refine forall₂_imp_mem hm1 ?_
      rintro a ha c ⟨b, ⟨v, hv, rfl⟩, ⟨v', hv', rfl⟩⟩
      refine ⟨v', v, hv', ?_, ?_⟩
      · rw [← hend a ha]
        exact hv
      · simp

/-- The difference of two values of points of the domain does not overflow, when any two
of the values of `new_times` and zero differ by less than `2^31`. -/
theorem maps_to_sub_in_i32 (fc : Bool) {o n : List Int} (hlen : o.length = n.length)
    (hdo : ∀ x ∈ o, ∀ y ∈ o, in_i32 (x - y))
    (hdn : ∀ x ∈ 0 :: n, ∀ y ∈ 0 :: n, in_i32 (x - y)) {t t1 s s1 : Int}
    (h0 : o.getD 0 0 ≤ t) (h1 : o.getD 0 0 ≤ t1) (hs : maps_to fc o n t s)
    (hs1 : maps_to fc o n t1 s1) : in_i32 (s1 - s) := by
  have hdn' : ∀ x ∈ n, ∀ y ∈ n, in_i32 (x - y) :=
    fun x hx y hy => hdn x (List.mem_cons_of_mem _ hx) y (List.mem_cons_of_mem _ hy)
  have hbn : ∀ x ∈ n, in_i32 x := fun x hx => by
    have := hdn x (List.mem_cons_of_mem _ hx) 0 (List.mem_cons_self _ _)
    rwa [sub_zero] at this
  obtain ⟨⟨lo, a1, a2⟩, ⟨hi, a3, a4⟩⟩ := maps_to_bounds fc hlen hdo hdn' hbn h0 hs
  obtain ⟨⟨lo1, b1, b2⟩, ⟨hi1, b3, b4⟩⟩ := maps_to_bounds fc hlen hdo hdn' hbn h1 hs1
  obtain ⟨c1, _⟩ := hdn lo1 b1 hi a3
  obtain ⟨_, c2⟩ := hdn hi1 b3 lo a1
  constructor <;> omega

/-- C2 (amended): for duration-bearing events whose durations are not negative and which lie
inside the domain of the curve (`original_times[0] ≤ time`, `time + duration ≤
original_times[last]`), and a curve with arrays of equal length at least two whose
`original_times` are strictly increasing 32-bit ticks, any two of which differ by less than
`2^31`, and whose `new_times` are such that any two of them and zero differ by less than
`2^31` (so that no subtraction of ticks overflows), the output of `adjust_time_sorted` is a
permutation of the list obtained by replacing each event `e` by `e` with `time := F(e.time)`
and `duration := F(e.time + e.duration) - F(e.time)`, where `F` maps a point through the
segment that contains it.  `F` is evaluated in `f64` (`maps_to`), and its tick differs by
less than a tick and a quarter from the exact value of the curve (`near_exact`). -/
theorem adjust_time_sorted_with_duration (fp_contract : Bool) (events : List (Event P))
    (original_times new_times : List Int)
    (hlen : original_times.length = new_times.length) (h2 : 2 ≤ original_times.length)
    (hinc : original_times.Pairwise (· < ·))
    (hbo : ∀ x ∈ original_times, in_i32 x)
    (hdo : ∀ x ∈ original_times, ∀ y ∈ original_times, in_i32 (x - y))
    (hdn : ∀ x ∈ 0 :: new_times, ∀ y ∈ 0 :: new_times, in_i32 (x - y))
    (hdom : ∀ e ∈ events, 0 ≤ e.duration ∧ original_times.getD 0 0 ≤ e.time ∧
      e.time + e.duration ≤ original_times.getD (original_times.length - 1) 0) :
    ∃ out mapped,
      adjust_time_sorted fp_contract true events original_times new_times = .ok out ∧
      List.Forall₂
        (fun e e' => ∃ s en, maps_to fp_contract original_times new_times e.time s ∧
          maps_to fp_contract original_times new_times (e.time + e.duration) en ∧
          near_exact original_times new_times e.time s ∧
          near_exact original_times new_times (e.time + e.duration) en ∧
          e' = { e with time := s, duration := en - s }) events mapped ∧
      out.Perm mapped := by
  have hdn' : ∀ x ∈ new_times, ∀ y ∈ new_times, in_i32 (x - y) :=
    fun x hx y hy => hdn x (List.mem_cons_of_mem _ hx) y (List.mem_cons_of_mem _ hy)
  have hbn : ∀ x ∈ new_times, in_i32 x := fun x hx => by
    have := hdn x (List.mem_cons_of_mem _ hx) 0 (List.mem_cons_self _ _)
    rwa [sub_zero] at this
  obtain ⟨out, mapped, h1, hm, hp⟩ := with_duration_result fp_contract events original_times
    new_times hlen h2 hinc hbo hdo hdn' hbn hdom
  refine ⟨out, mapped, h1, forall₂_imp_mem hm ?_, hp⟩
  rintro e he e' ⟨s, en, hs, hen, rfl⟩
  have hd := hdom e he
  refine ⟨s, en, hs, hen, maps_to_near_exact fp_contract hlen hdo hdn' hbn hd.2.1 hs,
    maps_to_near_exact fp_contract hlen hdo hdn' hbn (by omega) hen, ?_⟩
  rw [wrap_i32_eq (maps_to_sub_in_i32 fp_contract hlen hdo hdn hd.2.1 (by omega) hs hen)]

theorem adjust_time_sorted_with_duration_witness :
    ([0, 50, 100] : List Int).length = ([0, 100, 300] : List Int).length ∧
    2 ≤ ([0, 50, 100] : List Int).length ∧
    ([0, 50, 100] : List Int).Pairwise (· < ·) ∧
    (∀ x ∈ ([0, 50, 100] : List Int), in_i32 x) ∧
    (∀ x ∈ ([0, 50, 100] : List Int), ∀ y ∈ ([0, 50, 100] : List Int), in_i32 (x - y)) ∧
    (∀ x ∈ (0 :: [0, 100, 300] : List Int), ∀ y ∈ (0 :: [0, 100, 300] : List Int),
      in_i32 (x - y)) ∧
    (∀ e ∈ ([⟨40, 20, ()⟩] : List (Event Unit)), 0 ≤ e.duration ∧
      ([0, 50, 100] : List Int).getD 0 0 ≤ e.time ∧
      e.time + e.duration ≤ ([0, 50, 100] : List Int).getD
        (([0, 50, 100] : List Int).length - 1) 0) ∧
    adjust_time_sorted false true ([⟨40, 20, ()⟩] : List (Event Unit)) [0, 50, 100]
      [0, 100, 300] = .ok [⟨80, 60, ()⟩] ∧
    adjust_time_sorted true true ([⟨40, 20, ()⟩] : List (Event Unit)) [0, 50, 100]
      [0, 100, 300] = .ok [⟨80, 60, ()⟩] ∧
    ∃ out mapped, adjust_time_sorted false true ([⟨40, 20, ()⟩] : List (Event Unit))
        [0, 50, 100] [0, 100, 300] = .ok out ∧
      List.Forall₂
        (fun e e' => ∃ s en, maps_to false [0, 50, 100] [0, 100, 300] e.time s ∧
          maps_to false [0, 50, 100] [0, 100, 300] (e.time + e.duration) en ∧
          near_exact [0, 50, 100] [0, 100, 300] e.time s ∧
          near_exact [0, 50, 100] [0, 100, 300] (e.time + e.duration) en ∧
          e' = { e with time := s, duration := en - s })
        ([⟨40, 20, ()⟩] : List (Event Unit)) mapped ∧
      out.Perm mapped :=
  ⟨by decide, by decide, by decide, by simp [in_i32], by simp [in_i32], by simp [in_i32],
    by decide, by decide!, by decide!,
    adjust_time_sorted_with_duration _ _ _ _ (by decide) (by decide) (by decide)
      (by simp [in_i32]) (by simp [in_i32]) (by simp [in_i32]) (by decide)⟩

/-- C2 (counterexample): the note `{time = -2000000000, duration = 2000000000}` has a
non-negative duration and lies inside the domain of the curve
`[-2000000000, 2000000000] → [0, 100]`; its start is mapped to `F(-2000000000) = 0` and its
end to `F(0) = 50`, so the duration of the claim is `50`, but the note is returned with
duration `-678`, for both ways of evaluating the sum and the product: the difference
`original_times[1] - original_times[0]` overflows the 32-bit tick type. -/
theorem adjust_time_sorted_duration_overflow :
    ([-2000000000, 2000000000] : List Int).Pairwise (· < ·) ∧
    ([0, 100] : List Int).Pairwise (· ≤ ·) ∧
    (∀ e ∈ ([⟨-2000000000, 2000000000, ()⟩] : List (Event Unit)), 0 ≤ e.duration ∧
      -2000000000 ≤ e.time ∧ e.time + e.duration ≤ 2000000000) ∧
    is_segment [-2000000000, 2000000000] (-2000000000) 1 ∧
    is_segment [-2000000000, 2000000000] 0 1 ∧
    segment_value false [-2000000000, 2000000000] [0, 100] 1 (-2000000000) = some 0 ∧
    segment_value true [-2000000000, 2000000000] [0, 100] 1 (-2000000000) = some 0 ∧
    segment_value false [-2000000000, 2000000000] [0, 100] 1 0 = some 50 ∧
    segment_value true [-2000000000, 2000000000] [0, 100] 1 0 = some 50 ∧
    adjust_time_sorted false true ([⟨-2000000000, 2000000000, ()⟩] : List (Event Unit))
      [-2000000000, 2000000000] [0, 100] = .ok [⟨0, -678, ()⟩] ∧
    adjust_time_sorted true true ([⟨-2000000000, 2000000000, ()⟩] : List (Event Unit))
      [-2000000000, 2000000000] [0, 100] = .ok [⟨0, -678, ()⟩] ∧
    segment_exact [-2000000000, 2000000000] [0, 100] 1 (-2000000000) = 0 ∧
    segment_exact [-2000000000, 2000000000] [0, 100] 1 0 = 50 ∧
    (¬ ∃ s en, near_exact [-2000000000, 2000000000] [0, 100] (-2000000000) s ∧
      near_exact [-2000000000, 2000000000] [0, 100] (-2000000000 + 2000000000) en ∧
      (⟨0, -678, ()⟩ : Event Unit) = ⟨s, en - s, ()⟩) ∧
    (¬ ∃ s en, maps_to false [-2000000000, 2000000000] [0, 100] (-2000000000) s ∧
      maps_to false [-2000000000, 2000000000] [0, 100] (-2000000000 + 2000000000) en ∧
      (⟨0, -678, ()⟩ : Event Unit) = ⟨s, en - s, ()⟩) ∧
    (¬ ∃ s en, maps_to true [-2000000000, 2000000000] [0, 100] (-2000000000) s ∧
      maps_to true [-2000000000, 2000000000] [0, 100] (-2000000000 + 2000000000) en ∧
      (⟨0, -678, ()⟩ : Event Unit) = ⟨s, en - s, ()⟩) := by
  have a1 : segment_value false [-2000000000, 2000000000] [0, 100] 1 (-2000000000)
      = some 0 := by decide!
  have a2 : segment_value true [-2000000000, 2000000000] [0, 100] 1 (-2000000000)
      = some 0 := by decide!
  have b1 : segment_value false [-2000000000, 2000000000] [0, 100] 1 0 = some 50 := by decide!
  have b2 : segment_value true [-2000000000, 2000000000] [0, 100] 1 0 = some 50 := by decide!
  have hk : ∀ t k, is_segment [-2000000000, 2000000000] t k → k = 1 := by
    intro t k hk
    have c1 := hk.1
    have c2 := hk.2.1
    simp only [List.length_cons, List.length_nil] at c2
    omega
  have e1 : segment_exact [-2000000000, 2000000000] [0, 100] 1 (-2000000000) = 0 := by
    simp only [segment_exact, List.getD_cons_succ, List.getD_cons_zero, Nat.sub_self]
    norm_num
  have e2 : segment_exact [-2000000000, 2000000000] [0, 100] 1 0 = 50 := by
    simp only [segment_exact, List.getD_cons_succ, List.getD_cons_zero, Nat.sub_self]
    norm_num
  refine ⟨by decide, by decide, by decide,
    ⟨by decide, by decide, by decide, fun j a b => by omega⟩,
    ⟨by decide, by decide, by decide, fun j a b => by omega⟩,
    a1, a2, b1, b2, by decide!, by decide!, e1, e2, ?_, ?_, ?_⟩
  · rintro ⟨s, en, ⟨k, hs, hv⟩, ⟨k1, hs1, hv1⟩, he⟩
    rw [hk _ _ hs, e1] at hv
    rw [hk _ _ hs1] at hv1
    norm_num at hv1
    rw [e2] at hv1
    simp only [Event.mk.injEq, and_true] at he
    obtain ⟨rfl, he2⟩ := he
    have hen : en = -678 := by omega
    subst hen
    norm_num at hv1
  · rintro ⟨s, en, ⟨k, hs, hv⟩, ⟨k1, hs1, hv1⟩, he⟩
    rw [hk _ _ hs, a1] at hv
    rw [hk _ _ hs1] at hv1
    norm_num at hv1
    rw [b1] at hv1
    cases hv
    cases hv1
    simp at he
  · rintro ⟨s, en, ⟨k, hs, hv⟩, ⟨k1, hs1, hv1⟩, he⟩
    rw [hk _ _ hs, a2] at hv
    rw [hk _ _ hs1] at hv1
    norm_num at hv1
    rw [b2] at hv1
    cases hv
    cases hv1
    simp at he

/-! ## The uniform scale -/

theorem forall₂_eq_map {f : α → β} {l : List α} {out : List β}
    (h : List.Forall₂ (fun a b => b = f a) l out) : out = l.map f := by
  induction h with
  | nil => rfl
  | cons hab _ ih => rw [List.map_cons, ← ih, hab]

/-- On the curve `[0, T] → [0, k * T]` with an integer `k`, a point of `[0, T]` is mapped to
`k` times itself: every intermediate `f64` value is an integer below `2 ^ 53`. -/
theorem maps_to_scale (fc : Bool) {T k t v : Int} (hT : 0 < T) (hT31 : T < 2 ^ 31)
    (hk : |k * T| < 2 ^ 31) (ht0 : 0 ≤ t) (htT : t ≤ T)
    (h : maps_to fc [0, T] [0, k * T] t v) : v = k * t := by
  obtain ⟨kk, hseg, hv⟩ := h
  have hkk : kk = 1 := by
    have h1 := hseg.1
    have h2 := hseg.2.1
    simp only [List.length_cons, List.length_nil] at h2
    omega
  subst hkk
  obtain ⟨hv, _⟩ := segment_value_real fc (by simp) (le_refl 1) (by simp) hv
  simp only [List.getD_cons_succ, List.getD_cons_zero, Nat.sub_self] at hv
  have habs_k : |k| ≤ |k * T| := by
    rw [abs_mul]
    have : (1 : Int) ≤ |T| := by rw [abs_of_pos hT]; omega
    calc |k| = |k| * 1 := (mul_one _).symm
      _ ≤ |k| * |T| := mul_le_mul_of_nonneg_left this (abs_nonneg k)
  have habs_kt : |k * t| ≤ |k * T| := by
    rw [abs_mul, abs_mul, abs_of_nonneg ht0, abs_of_pos hT]
    exact mul_le_mul_of_nonneg_left htT (abs_nonneg k)
  have b53 : ((2 : Int) ^ 31) ≤ 2 ^ (53 : ℕ) := by norm_num
  rw [segment_real_exact fc (by simp) (by rw [sub_zero]; exact lt_of_lt_of_le hk b53)
    (by rw [sub_zero, abs_of_pos hT]; exact lt_of_lt_of_le hT31 b53)
    (by rw [sub_zero, abs_of_nonneg ht0]; exact lt_of_le_of_lt htT (lt_of_lt_of_le hT31 b53))]
    at hv
  have e5 : ((k * T - 0 : Int) : ℚ) / ((T - 0 : Int) : ℚ) = (k : ℚ) := by
    have : (T : ℚ) ≠ 0 := by exact_mod_cast (ne_of_gt hT)
    push_cast
    field_simp
  have e6 : round53 (k : ℚ) = (k : ℚ) :=
    round53_intCast _ (lt_of_le_of_lt habs_k (lt_of_lt_of_le hk b53))
  have e7 : round53 ((k : ℚ) * (t : ℚ)) = ((k * t : Int) : ℚ) := by
    rw [← Int.cast_mul]
    exact round53_intCast _ (lt_of_le_of_lt habs_kt (lt_of_lt_of_le hk b53))
  have e8 : round53 (((k * t : Int) : ℚ)) = ((k * t : Int) : ℚ) :=
    round53_intCast _ (lt_of_le_of_lt habs_kt (lt_of_lt_of_le hk b53))
  rw [e5, e6] at hv
  simp only [sub_zero, Int.cast_zero, add_zero, zero_add] at hv
  rw [e7, e8] at hv
  simp only [ite_self] at hv
  rw [trunc_intCast] at hv
  exact hv

/-- C8 (amended): on the curve `[0, T] → [0, k * T]` with `T > 0`, an integer scale `k` and
`T`, `|k * T|` below `2 ^ 31`: for events without duration in ascending order of time, the
result holds the events with `0 ≤ time ≤ T`, in input order, each with its time multiplied
by `k`; for events with non-negative duration that all lie in `[0, T]`, the result is a
permutation of the events with time and duration both multiplied by `k`. -/
theorem adjust_time_sorted_uniform_scale (fp_contract : Bool) (T k : Int) (hT : 0 < T)
    (hT31 : T < 2 ^ 31) (hk : |k * T| < 2 ^ 31) :
    (∀ events : List (Event P), events.Pairwise (fun a b => a.time ≤ b.time) →
      adjust_time_sorted fp_contract false events [0, T] [0, k * T]
        = .ok ((events.filter (fun e => decide (0 ≤ e.time) && decide (e.time ≤ T))).map
            (fun e => { e with time := k * e.time }))) ∧
    (∀ events : List (Event P),
      (∀ e ∈ events, 0 ≤ e.duration ∧ 0 ≤ e.time ∧ e.time + e.duration ≤ T) →
      ∃ out, adjust_time_sorted fp_contract true events [0, T] [0, k * T] = .ok out ∧
        out.Perm (events.map
          (fun e => { e with time := k * e.time, duration := k * e.duration }))) := by
  have hinc : ([0, T] : List Int).Pairwise (· < ·) := by simp; omega
  have hk' := abs_lt.1 hk
  have hbo : ∀ x ∈ ([0, T] : List Int), in_i32 x := by
    intro x hx
    simp only [List.mem_cons, List.mem_singleton, List.not_mem_nil, or_false] at hx
    rcases hx with rfl | rfl <;> constructor <;> omega
  have hbn : ∀ x ∈ ([0, k * T] : List Int), in_i32 x := by
    intro x hx
    simp only [List.mem_cons, List.mem_singleton, List.not_mem_nil, or_false] at hx
    rcases hx with rfl | rfl <;> constructor <;> omega
  have hdo : ∀ x ∈ ([0, T] : List Int), ∀ y ∈ ([0, T] : List Int), in_i32 (x - y) := by
    intro x hx y hy
    simp only [List.mem_cons, List.mem_singleton, List.not_mem_nil, or_false] at hx hy
    rcases hx with rfl | rfl <;> rcases hy with rfl | rfl <;> constructor <;> omega
  have hdn : ∀ x ∈ ([0, k * T] : List Int), ∀ y ∈ ([0, k * T] : List Int),
      in_i32 (x - y) := by
    intro x hx y hy
    simp only [List.mem_cons, List.mem_singleton, List.not_mem_nil, or_false] at hx hy
    rcases hx with rfl | rfl <;> rcases hy with rfl | rfl <;> constructor <;> omega
  constructor
  · intro events hs
    obtain ⟨out, ho1, ho2⟩ := time_only_result fp_contract events [0, T] [0, k * T] hs
      (by simp) (by simp) hinc hdo hdn hbn
    simp only [List.getD_cons_zero, List.length_cons, List.length_nil, Nat.reduceAdd,
      Nat.add_one_sub_one, List.getD_cons_succ] at ho2
    rw [ho1]
    congr 1
    apply forall₂_eq_map
    have hmem : ∀ e ∈ events.filter (fun e => decide (0 ≤ e.time) && decide (e.time ≤ T)),
        0 ≤ e.time ∧ e.time ≤ T := by
      intro e he
      have := (List.mem_filter.1 he).2
      simpa using this
    generalize events.filter (fun e => decide (0 ≤ e.time) && decide (e.time ≤ T)) = K
      at ho2 hmem
    clear ho1
    induction ho2 with
    | nil => exact List.Forall₂.nil
    | @cons a b l1 l2 hab _ ih =>
      refine List.Forall₂.cons ?_ (ih (fun e he => hmem e (List.mem_cons_of_mem _ he)))
      obtain ⟨h1, h2, h3⟩ := hab
      have hv := maps_to_scale fp_contract hT hT31 hk (hmem a (List.mem_cons_self _ _)).1
        (hmem a (List.mem_cons_self _ _)).2 h1
      cases a
      cases b
      simp only at h2 h3 hv
      subst h2 h3 hv
      rfl
  · intro events hdom
    obtain ⟨out, mapped, ho1, ho2, ho3⟩ := with_duration_result fp_contract events [0, T]
      [0, k * T] (by simp) (by simp) hinc hbo hdo hdn hbn (by simpa using hdom)
    refine ⟨out, ho1, ?_⟩
    have : mapped = events.map
        (fun e => { e with time := k * e.time, duration := k * e.duration }) := by
      apply forall₂_eq_map
      clear ho1 ho3
      induction ho2 with
      | nil => exact List.Forall₂.nil
      | @cons a b l1 l2 hab _ ih =>
        refine List.Forall₂.cons ?_ (ih (fun e he => hdom e (List.mem_cons_of_mem _ he)))
        obtain ⟨s, en, h1, h2, rfl⟩ := hab
        have hd := hdom a (List.mem_cons_self _ _)
        have hs := maps_to_scale fp_contract hT hT31 hk hd.2.1 (by omega) h1
        have he := maps_to_scale fp_contract hT hT31 hk (by omega) hd.2.2 h2
        subst hs he
        have hkd : in_i32 (k * (a.time + a.duration) - k * a.time) := by
          have e : k * (a.time + a.duration) - k * a.time = k * a.duration := by ring
          have hle : |k * a.duration| ≤ |k * T| := by
            rw [abs_mul, abs_mul, abs_of_nonneg hd.1, abs_of_pos hT]
            exact mul_le_mul_of_nonneg_left (by omega) (abs_nonneg k)
          have hlt := abs_lt.1 (lt_of_le_of_lt hle hk)
          rw [e]
          constructor <;> omega
        rw [wrap_i32_eq hkd]
        congr 1
        ring
    rw [← this]
    exact ho3

theorem adjust_time_sorted_uniform_scale_witness :
    (0 : Int) < 100 ∧ (100 : Int) < 2 ^ 31 ∧ |(3 : Int) * 100| < 2 ^ 31 ∧
    adjust_time_sorted false false
        ([⟨-4, 0, ()⟩, ⟨25, 0, ()⟩, ⟨100, 0, ()⟩, ⟨101, 0, ()⟩] : List (Event Unit))
        [0, 100] [0, 3 * 100]
      = .ok [⟨75, 0, ()⟩, ⟨300, 0, ()⟩] ∧
    ∃ out, adjust_time_sorted true true ([⟨40, 20, ()⟩] : List (Event Unit)) [0, 100]
        [0, 3 * 100] = .ok out ∧ out.Perm [⟨120, 60, ()⟩] :=
  ⟨by decide, by decide, by decide,
    (adjust_time_sorted_uniform_scale (P := Unit) false 100 3 (by decide) (by decide)
      (by decide)).1
      [⟨-4, 0, ()⟩, ⟨25, 0, ()⟩, ⟨100, 0, ()⟩, ⟨101, 0, ()⟩] (by decide),
    (adjust_time_sorted_uniform_scale (P := Unit) true 100 3 (by decide) (by decide)
      (by decide)).2
      [⟨40, 20, ()⟩] (by decide)⟩

/-- C8 (counterexample): `T = 49`, `k = 1/49`, so that `k * T = 1` is a tick: the event at
time `49` lies in `[0, 49]` and `k * 49 = 1`, but it is mapped to time `0`, because
`(1.0 / 49.0) * 49.0 = 0.9999999999999999` in `f64` and the conversion truncates; the
result is the same when the product and the sum are fused. -/
theorem adjust_time_sorted_scale_not_exact :
    ((1 / 49 : ℚ) * 49 = 1) ∧
    adjust_time_sorted false false ([⟨49, 0, ()⟩] : List (Event Unit)) [0, 49] [0, 1]
      = .ok [⟨0, 0, ()⟩] ∧
    adjust_time_sorted true false ([⟨49, 0, ()⟩] : List (Event Unit)) [0, 49] [0, 1]
      = .ok [⟨0, 0, ()⟩] ∧
    ¬ ∃ out, adjust_time_sorted false false ([⟨49, 0, ()⟩] : List (Event Unit)) [0, 49] [0, 1]
        = .ok out ∧ ∃ e ∈ out, (e.time : ℚ) = (1 / 49 : ℚ) * 49 := by
  have h : adjust_time_sorted false false ([⟨49, 0, ()⟩] : List (Event Unit)) [0, 49] [0, 1]
      = .ok [⟨0, 0, ()⟩] := by decide!
  refine ⟨by norm_num, h, by decide!, ?_⟩
  rintro ⟨out, ho, e, he, ht⟩
  rw [h] at ho
  cases ho
  simp only [List.mem_singleton] at he
  subst he
  norm_num at ht

/-! ## Monotonicity of the interpolation -/

/-- The exact operands: ticks of the 32-bit type are converted without rounding. -/
theorem segment_real_eq (fc : Bool) {n0 n1 o0 o1 t : Int} (hn0 : in_i32 n0) (hn1 : in_i32 n1)
    (ho0 : in_i32 o0) (ho1 : in_i32 o1) (ht : in_i32 t) :
    segment_real fc n0 n1 o0 o1 t
      = if fc then
          round53 (round53 (((n1 - n0 : ℤ) : ℚ) / ((o1 - o0 : ℤ) : ℚ)) * ((t - o0 : ℤ) : ℚ)
            + (n0 : ℚ))
        else
          round53 ((n0 : ℚ) + round53 (round53 (((n1 - n0 : ℤ) : ℚ) / ((o1 - o0 : ℤ) : ℚ))
            * ((t - o0 : ℤ) : ℚ))) := by
  have b1 : |n1 - n0| < 2 ^ (53 : ℕ) := by
    obtain ⟨a1, a2⟩ := hn0
    obtain ⟨a3, a4⟩ := hn1
    rw [abs_lt]
    constructor <;> omega
  have b2 : |o1 - o0| < 2 ^ (53 : ℕ) := by
    obtain ⟨a1, a2⟩ := ho0
    obtain ⟨a3, a4⟩ := ho1
    rw [abs_lt]
    constructor <;> omega
  have b3 : |t - o0| < 2 ^ (53 : ℕ) := by
    obtain ⟨a1, a2⟩ := ho0
    obtain ⟨a3, a4⟩ := ht
    rw [abs_lt]
    constructor <;> omega
  exact segment_real_exact fc (in_i32_abs hn0) b1 b2 b3

/-- Within a segment the interpolated value does not decrease with the time. -/
theorem segment_real_mono (fc : Bool) {n0 n1 o0 o1 t t1 : Int} (hn0 : in_i32 n0)
    (hn1 : in_i32 n1) (ho0 : in_i32 o0) (ho1 : in_i32 o1) (ht : in_i32 t) (ht1 : in_i32 t1)
    (hnn : 0 ≤ n0) (hn : n0 ≤ n1) (ho : o0 < o1) (h0 : o0 ≤ t) (htt : t ≤ t1) :
    segment_real fc n0 n1 o0 o1 t ≤ segment_real fc n0 n1 o0 o1 t1 := by
  rw [segment_real_eq fc hn0 hn1 ho0 ho1 ht, segment_real_eq fc hn0 hn1 ho0 ho1 ht1]
  have hq : (0 : ℚ) ≤ ((n1 - n0 : ℤ) : ℚ) / ((o1 - o0 : ℤ) : ℚ) := by
    apply div_nonneg
    · exact_mod_cast (show (0 : ℤ) ≤ n1 - n0 by omega)
    · exact_mod_cast (show (0 : ℤ) ≤ o1 - o0 by omega)
  have hf := round53_nonneg _ hq
  have hd : (0 : ℚ) ≤ ((t - o0 : ℤ) : ℚ) := by exact_mod_cast (show (0 : ℤ) ≤ t - o0 by omega)
  have hdd : ((t - o0 : ℤ) : ℚ) ≤ ((t1 - o0 : ℤ) : ℚ) := by
    exact_mod_cast (show t - o0 ≤ t1 - o0 by omega)
  have hy := mul_nonneg hf hd
  have hyy := mul_le_mul_of_nonneg_left hdd hf
  have hn0' : (0 : ℚ) ≤ (n0 : ℚ) := by exact_mod_cast hnn
  cases fc
  · simp only [Bool.false_eq_true, if_false]
    have hx := round53_mono_nonneg hy hyy
    have hx0 := round53_nonneg _ hy
    exact round53_mono_nonneg (add_nonneg hn0' hx0) (by linarith)
  · simp only [if_true]
    exact round53_mono_nonneg (add_nonneg hy hn0') (by linarith)

/-- The interpolated value is not below the left end of the segment. -/
theorem segment_real_lower (fc : Bool) {n0 n1 o0 o1 t : Int} (hn0 : in_i32 n0)
    (hn1 : in_i32 n1) (ho0 : in_i32 o0) (ho1 : in_i32 o1) (ht : in_i32 t)
    (hnn : 0 ≤ n0) (hn : n0 ≤ n1) (ho : o0 < o1) (h0 : o0 ≤ t) :
    n0 ≤ F64.trunc (segment_real fc n0 n1 o0 o1 t) := by
  rw [segment_real_eq fc hn0 hn1 ho0 ho1 ht]
  have hq : (0 : ℚ) ≤ ((n1 - n0 : ℤ) : ℚ) / ((o1 - o0 : ℤ) : ℚ) := by
    apply div_nonneg
    · exact_mod_cast (show (0 : ℤ) ≤ n1 - n0 by omega)
    · exact_mod_cast (show (0 : ℤ) ≤ o1 - o0 by omega)
  have hf := round53_nonneg _ hq
  have hd : (0 : ℚ) ≤ ((t - o0 : ℤ) : ℚ) := by exact_mod_cast (show (0 : ℤ) ≤ t - o0 by omega)
  have hy := mul_nonneg hf hd
  have hx0 := round53_nonneg _ hy
  have hn0' : (0 : ℚ) ≤ (n0 : ℚ) := by exact_mod_cast hnn
  have key : ∀ x : ℚ, (n0 : ℚ) ≤ x → n0 ≤ F64.trunc (round53 x) := by
    intro x hx
    have h1 := round53_mono_nonneg hn0' hx
    rw [round53_intCast n0 (in_i32_abs hn0)] at h1
    have h2 := trunc_mono h1
    rw [trunc_intCast] at h2
    exact h2
  cases fc
  · simp only [Bool.false_eq_true, if_false]
    exact key _ (by linarith)
  · simp only [if_true]
    exact key _ (by linarith)

/-- The interpolated value is not above the right end of the segment, when the values of
the curve are not negative. -/
theorem segment_real_upper (fc : Bool) {n0 n1 o0 o1 t : Int} (hn0 : in_i32 n0)
    (hn1 : in_i32 n1) (hdo : in_i32 (o1 - o0))
    (hnn : 0 ≤ n0) (hn : n0 ≤ n1) (ho : o0 < o1) (h0 : o0 ≤ t) (h1 : t ≤ o1) :
    F64.trunc (segment_real fc n0 n1 o0 o1 t) ≤ n1 := by
  have hdn : in_i32 (n1 - n0) := by
    obtain ⟨a1, a2⟩ := hn0
    obtain ⟨a3, a4⟩ := hn1
    constructor <;> omega
  have h := (segment_trunc_bounds fc hn0 hn1 hdn hdo ho h0 h1).2.1
  rw [max_eq_right hn, max_eq_left (by omega)] at h
  exact h

theorem getD_le_getD {l : List Int} (hl : l.Pairwise (· ≤ ·)) {i j : Nat} (hij : i ≤ j)
    (hj : j < l.length) : l.getD i 0 ≤ l.getD j 0 := by
  rw [List.getD_eq_getElem?_getD, List.getD_eq_getElem?_getD,
    List.getElem?_eq_getElem hj, List.getElem?_eq_getElem (show i < l.length by omega)]
  simp only [Option.getD_some]
  rcases Nat.eq_or_lt_of_le hij with rfl | hlt
  · exact le_refl _
  · exact List.pairwise_iff_getElem.1 hl i j (by omega) hj hlt

/-- The interpolated tick does not decrease along the curve: for two points, the second
not before the first and in the same or a later segment, the second value is not smaller.
The values of the curve are not negative. -/
theorem segment_value_mono (fc : Bool) {o n : List Int} (hlen : o.length = n.length)
    (ho : o.Pairwise (· ≤ ·)) (hn : n.Pairwise (· ≤ ·)) (hn0 : ∀ x ∈ n, 0 ≤ x)
    (hbo : ∀ x ∈ o, in_i32 x) (hdo : ∀ x ∈ o, ∀ y ∈ o, in_i32 (x - y))
    (hbn : ∀ x ∈ n, in_i32 x) {k k1 : Nat} {t t1 v v1 : Int}
    (h1 : 1 ≤ k) (hkk : k ≤ k1) (hk1 : k1 < o.length) (ht : in_i32 t) (ht1 : in_i32 t1)
    (htt : t ≤ t1) (hlo : o.getD (k - 1) 0 ≤ t) (hhi : t ≤ o.getD k 0)
    (hlo1 : o.getD (k1 - 1) 0 ≤ t1)
    (hv : segment_value fc o n k t = some v) (hv1 : segment_value fc o n k1 t1 = some v1) :
    v ≤ v1 := by
  have hk : k < o.length := by omega
  have hne := segment_value_ne fc hlen h1 hk hv
  have hne1 := segment_value_ne fc hlen (by omega) hk1 hv1
  obtain ⟨hv, _⟩ := segment_value_real fc hlen h1 hk hv
  obtain ⟨hv1, _⟩ := segment_value_real fc hlen (by omega) hk1 hv1
  have hlt : o.getD (k - 1) 0 < o.getD k 0 :=
    lt_of_le_of_ne (getD_le_getD ho (by omega) hk) hne
  have hlt1 : o.getD (k1 - 1) 0 < o.getD k1 0 :=
    lt_of_le_of_ne (getD_le_getD ho (by omega) hk1) hne1
  have bn : ∀ i, i < n.length → in_i32 (n.getD i 0) ∧ 0 ≤ n.getD i 0 :=
    fun i hi => ⟨hbn _ (getD_mem hi), hn0 _ (getD_mem hi)⟩
  have bo : ∀ i, i < o.length → in_i32 (o.getD i 0) := fun i hi => hbo _ (getD_mem hi)
  rcases Nat.eq_or_lt_of_le hkk with rfl | hklt
  · rw [hv, hv1]
    exact trunc_mono (segment_real_mono fc (bn _ (by omega)).1 (bn _ (by omega)).1
      (bo _ (by omega)) (bo _ hk) ht ht1 (bn _ (by omega)).2
      (getD_le_getD hn (by omega) (by omega)) hlt hlo htt)
  · have hup := segment_real_upper fc (bn (k - 1) (by omega)).1 (bn k (by omega)).1
      (hdo _ (getD_mem hk) _ (getD_mem (show k - 1 < o.length by omega)))
      (bn _ (by omega)).2
      (getD_le_getD hn (by omega) (by omega)) hlt hlo hhi
    have hlow := segment_real_lower fc (bn (k1 - 1) (by omega)).1 (bn k1 (by omega)).1
      (bo _ (by omega)) (bo _ hk1) ht1 (bn _ (by omega)).2
      (getD_le_getD hn (by omega) (by omega)) hlt1 hlo1
    have hmid : n.getD k 0 ≤ n.getD (k1 - 1) 0 := getD_le_getD hn (by omega) (by omega)
    rw [hv, hv1]
    omega

theorem pivot_pass_sorted (fc : Bool) (key : Event P → Int)
    (update : Event P → Int → Event P)
    (val : Event P → Int) (hval : ∀ e v, val (update e v) = v)
    (o n : List Int) (hlen : o.length = n.length)
    (ho : o.Pairwise (· ≤ ·)) (hn : n.Pairwise (· ≤ ·)) (hn0 : ∀ x ∈ n, 0 ≤ x)
    (hbo : ∀ x ∈ o, in_i32 x) (hdo : ∀ x ∈ o, ∀ y ∈ o, in_i32 (x - y))
    (hbn : ∀ x ∈ n, in_i32 x) :
    ∀ (events : List (Event P)) (p : Nat) (cur : F64) (out : List (Event P)),
      pivot_pass fc key update o n events p cur = .ok out →
      events.Pairwise (fun a b => key a ≤ key b) →
      1 ≤ p → get_factor o n p = some cur →
      (∀ e ∈ events, o.getD (p - 1) 0 ≤ key e) →
      (∀ e ∈ events, in_i32 (key e)) →
      out.Pairwise (fun a b => val a ≤ val b) ∧
        ∀ (p0 : Nat) (t0 v0 : Int), 1 ≤ p0 → p0 ≤ p → in_i32 t0 →
          o.getD (p0 - 1) 0 ≤ t0 → t0 ≤ o.getD p0 0 → (∀ e ∈ events, t0 ≤ key e) →
          segment_value fc o n p0 t0 = some v0 → ∀ e1 ∈ out, v0 ≤ val e1 := by
  intro events
  induction events with
  | nil =>
    intro p cur out h _ _ _ _ _
    simp only [pivot_pass, Except.ok.injEq] at h
    subst h
    exact ⟨List.Pairwise.nil, fun _ _ _ _ _ _ _ _ _ _ e1 he1 => by cases he1⟩
  | cons e rest ih =>
    intro p cur out h hs hp hf hlo hb
    rw [List.pairwise_cons] at hs
    unfold pivot_pass at h
    rcases advance_spec o n hlen (key e) _ p cur rfl hp hf with
      ⟨k, f, a1, a2, a3, a4, a5, a6⟩ | ⟨a1, _⟩
    · rw [a1] at h
      simp only at h
      have hlok : o.getD (k - 1) 0 ≤ key e := by
        rcases Nat.eq_or_lt_of_le a2 with rfl | hlt
        · exact hlo e (List.mem_cons_self _ _)
        · exact le_of_lt (a6 (k - 1) (by omega) (by omega))
      have hdn1 : in_i32 (n.getD k 0 - n.getD (k - 1) 0) := by
        obtain ⟨c1, c2⟩ := hbn _ (getD_mem (show k < n.length by omega))
        obtain ⟨c3, c4⟩ := hbn _ (getD_mem (show k - 1 < n.length by omega))
        have c5 := hn0 _ (getD_mem (show k < n.length by omega))
        have c6 := hn0 _ (getD_mem (show k - 1 < n.length by omega))
        constructor <;> omega
      have hdo1 : in_i32 (o.getD k 0 - o.getD (k - 1) 0) :=
        hdo _ (getD_mem a3) _ (getD_mem (by omega))
      have hdt : in_i32 (key e - o.getD (k - 1) 0) := by
        obtain ⟨c1, c2⟩ := hdo1
        constructor <;> omega
      rw [interpolate_eq fc hlen (by omega) a4 _ hdn1 hdo1 hdt] at h
      cases hsv : segment_value fc o n k (key e) with
      | none =>
        rw [hsv] at h
        cases h
      | some v =>
        rw [hsv] at h
        simp only at h
        cases hrec : pivot_pass fc key update o n rest k f with
        | error err =>
          rw [hrec] at h
          cases h
        | ok rest1 =>
          rw [hrec] at h
          simp only [Except.ok.injEq] at h
          subst h
          obtain ⟨ih1, ih2⟩ := ih k f rest1 hrec hs.2 (by omega) a4
            (fun e1 he1 => le_trans hlok (hs.1 e1 he1))
            (fun e1 he1 => hb e1 (List.mem_cons_of_mem _ he1))
          have hbe := hb e (List.mem_cons_self _ _)
          refine ⟨List.pairwise_cons.2 ⟨?_, ih1⟩, ?_⟩
          · intro e1 he1
            rw [hval]
            exact ih2 k (key e) v (by omega) (le_refl _) hbe hlok a5 hs.1 hsv e1 he1
          · intro p0 t0 v0 b1 b2 b3 b4 b5 b6 b7 e1 he1
            rcases List.mem_cons.1 he1 with rfl | he1
            · rw [hval]
              exact segment_value_mono fc hlen ho hn hn0 hbo hdo hbn b1 (by omega) a3 b3 hbe
                (b6 e (List.mem_cons_self _ _)) b4 b5 hlok b7 hsv
            · exact ih2 p0 t0 v0 b1 (by omega) b3 b4 b5
                (fun e2 he2 => b6 e2 (List.mem_cons_of_mem _ he2)) b7 e1 he1
    · rw [a1] at h
      cases h

theorem pivot_pass_shape (fc : Bool) (key : Event P → Int)
    (update : Event P → Int → Event P) (o n : List Int) :
    ∀ (events : List (Event P)) (p : Nat) (cur : F64) (out : List (Event P)),
      pivot_pass fc key update o n events p cur = .ok out →
      List.Forall₂ (fun e e1 => ∃ v, e1 = update e v) events out := by
  intro events
  induction events with
  | nil =>
    intro p cur out h
    simp only [pivot_pass, Except.ok.injEq] at h
    subst h
    exact List.Forall₂.nil
  | cons e rest ih =>
    intro p cur out h
    unfold pivot_pass at h
    cases ha : advance o n (key e) (List.drop p o) p cur with
    | error err =>
      rw [ha] at h
      cases h
    | ok r =>
      obtain ⟨k, f⟩ := r
      rw [ha] at h
      simp only at h
      cases hi : interpolate fc o n k f (key e) with
      | error err =>
        rw [hi] at h
        cases h
      | ok v =>
        rw [hi] at h
        simp only at h
        cases hrec : pivot_pass fc key update o n rest k f with
        | error err =>
          rw [hrec] at h
          cases h
        | ok rest1 =>
          rw [hrec] at h
          simp only [Except.ok.injEq] at h
          subst h
          exact List.Forall₂.cons ⟨v, rfl⟩ (ih k f rest1 hrec)

theorem begin_event_eq (events : List (Event P)) (first_time : Int) :
    begin_event events first_time
      = (events.takeWhile (fun e => decide (e.time < first_time))).length ∨
    (∃ e rest, events = e :: rest ∧ ¬ e.time ≥ first_time ∧
      begin_event events first_time
        = lower_bound (fun e => decide (e.time < first_time)) events 0 events.length) := by
  cases events with
  | nil => left; rfl
  | cons e rest =>
    by_cases h0 : e.time ≥ first_time
    · left
      unfold begin_event
      simp only
      rw [if_pos h0, List.takeWhile_cons_of_neg (by simp only [decide_eq_true_eq]; omega)]
      rfl
    · right
      refine ⟨e, rest, rfl, h0, ?_⟩
      unfold begin_event
      simp only
      rw [if_neg h0]

/-- For events in ascending order of time, no event from `begin_event` on starts before
`first_time`. -/
theorem begin_event_spec (events : List (Event P)) (first_time : Int)
    (hs : events.Pairwise (fun a b => a.time ≤ b.time)) :
    ∀ e ∈ events.drop (begin_event events first_time), first_time ≤ e.time := by
  let p1 : Event P → Bool := fun e => decide (e.time < first_time)
  have hD : ∀ x ∈ events.dropWhile p1, p1 x = false :=
    dropWhile_not_of_sorted (fun e : Event P => e.time) p1
      (fun a b hab hb => by simp only [p1, decide_eq_true_eq] at *; omega) events hs
  have hA : ∀ a ∈ events.takeWhile p1, p1 a = true := fun a ha => List.mem_takeWhile_imp ha
  have hb : begin_event events first_time = (events.takeWhile p1).length := by
    rcases begin_event_eq events first_time with h | ⟨e, rest, _, _, h⟩
    · exact h
    · rw [h]
      unfold lower_bound
      have := lower_bound_loop_spec p1 (events.takeWhile p1) (events.dropWhile p1) hA hD
        (events.length - 0) 0 (events.length - 0) (le_refl _) (Nat.zero_le _)
        (by
          have := (List.takeWhile_sublist p1 (l := events)).length_le
          omega)
        (by rw [List.takeWhile_append_dropWhile]; omega)
      rw [List.takeWhile_append_dropWhile] at this
      exact this
  intro e he
  rw [hb] at he
  have hdrop : events.drop (events.takeWhile p1).length = events.dropWhile p1 := by
    have h := @List.drop_left _ (events.takeWhile p1) (events.dropWhile p1)
    rwa [List.takeWhile_append_dropWhile] at h
  rw [hdrop] at he
  have := hD e he
  simp only [p1, decide_eq_false_iff_not] at this
  omega

theorem kept_range_sublist (has_dur : Bool) (events : List (Event P))
    (first_time last_time : Int) :
    (kept_range has_dur events first_time last_time).Sublist
      (events.drop (begin_event events first_time)) := by
  unfold kept_range
  split
  · exact List.nil_sublist _
  · exact List.take_sublist _ _

/-! ## Events with duration that end after the curve -/

/-- C5 (failing input): the notes `{0, 1000}`, `{1, 1}` are in ascending order of time, the
last one ends inside the domain `[0, 100]` of the curve, and the whole vector is copied:
the note that ends at `1000` is in the copied range. -/
theorem kept_range_keeps_late_end :
    ([⟨0, 1000, ()⟩, ⟨1, 1, ()⟩] : List (Event Unit)).Pairwise (fun a b => a.time ≤ b.time) ∧
    kept_range true ([⟨0, 1000, ()⟩, ⟨1, 1, ()⟩] : List (Event Unit)) 0 100
      = [⟨0, 1000, ()⟩, ⟨1, 1, ()⟩] ∧
    ∃ e ∈ kept_range true ([⟨0, 1000, ()⟩, ⟨1, 1, ()⟩] : List (Event Unit)) 0 100,
      100 < get_end true e := by
  refine ⟨by decide, by decide, ⟨⟨0, 1000, ()⟩, by decide, by decide⟩⟩

/-- C4 (failing input): on the notes `{0, 1000}`, `{1, 1}` and the curve `[0, 100] → [0, 200]`
the pivot of the duration pass is advanced to index `2`, past the last index `1`; on the
curve `[5, 5] → [0, 10]` an event at time `5` is interpolated with the factor `10 / 0`, and
`inf * 0` is not a number.  Both hold whether or not the product and the sum are fused. -/
theorem adjust_time_sorted_pivot_past_end :
    advance [0, 100] [0, 200] 1000 (([0, 100] : List Int).drop 1) 1
        (F64.div (F64.of_int 200) (F64.of_int 100)) = .error .out_of_range ∧
    adjust_time_sorted false true ([⟨0, 1000, ()⟩, ⟨1, 1, ()⟩] : List (Event Unit))
        [0, 100] [0, 200] = .error .out_of_range ∧
    adjust_time_sorted true true ([⟨0, 1000, ()⟩, ⟨1, 1, ()⟩] : List (Event Unit))
        [0, 100] [0, 200] = .error .out_of_range ∧
    adjust_time_sorted false false ([⟨5, 0, ()⟩] : List (Event Unit)) [5, 5] [0, 10]
      = .error .not_finite ∧
    adjust_time_sorted true false ([⟨5, 0, ()⟩] : List (Event Unit)) [5, 5] [0, 10]
      = .error .not_finite := by
  refine ⟨by decide!, by decide!, by decide!, by decide!, by decide!⟩

/-- C7 (failing input): with the identity curve `[0, 100] → [0, 100]` and the notes
`{0, 1000}`, `{1, 1}` the call does not return the in-domain note `{1, 1}`: the duration pass
reads past the end of `original_times`, whether or not the product and the sum are fused. -/
theorem adjust_time_sorted_identity_late_end :
    ([⟨0, 1000, ()⟩, ⟨1, 1, ()⟩] : List (Event Unit)).filter
        (fun e => decide (0 ≤ e.time) && decide (e.time + e.duration ≤ 100))
      = [⟨1, 1, ()⟩] ∧
    adjust_time_sorted false true ([⟨0, 1000, ()⟩, ⟨1, 1, ()⟩] : List (Event Unit))
        [0, 100] [0, 100] = .error .out_of_range ∧
    adjust_time_sorted true true ([⟨0, 1000, ()⟩, ⟨1, 1, ()⟩] : List (Event Unit))
        [0, 100] [0, 100] = .error .out_of_range := by
  refine ⟨by decide, by decide!, by decide!⟩

/-! ## The entry point for unsorted input -/

theorem sorted_int_unique {a b : List Int} (hp : a.Perm b) (ha : a.Pairwise (· ≤ ·))
    (hb : b.Pairwise (· ≤ ·)) : a = b :=
  List.eq_of_perm_of_sorted hp ha hb

theorem sorted_events_unique {a b : List (Event P)} (hp : a.Perm b)
    (hd : a.Pairwise (fun x y => x.time ≠ y.time))
    (ha : a.Pairwise (fun x y => x.time ≤ y.time))
    (hb : b.Pairwise (fun x y => x.time ≤ y.time)) : a = b := by
  have hd' : b.Pairwise (fun x y => x.time ≠ y.time) :=
    (List.Perm.pairwise_iff (fun {x y} (h : x.time ≠ y.time) => Ne.symm h) hp).1 hd
  have ha' : a.Pairwise (fun x y => x.time < y.time) :=
    (ha.and hd).imp (fun ⟨h1, h2⟩ => lt_of_le_of_ne h1 h2)
  have hb' : b.Pairwise (fun x y => x.time < y.time) :=
    (hb.and hd').imp (fun ⟨h1, h2⟩ => lt_of_le_of_ne h1 h2)
  haveI : IsAntisymm (Event P) (fun x y => x.time < y.time) :=
    ⟨fun x y h1 h2 => absurd h1 (not_lt.2 (le_of_lt h2))⟩
  exact List.eq_of_perm_of_sorted hp ha' hb'

theorem sort_int_sorted (sort : SortFn) (hsort : IsSort sort) (xs : List Int) :
    (sort Int (fun a b => decide (a < b)) xs).Pairwise (· ≤ ·) := by
  refine (hsort Int _ xs strictWeak_int_lt).2.imp ?_
  intro a b h
  simp only [decide_eq_false_iff_not] at h
  omega

theorem sort_by_time_sorted (sort : SortFn) (hsort : IsSort sort) (events : List (Event P)) :
    (sort_by_time sort events false).Perm events ∧
      (sort_by_time sort events false).Pairwise (fun a b => a.time ≤ b.time) := by
  simp only [sort_by_time, Bool.false_eq_true, if_false]
  refine ⟨(hsort (Event P) _ events strictWeak_time_lt).1,
    (hsort (Event P) _ events strictWeak_time_lt).2.imp ?_⟩
  intro a b h
  simp only [decide_eq_false_iff_not] at h
  omega

/-- C9: for events with pairwise distinct times, `adjust_time` with `sorted = false` returns
what `adjust_time_sorted` returns on the events in ascending order of time and on
`original_times` and `new_times`, each in ascending order; when the events and both arrays
are ascending already, `sorted = false` and `sorted = true` give the same result. -/
theorem adjust_time_unsorted (sort : SortFn) (hsort : IsSort sort)
    (fp_contract has_dur : Bool)
    (events : List (Event P)) (original_times new_times : List Int)
    (hdistinct : events.Pairwise (fun a b => a.time ≠ b.time)) :
    (∀ (events1 : List (Event P)) (original1 new1 : List Int),
      events1.Perm events → events1.Pairwise (fun a b => a.time ≤ b.time) →
      original1.Perm original_times → original1.Pairwise (· ≤ ·) →
      new1.Perm new_times → new1.Pairwise (· ≤ ·) →
      adjust_time sort fp_contract has_dur events original_times new_times false
        = adjust_time_sorted fp_contract has_dur events1 original1 new1) ∧
    (events.Pairwise (fun a b => a.time ≤ b.time) → original_times.Pairwise (· ≤ ·) →
      new_times.Pairwise (· ≤ ·) →
      adjust_time sort fp_contract has_dur events original_times new_times false
        = adjust_time sort fp_contract has_dur events original_times new_times true) := by
  have key : ∀ (events1 : List (Event P)) (original1 new1 : List Int),
      events1.Perm events → events1.Pairwise (fun a b => a.time ≤ b.time) →
      original1.Perm original_times → original1.Pairwise (· ≤ ·) →
      new1.Perm new_times → new1.Pairwise (· ≤ ·) →
      adjust_time sort fp_contract has_dur events original_times new_times false
        = adjust_time_sorted fp_contract has_dur events1 original1 new1 := by
    intro events1 original1 new1 he1 he2 ho1 ho2 hn1 hn2
    simp only [adjust_time, Bool.false_eq_true, if_false]
    have h1 : sort_by_time sort events false = events1 := by
      obtain ⟨hp, hs⟩ := sort_by_time_sorted sort hsort events
      exact sorted_events_unique (hp.trans he1.symm)
        ((List.Perm.pairwise_iff (fun {x y} (h : x.time ≠ y.time) => Ne.symm h) hp.symm).1
          hdistinct) hs he2
    have h2 : sort Int (fun a b => decide (a < b)) original_times = original1 :=
      sorted_int_unique ((hsort Int _ original_times strictWeak_int_lt).1.trans ho1.symm)
        (sort_int_sorted sort hsort _) ho2
    have h3 : sort Int (fun a b => decide (a < b)) new_times = new1 :=
      sorted_int_unique ((hsort Int _ new_times strictWeak_int_lt).1.trans hn1.symm)
        (sort_int_sorted sort hsort _) hn2
    rw [h1, h2, h3]
  refine ⟨key, ?_⟩
  intro he ho hn
  rw [key events original_times new_times (List.Perm.refl _) he (List.Perm.refl _) ho
    (List.Perm.refl _) hn]
  simp [adjust_time]

theorem adjust_time_unsorted_witness :
    IsSort insertion_sort_fn ∧
    ([⟨30, 5, ()⟩, ⟨10, 5, ()⟩, ⟨20, 5, ()⟩] : List (Event Unit)).Pairwise
      (fun a b => a.time ≠ b.time) ∧
    adjust_time insertion_sort_fn false true
        ([⟨30, 5, ()⟩, ⟨10, 5, ()⟩, ⟨20, 5, ()⟩] : List (Event Unit)) [100, 0, 50]
        [300, 100, 0] false
      = adjust_time_sorted false true
        ([⟨10, 5, ()⟩, ⟨20, 5, ()⟩, ⟨30, 5, ()⟩] : List (Event Unit)) [0, 50, 100]
        [0, 100, 300] :=
  ⟨insertion_sort_fn_isSort, by decide,
    (adjust_time_unsorted insertion_sort_fn insertion_sort_fn_isSort false true
      ([⟨30, 5, ()⟩, ⟨10, 5, ()⟩, ⟨20, 5, ()⟩] : List (Event Unit)) [100, 0, 50]
      [300, 100, 0] (by decide)).1 _ _ _ (by decide) (by decide) (by decide) (by decide)
      (by decide) (by decide)⟩

/-! ## The order of the output -/

theorem adjust_time_sorted_sorted_of_ok (fc has_dur : Bool) (events : List (Event P))
    (o n : List Int) (out : List (Event P))
    (hs : events.Pairwise (fun a b => a.time ≤ b.time))
    (ho : o.Pairwise (· ≤ ·)) (hn : n.Pairwise (· ≤ ·)) (hn0 : ∀ x ∈ n, 0 ≤ x)
    (hbo : ∀ x ∈ o, in_i32 x) (hdo : ∀ x ∈ o, ∀ y ∈ o, in_i32 (x - y))
    (hbn : ∀ x ∈ n, in_i32 x) (hbe : ∀ e ∈ events, in_i32 e.time)
    (h : adjust_time_sorted fc has_dur events o n = .ok out) :
    out.Pairwise (fun a b => a.time ≤ b.time) := by
  by_cases hv : o.length ≠ n.length ∨ o.length < 2
  · rw [adjust_time_sorted_invalid fc has_dur events o n hv] at h
    cases h
  have hlen : o.length = n.length := by
    by_contra hc
    exact hv (Or.inl hc)
  have h2 : 2 ≤ o.length := by
    by_contra hc
    exact hv (Or.inr (by omega))
  by_cases hne : events = []
  · subst hne
    rw [adjust_time_sorted_nil fc has_dur o n hlen h2] at h
    cases h
    exact List.Pairwise.nil
  by_cases hK : kept_range has_dur events (o.getD 0 0) (o.getD (o.length - 1) 0) = []
  · rw [adjust_time_sorted_empty_range fc has_dur events o n hlen h2 hK] at h
    cases h
    exact List.Pairwise.nil
  obtain ⟨f1, hf1⟩ : ∃ f1, get_factor o n 1 = some f1 :=
    ⟨_, get_factor_eq hlen (le_refl 1) (show 1 < o.length by omega)⟩
  have hsub := kept_range_sublist has_dur events (o.getD 0 0) (o.getD (o.length - 1) 0)
  have hsubE : (kept_range has_dur events (o.getD 0 0) (o.getD (o.length - 1) 0)).Sublist
      events := hsub.trans (List.drop_sublist _ _)
  have hKlo : ∀ e ∈ kept_range has_dur events (o.getD 0 0) (o.getD (o.length - 1) 0),
      o.getD 0 0 ≤ e.time :=
    fun e he => begin_event_spec events _ hs e (hsub.subset he)
  have hKb : ∀ e ∈ kept_range has_dur events (o.getD 0 0) (o.getD (o.length - 1) 0),
      in_i32 e.time := fun e he => hbe e (hsubE.subset he)
  cases has_dur with
  | false =>
    rw [adjust_time_sorted_no_dur fc events o n hlen h2 hne hf1, time_pass_eq] at h
    exact (pivot_pass_sorted fc (fun e : Event P => e.time) _ (fun e => e.time)
      (fun e v => by simp) o n hlen ho hn hn0 hbo hdo hbn _ 1 _ out h (hs.sublist hsubE)
      (le_refl 1) hf1 hKlo hKb).1
  | true =>
    cases hd : duration_pass fc o n
        (insertion_sort (fun a b => decide (get_end true a < get_end true b))
          (kept_range true events (o.getD 0 0) (o.getD (o.length - 1) 0))) 1 f1 with
    | error err =>
      rw [adjust_time_sorted_dur_error fc events o n hlen h2 hne hf1 hK hd] at h
      cases h
    | ok w =>
      rw [adjust_time_sorted_dur fc events o n hlen h2 hne hf1 hK hd, time_pass_eq] at h
      rw [duration_pass_eq] at hd
      have hshape := pivot_pass_shape _ _ _ o n _ _ _ _ hd
      have hp1 := insertion_sort_perm
        (fun a b : Event P => decide (get_end true a < get_end true b))
        (kept_range true events (o.getD 0 0) (o.getD (o.length - 1) 0))
      have hp2 := insertion_sort_perm (time_dur_less (P := P)) w
      have hs2 := sorted_by_time_of_time_dur_less
        (insertion_sort_pairwise (time_dur_less (P := P)) strictWeak_time_dur_less w)
      have hmem : ∀ e ∈ insertion_sort (time_dur_less (P := P)) w,
          ∃ e0 ∈ kept_range true events (o.getD 0 0) (o.getD (o.length - 1) 0),
            e.time = e0.time := by
        intro e he
        obtain ⟨e0, he0, v, rfl⟩ := forall₂_mem_right hshape e (hp2.mem_iff.1 he)
        exact ⟨e0, hp1.mem_iff.1 he0, rfl⟩
      exact (pivot_pass_sorted fc (fun e : Event P => e.time) _ (fun e => e.time)
        (fun e v => by simp) o n hlen ho hn hn0 hbo hdo hbn _ 1 _ out h hs2
        (le_refl 1) hf1
        (fun e he => by
          obtain ⟨e0, he0, heq⟩ := hmem e he
          show o.getD 0 0 ≤ e.time
          rw [heq]
          exact hKlo e0 he0)
        (fun e he => by
          obtain ⟨e0, he0, heq⟩ := hmem e he
          show in_i32 e.time
          rw [heq]
          exact hKb e0 he0)).1

/-- C6 (amended): for a curve whose `new_times` are not negative, with all ticks of the
events and of the curve in the 32-bit range and any two `original_times` differing by less
than `2^31` (so that no subtraction of ticks overflows), every sequence returned by
`adjust_time` is in non-decreasing order of time; with `sorted = true` (the call of
`adjust_time_sorted`) the events are in ascending order of time and both arrays
non-decreasing. -/
theorem adjust_time_output_sorted (sort : SortFn) (hsort : IsSort sort)
    (fp_contract has_dur : Bool)
    (events : List (Event P)) (original_times new_times : List Int) (sorted : Bool)
    (out : List (Event P))
    (hs : sorted = true → events.Pairwise (fun a b => a.time ≤ b.time) ∧
      original_times.Pairwise (· ≤ ·) ∧ new_times.Pairwise (· ≤ ·))
    (hn0 : ∀ x ∈ new_times, 0 ≤ x)
    (hbo : ∀ x ∈ original_times, in_i32 x) (hbn : ∀ x ∈ new_times, in_i32 x)
    (hdo : ∀ x ∈ original_times, ∀ y ∈ original_times, in_i32 (x - y))
    (hbe : ∀ e ∈ events, in_i32 e.time)
    (h : adjust_time sort fp_contract has_dur events original_times new_times sorted
      = .ok out) :
    out.Pairwise (fun a b => a.time ≤ b.time) := by
  cases sorted with
  | true =>
    obtain ⟨h1, h2, h3⟩ := hs rfl
    simp only [adjust_time, if_true] at h
    exact adjust_time_sorted_sorted_of_ok fp_contract has_dur events _ _ out h1 h2 h3 hn0 hbo
      hdo hbn hbe h
  | false =>
    simp only [adjust_time, Bool.false_eq_true, if_false] at h
    obtain ⟨hp, hps⟩ := sort_by_time_sorted sort hsort events
    have hpo := (hsort Int _ original_times strictWeak_int_lt).1
    have hpn := (hsort Int _ new_times strictWeak_int_lt).1
    exact adjust_time_sorted_sorted_of_ok fp_contract has_dur _ _ _ out hps
      (sort_int_sorted sort hsort _) (sort_int_sorted sort hsort _)
      (fun x hx => hn0 x (hpn.mem_iff.1 hx))
      (fun x hx => hbo x (hpo.mem_iff.1 hx))
      (fun x hx y hy => hdo x (hpo.mem_iff.1 hx) y (hpo.mem_iff.1 hy))
      (fun x hx => hbn x (hpn.mem_iff.1 hx))
      (fun e he => hbe e (hp.mem_iff.1 he)) h

theorem adjust_time_output_sorted_witness :
    IsSort insertion_sort_fn ∧
    (true = true →
      ([⟨10, 5, ()⟩, ⟨40, 20, ()⟩] : List (Event Unit)).Pairwise (fun a b => a.time ≤ b.time) ∧
      ([0, 50, 100] : List Int).Pairwise (· ≤ ·) ∧ ([0, 100, 300] : List Int).Pairwise (· ≤ ·)) ∧
    (∀ x ∈ ([0, 100, 300] : List Int), 0 ≤ x) ∧
    (∀ x ∈ ([0, 50, 100] : List Int), ∀ y ∈ ([0, 50, 100] : List Int), in_i32 (x - y)) ∧
    adjust_time insertion_sort_fn false true ([⟨10, 5, ()⟩, ⟨40, 20, ()⟩] : List (Event Unit))
        [0, 50, 100] [0, 100, 300] true = .ok [⟨20, 10, ()⟩, ⟨80, 60, ()⟩] ∧
    ([⟨20, 10, ()⟩, ⟨80, 60, ()⟩] : List (Event Unit)).Pairwise (fun a b => a.time ≤ b.time) :=
  ⟨insertion_sort_fn_isSort, by decide, by decide, by simp [in_i32], by decide!,
    adjust_time_output_sorted insertion_sort_fn insertion_sort_fn_isSort false true
      ([⟨10, 5, ()⟩, ⟨40, 20, ()⟩] : List (Event Unit)) [0, 50, 100] [0, 100, 300] true
      [⟨20, 10, ()⟩, ⟨80, 60, ()⟩] (by decide) (by decide) (by simp [in_i32]) (by simp [in_i32])
      (by simp [in_i32]) (by simp [in_i32]) (by decide!)⟩

/-- C6 (counterexample): the events at times `7` and `8` are in ascending order and the
curve `[0, 7, 8] → [-30, -1, -1]` is non-decreasing, but the returned times are `0` and `-1`:
`(29.0 / 7.0) * 7.0` is `29.000000000000004` in `f64`, and `-30 + 29.000000000000004` is
truncated toward zero; with the product and the sum fused the result is the same.  No
subtraction of ticks overflows here. -/
theorem adjust_time_sorted_not_monotone :
    ([⟨7, 0, ()⟩, ⟨8, 0, ()⟩] : List (Event Unit)).Pairwise (fun a b => a.time ≤ b.time) ∧
    ([0, 7, 8] : List Int).Pairwise (· ≤ ·) ∧ ([-30, -1, -1] : List Int).Pairwise (· ≤ ·) ∧
    adjust_time_sorted false false ([⟨7, 0, ()⟩, ⟨8, 0, ()⟩] : List (Event Unit)) [0, 7, 8]
        [-30, -1, -1] = .ok [⟨0, 0, ()⟩, ⟨-1, 0, ()⟩] ∧
    adjust_time_sorted true false ([⟨7, 0, ()⟩, ⟨8, 0, ()⟩] : List (Event Unit)) [0, 7, 8]
        [-30, -1, -1] = .ok [⟨0, 0, ()⟩, ⟨-1, 0, ()⟩] ∧
    ¬ ([⟨0, 0, ()⟩, ⟨-1, 0, ()⟩] : List (Event Unit)).Pairwise
        (fun a b => a.time ≤ b.time) := by
  refine ⟨by decide, by decide, by decide, by decide!, by decide!, by decide⟩

/-! ## Tracks and scores -/

theorem adjust_time_tracks_ok_iff {K : Kinds} (sort : SortFn) (fc : Bool) (o n : List Int)
    (sorted : Bool)
    (tracks result : List (Track K)) :
    adjust_time_tracks sort fc o n sorted tracks = .ok result ↔
      List.Forall₂ (fun t t' => adjust_time_track sort fc t o n sorted = .ok t') tracks result := by
  induction tracks generalizing result with
  | nil =>
    simp only [adjust_time_tracks, Except.ok.injEq]
    constructor
    · rintro rfl
      exact List.Forall₂.nil
    · intro h
      cases h
      rfl
  | cons t rest ih =>
    unfold adjust_time_tracks
    cases ht : adjust_time_track sort fc t o n sorted with
    | error err =>
      simp only
      constructor
      · intro h
        cases h
      · intro h
        cases h with
        | cons h1 _ => rw [ht] at h1; cases h1
    | ok t1 =>
      simp only
      cases hr : adjust_time_tracks sort fc o n sorted rest with
      | error err =>
        simp only
        constructor
        · intro h
          cases h
        · intro h
          cases h with
          | cons _ h2 =>
            have := (ih _).2 h2
            rw [hr] at this
            cases this
      | ok rest1 =>
        simp only [Except.ok.injEq]
        constructor
        · rintro rfl
          exact List.Forall₂.cons ht ((ih _).1 hr)
        · intro h
          cases h with
          | cons h1 h2 =>
            rw [ht] at h1
            have h3 := (ih _).2 h2
            rw [hr] at h3
            cases h1
            cases h3
            rfl

/-- C10: `adjust_time` on a track returns a track with the same name, program and drum flag
whose notes, controls, pitch bends and pedals are the results of the sequence-level
`adjust_time` on the corresponding lists; `adjust_time` on a score returns a score with the
same `ticks_per_quarter`, whose tracks are, in the same number and order, the results of
`adjust_time` on the tracks, and whose time signatures, key signatures, tempos, lyrics and
markers are the results of the sequence-level `adjust_time`. -/
theorem adjust_time_track_score {K : Kinds} (sort : SortFn) (fp_contract : Bool)
    (o n : List Int) (sorted : Bool) :
    (∀ track result : Track K,
      adjust_time_track sort fp_contract track o n sorted = .ok result ↔
        (result.name = track.name ∧ result.program = track.program ∧
          result.is_drum = track.is_drum ∧
          adjust_time sort fp_contract true track.notes o n sorted = .ok result.notes ∧
          adjust_time sort fp_contract false track.controls o n sorted = .ok result.controls ∧
          adjust_time sort fp_contract false track.pitch_bends o n sorted = .ok result.pitch_bends ∧
          adjust_time sort fp_contract true track.pedals o n sorted = .ok result.pedals)) ∧
    (∀ score result : Score K,
      adjust_time_score sort fp_contract score o n sorted = .ok result ↔
        (result.ticks_per_quarter = score.ticks_per_quarter ∧
          List.Forall₂ (fun t t' => adjust_time_track sort fp_contract t o n sorted = .ok t')
            score.tracks result.tracks ∧
          adjust_time sort fp_contract false score.time_signatures o n sorted = .ok result.time_signatures ∧
          adjust_time sort fp_contract false score.key_signatures o n sorted = .ok result.key_signatures ∧
          adjust_time sort fp_contract false score.tempos o n sorted = .ok result.tempos ∧
          adjust_time sort fp_contract false score.lyrics o n sorted = .ok result.lyrics ∧
          adjust_time sort fp_contract false score.markers o n sorted = .ok result.markers)) := by
  constructor
  · intro track result
    unfold adjust_time_track
    cases h1 : adjust_time sort fp_contract true track.notes o n sorted with
    | error err => simp
    | ok notes =>
      cases h2 : adjust_time sort fp_contract false track.controls o n sorted with
      | error err => simp
      | ok controls =>
        cases h3 : adjust_time sort fp_contract false track.pitch_bends o n sorted with
        | error err => simp
        | ok pitch_bends =>
          cases h4 : adjust_time sort fp_contract true track.pedals o n sorted with
          | error err => simp
          | ok pedals =>
            simp only [Except.ok.injEq]
            constructor
            · rintro rfl
              exact ⟨rfl, rfl, rfl, rfl, rfl, rfl, rfl⟩
            · rintro ⟨a1, a2, a3, a4, a5, a6, a7⟩
              cases result
              simp only at a1 a2 a3 a4 a5 a6 a7
              subst a1 a2 a3 a4 a5 a6 a7
              rfl
  · intro score result
    unfold adjust_time_score
    rw [← adjust_time_tracks_ok_iff]
    cases h0 : adjust_time_tracks sort fp_contract o n sorted score.tracks with
    | error err => simp
    | ok tracks =>
      cases h1 : adjust_time sort fp_contract false score.time_signatures o n sorted with
      | error err => simp
      | ok time_signatures =>
        cases h2 : adjust_time sort fp_contract false score.key_signatures o n sorted with
        | error err => simp
        | ok key_signatures =>
          cases h3 : adjust_time sort fp_contract false score.tempos o n sorted with
          | error err => simp
          | ok tempos =>
            cases h4 : adjust_time sort fp_contract false score.lyrics o n sorted with
            | error err => simp
            | ok lyrics =>
              cases h5 : adjust_time sort fp_contract false score.markers o n sorted with
              | error err => simp
              | ok markers =>
                simp only [Except.ok.injEq]
                constructor
                · rintro rfl
                  exact ⟨rfl, rfl, rfl, rfl, rfl, rfl, rfl⟩
                · rintro ⟨a1, a2, a3, a4, a5, a6, a7⟩
                  cases result
                  simp only at a1 a2 a3 a4 a5 a6 a7
                  subst a1 a2 a3 a4 a5 a6 a7
                  rfl

/-! ## `filter`, `clip` and `clamp_dur` -/

theorem copy_if_eq (pred : α → Bool) (xs out : List α) :
    copy_if pred xs out = out ++ xs.filter pred := by
  induction xs generalizing out with
  | nil => simp [copy_if]
  | cons x rest ih =>
    unfold copy_if
    rw [ih]
    by_cases h : pred x = true
    · simp [h]
    · simp [h]

theorem filter_eq_list_filter (data : List α) (pred : α → Bool) :
    filter data pred = data.filter pred := by
  unfold filter
  cases data with
  | nil => rfl
  | cons x rest =>
    simp only [List.isEmpty_cons, Bool.false_eq_true, if_false]
    rw [copy_if_eq]
    simp

/-- C11: `filter` returns exactly the elements of the input that satisfy the predicate, with
their multiplicities and in their original order: the result is the sublist of the input
selected by the predicate; for the empty input it returns the empty collection. -/
theorem filter_spec (data : List α) (pred : α → Bool) :
    filter data pred = data.filter pred ∧
    (filter data pred).Sublist data ∧
    (∀ x, x ∈ filter data pred ↔ x ∈ data ∧ pred x = true) ∧
    (∀ q : α → Bool, (filter data pred).countP q = data.countP (fun x => q x && pred x)) ∧
    filter ([] : List α) pred = [] := by
  rw [filter_eq_list_filter]
  refine ⟨rfl, List.filter_sublist _, fun x => List.mem_filter, fun q => ?_, rfl⟩
  rw [List.countP_filter]

theorem clip_eq (events : List (Event P)) (a b : Int) :
    clip events a b
      = events.filter (fun e => decide (a ≤ e.time) && decide (e.time < b)) := by
  unfold clip
  rw [filter_eq_list_filter]

/-- C12: `clip(events, a, b)` is a sublist of the input that consists of exactly the events
with `a ≤ time < b`, and clipping the result again with the same bounds changes nothing. -/
theorem clip_spec (events : List (Event P)) (a b : Int) :
    (clip events a b).Sublist events ∧
    clip events a b = events.filter (fun e => decide (a ≤ e.time) && decide (e.time < b)) ∧
    (∀ e, e ∈ clip events a b ↔ e ∈ events ∧ a ≤ e.time ∧ e.time < b) ∧
    clip (clip events a b) a b = clip events a b := by
  refine ⟨?_, clip_eq events a b, ?_, ?_⟩
  · rw [clip_eq]
    exact List.filter_sublist _
  · intro e
    rw [clip_eq, List.mem_filter]
    simp
  · rw [clip_eq, clip_eq, List.filter_filter]
    congr 1
    funext e
    simp

theorem clip_with_end_true_eq (events : List (Event P)) (start end_time : Int) :
    clip_with_end events start end_time true
      = events.filter
          (fun e => decide (start ≤ e.time) &&
            decide (wrap_i32 (e.time + e.duration) ≤ end_time)) := by
  simp only [clip_with_end, if_true]
  rw [filter_eq_list_filter]

theorem clip_with_end_true_in_range (events : List (Event P)) (start end_time : Int)
    (hr : ∀ e ∈ events, in_i32 (e.time + e.duration)) :
    clip_with_end events start end_time true
      = events.filter
          (fun e => decide (start ≤ e.time) && decide (e.time + e.duration ≤ end_time)) := by
  rw [clip_with_end_true_eq]
  apply List.filter_congr
  intro e he
  rw [wrap_i32_eq (hr e he)]

/-- C13 (amended): for events whose end `time + duration` is a 32-bit tick (the sum does not
overflow), the four-argument `clip` with `clip_end = true` returns, in original order,
exactly the events with `time ≥ start` and `time + duration ≤ end`; with `clip_end = false`
it is the three-argument `clip`, which keeps every event that starts in `[start, end)`
whatever its duration. -/
theorem clip_with_end_spec (events : List (Event P)) (start end_time : Int)
    (hr : ∀ e ∈ events, in_i32 (e.time + e.duration)) :
    clip_with_end events start end_time true
      = events.filter
          (fun e => decide (start ≤ e.time) && decide (e.time + e.duration ≤ end_time)) ∧
    clip_with_end events start end_time false = clip events start end_time ∧
    (∀ e ∈ events, start ≤ e.time → e.time < end_time →
      e ∈ clip_with_end events start end_time false) := by
  refine ⟨clip_with_end_true_in_range events start end_time hr, by simp [clip_with_end], ?_⟩
  intro e he h1 h2
  simp only [clip_with_end, Bool.false_eq_true, if_false]
  rw [clip_eq, List.mem_filter]
  simp [he, h1, h2]

theorem clip_with_end_spec_witness :
    (∀ e ∈ ([⟨0, 5, ()⟩, ⟨3, 20, ()⟩, ⟨8, 2, ()⟩] : List (Event Unit)),
      in_i32 (e.time + e.duration)) ∧
    clip_with_end ([⟨0, 5, ()⟩, ⟨3, 20, ()⟩, ⟨8, 2, ()⟩] : List (Event Unit)) 0 10 true
      = [⟨0, 5, ()⟩, ⟨8, 2, ()⟩] ∧
    clip_with_end ([⟨0, 5, ()⟩, ⟨3, 20, ()⟩, ⟨8, 2, ()⟩] : List (Event Unit)) 0 10 true
      = ([⟨0, 5, ()⟩, ⟨3, 20, ()⟩, ⟨8, 2, ()⟩] : List (Event Unit)).filter
          (fun e => decide (0 ≤ e.time) && decide (e.time + e.duration ≤ 10)) :=
  ⟨by simp [in_i32], by decide,
    (clip_with_end_spec ([⟨0, 5, ()⟩, ⟨3, 20, ()⟩, ⟨8, 2, ()⟩] : List (Event Unit)) 0 10
      (by simp [in_i32])).1⟩

/-- C13 (counterexample): the note `{time = 2147483647, duration = 1}` has
`time + duration = 2147483648 > 10`, but `clip(events, 0, 10, true)` keeps it: the sum is
taken in the 32-bit tick type, where it is `-2147483648`. -/
theorem clip_with_end_overflow :
    in_i32 2147483647 ∧ in_i32 1 ∧
    wrap_i32 (2147483647 + 1) = -2147483648 ∧
    clip_with_end ([⟨2147483647, 1, ()⟩] : List (Event Unit)) 0 10 true
      = [⟨2147483647, 1, ()⟩] ∧
    ([⟨2147483647, 1, ()⟩] : List (Event Unit)).filter
        (fun e => decide (0 ≤ e.time) && decide (e.time + e.duration ≤ 10)) = [] ∧
    ¬ ∀ e ∈ clip_with_end ([⟨2147483647, 1, ()⟩] : List (Event Unit)) 0 10 true,
        e.time + e.duration ≤ 10 := by
  refine ⟨⟨by decide, by decide⟩, ⟨by decide, by decide⟩, by decide, by decide, by decide,
    by decide⟩

theorem clamp_dur_inplace_eq_map (events : List (Event P)) (lo hi : Int) :
    clamp_dur_inplace events lo hi
      = events.map (fun e => { e with duration := clamp e.duration lo hi }) := by
  induction events with
  | nil => rfl
  | cons e rest ih =>
    unfold clamp_dur_inplace
    rw [ih]
    rfl

theorem clamp_bounds {v lo hi : Int} (h : lo ≤ hi) : lo ≤ clamp v lo hi ∧ clamp v lo hi ≤ hi := by
  unfold clamp
  split_ifs <;> omega

theorem clamp_of_mem {v lo hi : Int} (h1 : lo ≤ v) (h2 : v ≤ hi) : clamp v lo hi = v := by
  unfold clamp
  split_ifs <;> omega

/-- C14 (amended): for bounds `lo ≤ hi`, `clamp_dur` and `clamp_dur_inplace` replace each
duration by `clamp(duration, lo, hi)`: every duration of the result lies in `[lo, hi]`, and
an event whose duration was in `[lo, hi]` already is returned unchanged. -/
theorem clamp_dur_spec (events : List (Event P)) (lo hi : Int) (hle : lo ≤ hi) :
    clamp_dur events lo hi
      = events.map (fun e => { e with duration := clamp e.duration lo hi }) ∧
    clamp_dur_inplace events lo hi = clamp_dur events lo hi ∧
    (∀ e ∈ clamp_dur events lo hi, lo ≤ e.duration ∧ e.duration ≤ hi) ∧
    List.Forall₂ (fun e e1 => lo ≤ e.duration → e.duration ≤ hi → e1 = e) events
      (clamp_dur events lo hi) := by
  have hmap : clamp_dur events lo hi
      = events.map (fun e => { e with duration := clamp e.duration lo hi }) :=
    clamp_dur_inplace_eq_map events lo hi
  refine ⟨hmap, rfl, ?_, ?_⟩
  · intro e he
    rw [hmap, List.mem_map] at he
    obtain ⟨e0, _, rfl⟩ := he
    exact clamp_bounds hle
  · rw [hmap, List.forall₂_map_right_iff]
    refine List.forall₂_same.2 ?_
    intro e _ h1 h2
    rw [clamp_of_mem h1 h2]

theorem clamp_dur_spec_witness :
    (2 : Int) ≤ 6 ∧
    clamp_dur ([⟨0, 1, ()⟩, ⟨5, 4, ()⟩, ⟨9, 8, ()⟩] : List (Event Unit)) 2 6
      = [⟨0, 2, ()⟩, ⟨5, 4, ()⟩, ⟨9, 6, ()⟩] ∧
    (∀ e ∈ clamp_dur ([⟨0, 1, ()⟩, ⟨5, 4, ()⟩, ⟨9, 8, ()⟩] : List (Event Unit)) 2 6,
      2 ≤ e.duration ∧ e.duration ≤ 6) :=
  ⟨by decide, by decide,
    (clamp_dur_spec ([⟨0, 1, ()⟩, ⟨5, 4, ()⟩, ⟨9, 8, ()⟩] : List (Event Unit)) 2 6
      (by decide)).2.2.1⟩

/-- C14 (counterexample): with the bounds `lo = 5`, `hi = 3` the duration `7` is replaced by
`3`, which does not lie in `[5, 3]`: no value does. -/
theorem clamp_dur_reversed_bounds :
    clamp_dur ([⟨0, 7, ()⟩] : List (Event Unit)) 5 3 = [⟨0, 3, ()⟩] ∧
    ¬ ∀ e ∈ clamp_dur ([⟨0, 7, ()⟩] : List (Event Unit)) 5 3,
        5 ≤ e.duration ∧ e.duration ≤ 3 := by
  refine ⟨by decide, by decide⟩

/-- C19: `clamp_dur` returns a collection of the same length and order in which the time and
the fields other than the duration of every event are those of the corresponding input
event, the duration being `clamp(duration, lo, hi)`; the result is what `clamp_dur_inplace`
leaves in, and returns from, a copy of the input. -/
theorem clamp_dur_frame (events : List (Event P)) (lo hi : Int) :
    (clamp_dur events lo hi).length = events.length ∧
    List.Forall₂
      (fun e e1 => e1.time = e.time ∧ e1.payload = e.payload ∧
        e1.duration = clamp e.duration lo hi) events (clamp_dur events lo hi) ∧
    clamp_dur events lo hi = clamp_dur_inplace events lo hi := by
  have hmap : clamp_dur events lo hi
      = events.map (fun e => { e with duration := clamp e.duration lo hi }) :=
    clamp_dur_inplace_eq_map events lo hi
  refine ⟨by rw [hmap, List.length_map], ?_, rfl⟩
  rw [hmap, List.forall₂_map_right_iff]
  exact List.forall₂_same.2 (fun e _ => ⟨rfl, rfl, rfl⟩)

/-- C20 (amended): when every duration is strictly positive and every end `time + duration`
is a 32-bit tick (the sum does not overflow), the fully contained clip (`clip_end = true`) is
a sublist of the time-only clip (`clip_end = false`); an event of duration zero that starts
at `end` is fully contained but not in the window `[start, end)`. -/
theorem clip_with_end_sublist :
    (∀ (events : List (Event P)) (start end_time : Int),
      (∀ e ∈ events, 0 < e.duration ∧ in_i32 (e.time + e.duration)) →
      (clip_with_end events start end_time true).Sublist
        (clip_with_end events start end_time false)) ∧
    (∀ (p : P) (start end_time : Int), start ≤ end_time → in_i32 end_time →
      clip_with_end [⟨end_time, 0, p⟩] start end_time true = [⟨end_time, 0, p⟩] ∧
      clip_with_end [⟨end_time, 0, p⟩] start end_time false = [] ∧
      ¬ (clip_with_end [⟨end_time, 0, p⟩] start end_time true).Sublist
          (clip_with_end [⟨end_time, 0, p⟩] start end_time false)) := by
  constructor
  · intro events start end_time hpos
    rw [clip_with_end_true_in_range events start end_time (fun e he => (hpos e he).2)]
    simp only [clip_with_end, Bool.false_eq_true, if_false]
    rw [clip_eq]
    have h : events.filter
        (fun e => decide (start ≤ e.time) && decide (e.time + e.duration ≤ end_time))
        = (events.filter (fun e => decide (start ≤ e.time) && decide (e.time < end_time))).filter
          (fun e => decide (start ≤ e.time) && decide (e.time + e.duration ≤ end_time)) := by
      rw [List.filter_filter]
      apply List.filter_congr
      intro e he
      have := (hpos e he).1
      by_cases h1 : start ≤ e.time <;> by_cases h2 : e.time + e.duration ≤ end_time <;>
        simp [h1, h2]
      omega
    rw [h]
    exact List.filter_sublist _
  · intro p start end_time hle hend
    have h1 : clip_with_end [(⟨end_time, 0, p⟩ : Event P)] start end_time true
        = [⟨end_time, 0, p⟩] := by
      rw [clip_with_end_true_in_range _ _ _ (fun e he => by
        simp only [List.mem_singleton] at he
        subst he
        simpa using hend)]
      simp [hle]
    have h2 : clip_with_end [(⟨end_time, 0, p⟩ : Event P)] start end_time false = [] := by
      simp only [clip_with_end, Bool.false_eq_true, if_false]
      rw [clip_eq]
      simp
    refine ⟨h1, h2, ?_⟩
    rw [h1, h2]
    intro h
    cases h

theorem clip_with_end_sublist_witness :
    (∀ e ∈ ([⟨0, 5, ()⟩, ⟨3, 20, ()⟩, ⟨8, 2, ()⟩] : List (Event Unit)),
      0 < e.duration ∧ in_i32 (e.time + e.duration)) ∧
    clip_with_end ([⟨0, 5, ()⟩, ⟨3, 20, ()⟩, ⟨8, 2, ()⟩] : List (Event Unit)) 0 10 true
      = [⟨0, 5, ()⟩, ⟨8, 2, ()⟩] ∧
    clip_with_end ([⟨0, 5, ()⟩, ⟨3, 20, ()⟩, ⟨8, 2, ()⟩] : List (Event Unit)) 0 10 false
      = [⟨0, 5, ()⟩, ⟨3, 20, ()⟩, ⟨8, 2, ()⟩] ∧
    (clip_with_end ([⟨0, 5, ()⟩, ⟨3, 20, ()⟩, ⟨8, 2, ()⟩] : List (Event Unit)) 0 10
        true).Sublist
      (clip_with_end ([⟨0, 5, ()⟩, ⟨3, 20, ()⟩, ⟨8, 2, ()⟩] : List (Event Unit)) 0 10 false) ∧
    ¬ (clip_with_end ([⟨10, 0, ()⟩] : List (Event Unit)) 0 10 true).Sublist
        (clip_with_end ([⟨10, 0, ()⟩] : List (Event Unit)) 0 10 false) :=
  ⟨by simp [in_i32], by decide, by decide,
    (clip_with_end_sublist (P := Unit)).1 [⟨0, 5, ()⟩, ⟨3, 20, ()⟩, ⟨8, 2, ()⟩] 0 10
      (by simp [in_i32]),
    ((clip_with_end_sublist (P := Unit)).2 () 0 10 (by decide) ⟨by decide, by decide⟩).2.2⟩

/-- C20 (counterexample): the note `{time = 2147483000, duration = 1000}` has a strictly
positive duration; `clip(events, 0, 5, true)` keeps it, because `time + duration` overflows
the 32-bit tick type to `-2147483296 ≤ 5`, and `clip(events, 0, 5, false)` drops it, because
`time ≥ 5`: the fully contained clip is not a sublist of the time-only clip. -/
theorem clip_with_end_not_sublist :
    (∀ e ∈ ([⟨2147483000, 1000, ()⟩] : List (Event Unit)),
      0 < e.duration ∧ in_i32 e.time ∧ in_i32 e.duration) ∧
    wrap_i32 (2147483000 + 1000) = -2147483296 ∧
    clip_with_end ([⟨2147483000, 1000, ()⟩] : List (Event Unit)) 0 5 true
      = [⟨2147483000, 1000, ()⟩] ∧
    clip_with_end ([⟨2147483000, 1000, ()⟩] : List (Event Unit)) 0 5 false = [] ∧
    ¬ (clip_with_end ([⟨2147483000, 1000, ()⟩] : List (Event Unit)) 0 5 true).Sublist
        (clip_with_end ([⟨2147483000, 1000, ()⟩] : List (Event Unit)) 0 5 false) := by
  refine ⟨by simp [in_i32], by decide, by decide, by decide, by decide⟩

/-! ## The comparators of `sort_notes` and `sort_pedals` -/

theorem tuple_compare_cons_lt (x y : Int) (xs ys : List Int) :
    (tuple_compare (x :: xs) (y :: ys) == Ordering.lt) = true ↔
      x < y ∨ (x = y ∧ (tuple_compare xs ys == Ordering.lt) = true) := by
  simp only [tuple_compare]
  by_cases h1 : x < y
  · simp only [if_pos h1]
    exact ⟨fun _ => Or.inl h1, fun _ => rfl⟩
  · by_cases h2 : y < x
    · simp only [if_neg h1, if_pos h2]
      constructor
      · intro h
        cases h
      · rintro (h | ⟨h, _⟩) <;> omega
    · simp only [if_neg h1, if_neg h2]
      constructor
      · intro h
        exact Or.inr ⟨by omega, h⟩
      · rintro (h | ⟨_, h⟩)
        · omega
        · exact h

theorem tuple_compare_cons_gt (x y : Int) (xs ys : List Int) :
    (tuple_compare (x :: xs) (y :: ys) == Ordering.gt) = true ↔
      y < x ∨ (x = y ∧ (tuple_compare xs ys == Ordering.gt) = true) := by
  simp only [tuple_compare]
  by_cases h1 : x < y
  · simp only [if_pos h1]
    constructor
    · intro h
      cases h
    · rintro (h | ⟨h, _⟩) <;> omega
  · by_cases h2 : y < x
    · simp only [if_neg h1, if_pos h2]
      exact ⟨fun _ => Or.inl h2, fun _ => rfl⟩
    · simp only [if_neg h1, if_neg h2]
      constructor
      · intro h
        exact Or.inr ⟨by omega, h⟩
      · rintro (h | ⟨_, h⟩)
        · omega
        · exact h

theorem tuple_compare_nil :
    ((tuple_compare [] [] == Ordering.lt) = true ↔ False) ∧
      ((tuple_compare [] [] == Ordering.gt) = true ↔ False) := by
  constructor <;> simp [tuple_compare] <;> rfl

theorem note_less_iff (a b : Event NoteFields) :
    note_less a b = true ↔
      a.time < b.time ∨ (a.time = b.time ∧ (a.duration < b.duration ∨
        (a.duration = b.duration ∧ (a.payload.pitch < b.payload.pitch ∨
          (a.payload.pitch = b.payload.pitch ∧
            a.payload.velocity < b.payload.velocity))))) := by
  simp only [note_less, note_key, tuple_compare_cons_lt, tuple_compare_nil.1, and_false,
    or_false]

theorem note_greater_iff (a b : Event NoteFields) :
    note_greater a b = true ↔
      b.time < a.time ∨ (a.time = b.time ∧ (b.duration < a.duration ∨
        (a.duration = b.duration ∧ (b.payload.pitch < a.payload.pitch ∨
          (a.payload.pitch = b.payload.pitch ∧
            b.payload.velocity < a.payload.velocity))))) := by
  simp only [note_greater, note_key, tuple_compare_cons_gt, tuple_compare_nil.2, and_false,
    or_false]

theorem pedal_less_iff (a b : Event P) :
    pedal_less a b = true ↔
      a.time < b.time ∨ (a.time = b.time ∧ a.duration < b.duration) := by
  simp only [pedal_less, pedal_key, tuple_compare_cons_lt, tuple_compare_nil.1, and_false,
    or_false]

theorem pedal_greater_iff (a b : Event P) :
    pedal_greater a b = true ↔
      b.time < a.time ∨ (a.time = b.time ∧ b.duration < a.duration) := by
  simp only [pedal_greater, pedal_key, tuple_compare_cons_gt, tuple_compare_nil.2, and_false,
    or_false]

/-- C16: the comparator of `sort_notes` is the strict lexicographic order on the key
`(time, duration, pitch, velocity)`: it is irreflexive and transitive, for two notes exactly
one of `a < b`, `b < a` and equality of the four key fields holds, and the comparator used
with `reverse` is its converse; likewise for `sort_pedals` with the key `(time, duration)`. -/
theorem sort_comparators :
    ((∀ a b : Event NoteFields, note_less a b = true ↔
        a.time < b.time ∨ (a.time = b.time ∧ (a.duration < b.duration ∨
          (a.duration = b.duration ∧ (a.payload.pitch < b.payload.pitch ∨
            (a.payload.pitch = b.payload.pitch ∧
              a.payload.velocity < b.payload.velocity)))))) ∧
      (∀ a : Event NoteFields, note_less a a = false) ∧
      (∀ a b c : Event NoteFields, note_less a b = true → note_less b c = true →
        note_less a c = true) ∧
      (∀ a b : Event NoteFields,
        (note_less a b = true ∧ note_less b a = false ∧
          ¬ (a.time = b.time ∧ a.duration = b.duration ∧
            a.payload.pitch = b.payload.pitch ∧ a.payload.velocity = b.payload.velocity)) ∨
        (note_less a b = false ∧ note_less b a = true ∧
          ¬ (a.time = b.time ∧ a.duration = b.duration ∧
            a.payload.pitch = b.payload.pitch ∧ a.payload.velocity = b.payload.velocity)) ∨
        (note_less a b = false ∧ note_less b a = false ∧
          (a.time = b.time ∧ a.duration = b.duration ∧
            a.payload.pitch = b.payload.pitch ∧ a.payload.velocity = b.payload.velocity))) ∧
      (∀ a b : Event NoteFields, note_greater a b = note_less b a)) ∧
    ((∀ a b : Event P, pedal_less a b = true ↔
        a.time < b.time ∨ (a.time = b.time ∧ a.duration < b.duration)) ∧
      (∀ a : Event P, pedal_less a a = false) ∧
      (∀ a b c : Event P, pedal_less a b = true → pedal_less b c = true →
        pedal_less a c = true) ∧
      (∀ a b : Event P,
        (pedal_less a b = true ∧ pedal_less b a = false ∧
          ¬ (a.time = b.time ∧ a.duration = b.duration)) ∨
        (pedal_less a b = false ∧ pedal_less b a = true ∧
          ¬ (a.time = b.time ∧ a.duration = b.duration)) ∨
        (pedal_less a b = false ∧ pedal_less b a = false ∧
          (a.time = b.time ∧ a.duration = b.duration))) ∧
      (∀ a b : Event P, pedal_greater a b = pedal_less b a)) := by
  refine ⟨⟨note_less_iff, ?_, ?_, ?_, ?_⟩, ⟨pedal_less_iff, ?_, ?_, ?_, ?_⟩⟩
  · intro a
    rw [← Bool.not_eq_true, note_less_iff]
    omega
  · intro a b c h1 h2
    rw [note_less_iff] at *
    omega
  · intro a b
    simp only [← Bool.not_eq_true, note_less_iff]
    omega
  · intro a b
    rw [Bool.eq_iff_iff, note_greater_iff, note_less_iff]
    omega
  · intro a
    rw [← Bool.not_eq_true, pedal_less_iff]
    omega
  · intro a b c h1 h2
    rw [pedal_less_iff] at *
    omega
  · intro a b
    simp only [← Bool.not_eq_true, pedal_less_iff]
    omega
  · intro a b
    rw [Bool.eq_iff_iff, pedal_greater_iff, pedal_less_iff]
    omega

theorem sort_comparators_witness :
    note_less ⟨0, 4, ⟨60, 90⟩⟩ ⟨0, 4, ⟨60, 100⟩⟩ = true ∧
    note_less ⟨0, 4, ⟨60, 100⟩⟩ ⟨0, 5, ⟨48, 1⟩⟩ = true ∧
    note_less ⟨0, 4, ⟨60, 90⟩⟩ ⟨0, 5, ⟨48, 1⟩⟩ = true ∧
    pedal_less (⟨3, 1, ()⟩ : Event Unit) ⟨3, 2, ()⟩ = true ∧
    pedal_less (⟨3, 2, ()⟩ : Event Unit) ⟨4, 0, ()⟩ = true ∧
    pedal_less (⟨3, 1, ()⟩ : Event Unit) ⟨4, 0, ()⟩ = true :=
  ⟨by decide, by decide,
    (sort_comparators (P := Unit)).1.2.2.1 ⟨0, 4, ⟨60, 90⟩⟩ ⟨0, 4, ⟨60, 100⟩⟩ ⟨0, 5, ⟨48, 1⟩⟩
      (by decide) (by decide),
    by decide, by decide,
    (sort_comparators (P := Unit)).2.2.2.1 ⟨3, 1, ()⟩ ⟨3, 2, ()⟩ ⟨4, 0, ()⟩
      (by decide) (by decide)⟩

/-! ## `start` and `end` -/

theorem foldl_min_spec {T U : Type} [LinearOrder U] (time : T → U) (events : List T)
    (init : U) :
    (events.foldl (fun ans event => if time event < ans then time event else ans) init ≤ init) ∧
    (∀ e ∈ events,
      events.foldl (fun ans event => if time event < ans then time event else ans) init
        ≤ time e) ∧
    (events.foldl (fun ans event => if time event < ans then time event else ans) init = init ∨
      ∃ e ∈ events,
        events.foldl (fun ans event => if time event < ans then time event else ans) init
          = time e) := by
  induction events generalizing init with
  | nil => simp
  | cons x rest ih =>
    simp only [List.foldl_cons]
    obtain ⟨h1, h2, h3⟩ := ih (if time x < init then time x else init)
    have hstep : (if time x < init then time x else init) ≤ init ∧
        (if time x < init then time x else init) ≤ time x := by
      split_ifs with h
      · exact ⟨le_of_lt h, le_refl _⟩
      · exact ⟨le_refl _, not_lt.1 h⟩
    refine ⟨le_trans h1 hstep.1, ?_, ?_⟩
    · intro e he
      rcases List.mem_cons.1 he with rfl | he
      · exact le_trans h1 hstep.2
      · exact h2 e he
    · rcases h3 with h3 | ⟨e, he, h3⟩
      · by_cases h : time x < init
        · right
          refine ⟨x, List.mem_cons_self _ _, ?_⟩
          rw [h3, if_pos h]
        · left
          rw [h3, if_neg h]
      · exact Or.inr ⟨e, List.mem_cons_of_mem _ he, h3⟩

theorem foldl_max_spec {T U : Type} [LinearOrder U] (key : T → U) (events : List T)
    (init : U) :
    (init ≤ events.foldl (fun ans event => if ans < key event then key event else ans) init) ∧
    (∀ e ∈ events,
      key e ≤ events.foldl (fun ans event => if ans < key event then key event else ans) init) ∧
    (events.foldl (fun ans event => if ans < key event then key event else ans) init = init ∨
      ∃ e ∈ events,
        events.foldl (fun ans event => if ans < key event then key event else ans) init
          = key e) := by
  induction events generalizing init with
  | nil => simp
  | cons x rest ih =>
    simp only [List.foldl_cons]
    obtain ⟨h1, h2, h3⟩ := ih (if init < key x then key x else init)
    have hstep : init ≤ (if init < key x then key x else init) ∧
        key x ≤ (if init < key x then key x else init) := by
      split_ifs with h
      · exact ⟨le_of_lt h, le_refl _⟩
      · exact ⟨le_refl _, not_lt.1 h⟩
    refine ⟨le_trans hstep.1 h1, ?_, ?_⟩
    · intro e he
      rcases List.mem_cons.1 he with rfl | he
      · exact le_trans hstep.2 h1
      · exact h2 e he
    · rcases h3 with h3 | ⟨e, he, h3⟩
      · by_cases h : init < key x
        · right
          refine ⟨x, List.mem_cons_self _ _, ?_⟩
          rw [h3, if_pos h]
        · left
          rw [h3, if_neg h]
      · exact Or.inr ⟨e, List.mem_cons_of_mem _ he, h3⟩

/-- For a collection that is not empty and whose times do not exceed `unit_max`, `start` is
the least time of the collection. -/
theorem start_is_min {T U : Type} [LinearOrder U] [Zero U] (unit_max : U) (time : T → U)
    (events : List T) (hne : events ≠ []) (hmax : ∀ e ∈ events, time e ≤ unit_max) :
    (∃ e ∈ events, start unit_max time events = time e) ∧
      ∀ e ∈ events, start unit_max time events ≤ time e := by
  have he : events.isEmpty = false := by
    cases events with
    | nil => exact absurd rfl hne
    | cons e es => rfl
  unfold start
  rw [he]
  simp only [Bool.false_eq_true, if_false]
  obtain ⟨h1, h2, h3⟩ := foldl_min_spec time events unit_max
  refine ⟨?_, h2⟩
  rcases h3 with h3 | h3
  · cases events with
    | nil => exact absurd rfl hne
    | cons e es =>
      refine ⟨e, List.mem_cons_self _ _, ?_⟩
      exact le_antisymm (h2 e (List.mem_cons_self _ _))
        (by rw [h3]; exact hmax e (List.mem_cons_self _ _))
  · exact h3

/-- For a collection that is not empty and whose end times are not below `unit_min`, `end`
is the greatest end time of the collection. -/
theorem end_is_max {T U : Type} [LinearOrder U] [Zero U] [Add U] (unit_min : U)
    (has_dur : Bool) (time duration : T → U) (events : List T) (hne : events ≠ [])
    (hmin : ∀ e ∈ events,
      unit_min ≤ (if has_dur then time e + duration e else time e)) :
    (∃ e ∈ events, end_ unit_min has_dur time duration events
        = (if has_dur then time e + duration e else time e)) ∧
      ∀ e ∈ events, (if has_dur then time e + duration e else time e)
        ≤ end_ unit_min has_dur time duration events := by
  have he : events.isEmpty = false := by
    cases events with
    | nil => exact absurd rfl hne
    | cons e es => rfl
  unfold end_
  rw [he]
  simp only [Bool.false_eq_true, if_false]
  obtain ⟨h1, h2, h3⟩ := foldl_max_spec
    (fun e => if has_dur then time e + duration e else time e) events unit_min
  refine ⟨?_, h2⟩
  rcases h3 with h3 | h3
  · cases events with
    | nil => exact absurd rfl hne
    | cons e es =>
      refine ⟨e, List.mem_cons_self _ _, ?_⟩
      exact le_antisymm (by rw [h3]; exact hmin e (List.mem_cons_self _ _))
        (h2 e (List.mem_cons_self _ _))
  · exact h3

/-- For 32-bit ticks: `start` and `end` of the empty collection are `0`, and for a collection
that is not empty, of events whose times and ends are 32-bit ticks (no sum `time + duration`
overflows), `start` is the least time and `end` the greatest end time. -/
theorem start_end_ticks (has_dur : Bool) (events : List (Event P)) :
    start i32_max (fun e : Event P => e.time) ([] : List (Event P)) = 0 ∧
    end_ i32_min has_dur (fun e : Event P => e.time) (fun e => e.duration)
      ([] : List (Event P)) = 0 ∧
    (events ≠ [] →
      (∀ e ∈ events, in_i32 e.time ∧
        in_i32 (if has_dur then e.time + e.duration else e.time)) →
      ((∃ e ∈ events, start i32_max (fun e : Event P => e.time) events = e.time) ∧
        ∀ e ∈ events, start i32_max (fun e : Event P => e.time) events ≤ e.time) ∧
      ((∃ e ∈ events, end_ i32_min has_dur (fun e : Event P => e.time) (fun e => e.duration)
          events = (if has_dur then e.time + e.duration else e.time)) ∧
        ∀ e ∈ events, (if has_dur then e.time + e.duration else e.time)
          ≤ end_ i32_min has_dur (fun e : Event P => e.time) (fun e => e.duration) events)) := by
  refine ⟨rfl, rfl, ?_⟩
  intro hne hb
  constructor
  · exact start_is_min i32_max _ events hne (fun e he => by
      have := (hb e he).1.2
      simp only [i32_max]
      omega)
  · exact end_is_max i32_min has_dur _ _ events hne (fun e he => by
      have := (hb e he).2.1
      simp only [i32_min]
      exact this)

/-- C15 (failing input): for a real-valued unit, the time-only collection that holds one
event at time `-1` has the greatest time `-1`, but `end` returns
`std::numeric_limits<f32>::min()`, the smallest positive normal value `2^-126`. -/
theorem end_of_negative_real_time :
    end_ f32_min false RealEvent.time RealEvent.duration
        ([⟨-1, 0, ()⟩] : List (RealEvent Unit)) = f32_min ∧
    (0 : ℚ) < f32_min ∧
    (∀ e ∈ ([⟨-1, 0, ()⟩] : List (RealEvent Unit)), e.time ≤ -1) ∧
    end_ f32_min false RealEvent.time RealEvent.duration
        ([⟨-1, 0, ()⟩] : List (RealEvent Unit)) ≠ -1 := by
  have h1 : end_ f32_min false RealEvent.time RealEvent.duration
      ([⟨-1, 0, ()⟩] : List (RealEvent Unit)) = f32_min := by
    simp [end_, f32_min]
    norm_num
  have h2 : (0 : ℚ) < f32_min := by
    unfold f32_min
    positivity
  refine ⟨h1, h2, by simp, ?_⟩
  rw [h1]
  intro h
  rw [h] at h2
  norm_num at h2

/-! ## Durations and payloads of the result of `adjust_time_sorted` -/

theorem maps_to_in_i32 (fc : Bool) {o n : List Int} (hlen : o.length = n.length) {t v : Int}
    (h : maps_to fc o n t v) : in_i32 v := by
  obtain ⟨k, ⟨a1, a2, _, _⟩, hv⟩ := h
  exact (segment_value_real fc hlen a1 a2 hv).2

/-- Two points of the domain, the second not before the first, are mapped in the same order,
when the values of the curve are not negative. -/
theorem maps_to_mono (fc : Bool) {o n : List Int} (hlen : o.length = n.length)
    (ho : o.Pairwise (· ≤ ·)) (hn : n.Pairwise (· ≤ ·)) (hn0 : ∀ x ∈ n, 0 ≤ x)
    (hbo : ∀ x ∈ o, in_i32 x) (hdo : ∀ x ∈ o, ∀ y ∈ o, in_i32 (x - y))
    (hbn : ∀ x ∈ n, in_i32 x) {t t1 s s1 : Int}
    (h0 : o.getD 0 0 ≤ t) (htt : t ≤ t1) (hs : maps_to fc o n t s)
    (hs1 : maps_to fc o n t1 s1) : s ≤ s1 := by
  obtain ⟨k, ⟨a1, a2, a3, a4⟩, hv⟩ := hs
  obtain ⟨k1, ⟨b1, b2, b3, b4⟩, hv1⟩ := hs1
  have hkk : k ≤ k1 := by
    by_contra hc
    have := a4 k1 (by omega) b1
    omega
  have hlo : o.getD (k - 1) 0 ≤ t := by
    by_cases hk : k = 1
    · subst hk
      exact h0
    · exact le_of_lt (a4 (k - 1) (by omega) (by omega))
  have hlo1 : o.getD (k1 - 1) 0 ≤ t1 := by
    by_cases hk : k1 = 1
    · subst hk
      exact le_trans h0 htt
    · exact le_of_lt (b4 (k1 - 1) (by omega) (by omega))
  have bo : ∀ i, i < o.length → in_i32 (o.getD i 0) := fun i hi => hbo _ (getD_mem hi)
  have ht : in_i32 t := by
    have c1 := bo (k - 1) (by omega)
    have c2 := bo k a2
    unfold in_i32 at *
    omega
  have ht1 : in_i32 t1 := by
    have c1 := bo (k1 - 1) (by omega)
    have c2 := bo k1 b2
    unfold in_i32 at *
    omega
  exact segment_value_mono fc hlen ho hn hn0 hbo hdo hbn a1 hkk b2 ht ht1 htt hlo a3 hlo1 hv
    hv1

theorem pairwise_le_of_lt {l : List Int} (h : l.Pairwise (· < ·)) : l.Pairwise (· ≤ ·) :=
  h.imp (fun hab => le_of_lt hab)

/-- C17 (amended): for events with non-negative duration inside the domain of the curve,
strictly increasing `original_times` and non-decreasing `new_times` that are not negative,
all values of the curve in the 32-bit range and any two `original_times` differing by less
than `2^31` (so that no subtraction of ticks overflows), `adjust_time_sorted` returns a
result and every duration of the result is `≥ 0`. -/
theorem adjust_time_sorted_duration_nonneg (fp_contract : Bool) (events : List (Event P))
    (original_times new_times : List Int)
    (hlen : original_times.length = new_times.length) (h2 : 2 ≤ original_times.length)
    (hinc : original_times.Pairwise (· < ·)) (hn : new_times.Pairwise (· ≤ ·))
    (hn0 : ∀ x ∈ new_times, 0 ≤ x)
    (hbo : ∀ x ∈ original_times, in_i32 x) (hbn : ∀ x ∈ new_times, in_i32 x)
    (hdo : ∀ x ∈ original_times, ∀ y ∈ original_times, in_i32 (x - y))
    (hdom : ∀ e ∈ events, 0 ≤ e.duration ∧ original_times.getD 0 0 ≤ e.time ∧
      e.time + e.duration ≤ original_times.getD (original_times.length - 1) 0) :
    ∃ out, adjust_time_sorted fp_contract true events original_times new_times = .ok out ∧
      ∀ e ∈ out, 0 ≤ e.duration := by
  have hdn : ∀ x ∈ new_times, ∀ y ∈ new_times, in_i32 (x - y) := by
    intro x hx y hy
    obtain ⟨a1, a2⟩ := hbn x hx
    obtain ⟨a3, a4⟩ := hbn y hy
    have a5 := hn0 x hx
    have a6 := hn0 y hy
    constructor <;> omega
  obtain ⟨out, mapped, h1, hm, hp⟩ :=
    with_duration_result fp_contract events original_times new_times hlen h2 hinc hbo hdo hdn
      hbn hdom
  refine ⟨out, h1, ?_⟩
  intro e he
  obtain ⟨e0, he0, s, en, hs, hen, rfl⟩ := forall₂_mem_right hm e (hp.mem_iff.1 he)
  have hd := hdom e0 he0
  have hle := maps_to_mono fp_contract hlen (pairwise_le_of_lt hinc) hn hn0 hbo hdo hbn hd.2.1
    (show e0.time ≤ e0.time + e0.duration by omega) hs hen
  obtain ⟨⟨lo, c1, c2⟩, _⟩ := maps_to_bounds fp_contract hlen hdo hdn hbn hd.2.1 hs
  have hlo : 0 ≤ lo := by
    rcases List.mem_cons.1 c1 with rfl | c1
    · exact le_refl _
    · exact hn0 lo c1
  obtain ⟨_, c3⟩ := maps_to_in_i32 fp_contract hlen hen
  have hr : in_i32 (en - s) := by
    constructor <;> omega
  simp only
  rw [wrap_i32_eq hr]
  omega

theorem adjust_time_sorted_duration_nonneg_witness :
    ([0, 50, 100] : List Int).length = ([0, 100, 300] : List Int).length ∧
    (∀ x ∈ ([0, 50, 100] : List Int), ∀ y ∈ ([0, 50, 100] : List Int), in_i32 (x - y)) ∧
    adjust_time_sorted false true ([⟨40, 20, ()⟩, ⟨50, 0, ()⟩] : List (Event Unit))
      [0, 50, 100] [0, 100, 300] = .ok [⟨80, 60, ()⟩, ⟨100, 0, ()⟩] ∧
    ∃ out, adjust_time_sorted false true ([⟨40, 20, ()⟩, ⟨50, 0, ()⟩] : List (Event Unit))
        [0, 50, 100] [0, 100, 300] = .ok out ∧ ∀ e ∈ out, 0 ≤ e.duration :=
  ⟨by decide, by simp [in_i32], by decide!,
    adjust_time_sorted_duration_nonneg false
      ([⟨40, 20, ()⟩, ⟨50, 0, ()⟩] : List (Event Unit))
      [0, 50, 100] [0, 100, 300] (by decide) (by decide) (by decide) (by decide) (by decide)
      (by simp [in_i32]) (by simp [in_i32]) (by simp [in_i32]) (by decide)⟩

/-- C17 (counterexample): the note `{time = 7, duration = 1}` lies inside the domain of the
curve `[0, 7, 8] → [-30, -1, -1]`, which has strictly increasing `original_times` and
non-decreasing `new_times`; its start is mapped to `0` (the `f64` value `-0.9999999999999964`
truncated toward zero) and its end to `-1`, so the returned duration is `-1`; with the
product and the sum fused the result is the same.  No subtraction of ticks overflows here. -/
theorem adjust_time_sorted_negative_duration :
    ([0, 7, 8] : List Int).Pairwise (· < ·) ∧ ([-30, -1, -1] : List Int).Pairwise (· ≤ ·) ∧
    (∀ e ∈ ([⟨7, 1, ()⟩] : List (Event Unit)), 0 ≤ e.duration ∧ 0 ≤ e.time ∧
      e.time + e.duration ≤ 8) ∧
    adjust_time_sorted false true ([⟨7, 1, ()⟩] : List (Event Unit)) [0, 7, 8] [-30, -1, -1]
      = .ok [⟨0, -1, ()⟩] ∧
    adjust_time_sorted true true ([⟨7, 1, ()⟩] : List (Event Unit)) [0, 7, 8] [-30, -1, -1]
      = .ok [⟨0, -1, ()⟩] ∧
    ¬ ∀ e ∈ ([⟨0, -1, ()⟩] : List (Event Unit)), 0 ≤ e.duration := by
  refine ⟨by decide, by decide, by decide, by decide!, by decide!, by decide⟩

/-- What `adjust_time_sorted` keeps: the result has as many events as the copied range, and
the fields other than time and duration are those of the copied range, up to the order. -/
theorem adjust_time_sorted_payload_of_ok (fc has_dur : Bool) (events : List (Event P))
    (o n : List Int) (out : List (Event P))
    (h : adjust_time_sorted fc has_dur events o n = .ok out) :
    out.length = (kept_range has_dur events (o.getD 0 0) (o.getD (o.length - 1) 0)).length ∧
    out.length ≤ events.length ∧
    (out.map (fun e => e.payload)).Perm
      ((kept_range has_dur events (o.getD 0 0) (o.getD (o.length - 1) 0)).map
        (fun e => e.payload)) := by
  by_cases hv : o.length ≠ n.length ∨ o.length < 2
  · rw [adjust_time_sorted_invalid fc has_dur events o n hv] at h
    cases h
  have hlen : o.length = n.length := by
    by_contra hc
    exact hv (Or.inl hc)
  have h2 : 2 ≤ o.length := by
    by_contra hc
    exact hv (Or.inr (by omega))
  have hsubE : (kept_range has_dur events (o.getD 0 0) (o.getD (o.length - 1) 0)).Sublist
      events := (kept_range_sublist has_dur events _ _).trans (List.drop_sublist _ _)
  by_cases hK : kept_range has_dur events (o.getD 0 0) (o.getD (o.length - 1) 0) = []
  · rw [adjust_time_sorted_empty_range fc has_dur events o n hlen h2 hK] at h
    cases h
    rw [hK]
    exact ⟨rfl, Nat.zero_le _, List.Perm.refl _⟩
  have hne : events ≠ [] := by
    intro he
    apply hK
    have hsub := hsubE
    rw [he] at hsub ⊢
    exact List.sublist_nil.1 hsub
  obtain ⟨f1, hf1⟩ : ∃ f1, get_factor o n 1 = some f1 :=
    ⟨_, get_factor_eq hlen (le_refl 1) (show 1 < o.length by omega)⟩
  have hshape_payload : ∀ (key : Event P → Int) (update : Event P → Int → Event P)
      (l1 l2 : List (Event P)),
      List.Forall₂ (fun e e1 => ∃ v, e1 = update e v) l1 l2 →
      (∀ e v, (update e v).payload = e.payload) →
      l2.map (fun e => e.payload) = l1.map (fun e => e.payload) ∧ l2.length = l1.length := by
    intro key update l1 l2 hf hu
    induction hf with
    | nil => exact ⟨rfl, rfl⟩
    | cons hab _ ih =>
      obtain ⟨v, rfl⟩ := hab
      rw [List.map_cons, List.map_cons, hu, ih.1, List.length_cons, List.length_cons, ih.2]
      exact ⟨rfl, rfl⟩
  cases has_dur with
  | false =>
    rw [adjust_time_sorted_no_dur fc events o n hlen h2 hne hf1, time_pass_eq] at h
    have hs := hshape_payload (fun e => e.time) _ _ _
      (pivot_pass_shape _ _ _ o n _ _ _ _ h) (fun e v => by simp)
    exact ⟨hs.2, by rw [hs.2]; exact hsubE.length_le, by rw [hs.1]⟩
  | true =>
    cases hd : duration_pass fc o n
        (insertion_sort (fun a b => decide (get_end true a < get_end true b))
          (kept_range true events (o.getD 0 0) (o.getD (o.length - 1) 0))) 1 f1 with
    | error err =>
      rw [adjust_time_sorted_dur_error fc events o n hlen h2 hne hf1 hK hd] at h
      cases h
    | ok w =>
      rw [adjust_time_sorted_dur fc events o n hlen h2 hne hf1 hK hd, time_pass_eq] at h
      rw [duration_pass_eq] at hd
      have hs1 := hshape_payload (get_end true) _ _ _
        (pivot_pass_shape _ _ _ o n _ _ _ _ hd) (fun e v => rfl)
      have hs2 := hshape_payload (fun e => e.time) _ _ _
        (pivot_pass_shape _ _ _ o n _ _ _ _ h) (fun e v => by simp)
      have hp1 := insertion_sort_perm
        (fun a b : Event P => decide (get_end true a < get_end true b))
        (kept_range true events (o.getD 0 0) (o.getD (o.length - 1) 0))
      have hp2 := insertion_sort_perm (time_dur_less (P := P)) w
      have hl : out.length
          = (kept_range true events (o.getD 0 0) (o.getD (o.length - 1) 0)).length := by
        rw [hs2.2, hp2.length_eq, hs1.2, hp1.length_eq]
      refine ⟨hl, by rw [hl]; exact hsubE.length_le, ?_⟩
      rw [hs2.1]
      refine (hp2.map _).trans ?_
      rw [hs1.1]
      exact hp1.map _

/-- C18: whenever `adjust_time_sorted` returns a result, the result has at most as many
events as the input (as many as the copied range `[begin_event, end_event)`), and the
fields other than time and duration of its events are, as a multiset, those of the copied
range. -/
theorem adjust_time_sorted_payload (fp_contract has_dur : Bool) (events : List (Event P))
    (original_times new_times : List Int) (out : List (Event P))
    (h : adjust_time_sorted fp_contract has_dur events original_times new_times = .ok out) :
    out.length ≤ events.length ∧
    out.length = (kept_range has_dur events (original_times.getD 0 0)
      (original_times.getD (original_times.length - 1) 0)).length ∧
    (out.map (fun e => e.payload)).Perm
      ((kept_range has_dur events (original_times.getD 0 0)
        (original_times.getD (original_times.length - 1) 0)).map (fun e => e.payload)) :=
  ⟨(adjust_time_sorted_payload_of_ok fp_contract has_dur events _ _ out h).2.1,
    (adjust_time_sorted_payload_of_ok fp_contract has_dur events _ _ out h).1,
    (adjust_time_sorted_payload_of_ok fp_contract has_dur events _ _ out h).2.2⟩

theorem adjust_time_sorted_payload_witness :
    adjust_time_sorted false true
        ([⟨-5, 3, 60⟩, ⟨10, 30, 61⟩, ⟨40, 20, 62⟩, ⟨60, 100, 63⟩] : List (Event Nat))
        [0, 50, 100] [0, 100, 300] = .ok [⟨20, 60, 61⟩, ⟨80, 60, 62⟩] ∧
    kept_range true
        ([⟨-5, 3, 60⟩, ⟨10, 30, 61⟩, ⟨40, 20, 62⟩, ⟨60, 100, 63⟩] : List (Event Nat)) 0 100
      = [⟨10, 30, 61⟩, ⟨40, 20, 62⟩] ∧
    (([⟨20, 60, 61⟩, ⟨80, 60, 62⟩] : List (Event Nat)).map (fun e => e.payload)).Perm
      ((kept_range true
        ([⟨-5, 3, 60⟩, ⟨10, 30, 61⟩, ⟨40, 20, 62⟩, ⟨60, 100, 63⟩] : List (Event Nat))
        (([0, 50, 100] : List Int).getD 0 0)
        (([0, 50, 100] : List Int).getD (([0, 50, 100] : List Int).length - 1) 0)).map
        (fun e => e.payload)) :=
  ⟨by decide!, by decide,
    (adjust_time_sorted_payload false true
      ([⟨-5, 3, 60⟩, ⟨10, 30, 61⟩, ⟨40, 20, 62⟩, ⟨60, 100, 63⟩] : List (Event Nat))
      [0, 50, 100] [0, 100, 300] [⟨20, 60, 61⟩, ⟨80, 60, 62⟩] (by decide!)).2.2⟩

end ops

end symusic
